import Mathlib

/-!
# MyAlchemy viewer utilities: a verification development

Shallow embedding of three small utilities of the viewer sources and proofs
about them:

* `LLUUID` / `LLMaterialID` (`indra/llcommon/lluuid.h`,
  `indra/llprimitive/llmaterialid.h`): the SSE comparison, equality and
  null tests on 16-byte identifiers;
* `LLKeywords` (`indra/llui/llkeywords.cpp`): the map index ordering and the
  segment finder of the script editor;
* `LLDiskCache` (`indra/llfilesystem/lldiskcache.h`): the documented purge.

Machine integers are natural numbers with explicit reduction modulo `2 ^ w`
where wrap-around can occur.
-/

namespace MyAlchemy

/-! ## SSE registers and the intrinsics used by the identifier types -/

/-- The unsigned 8-bit type `U8`. -/
abbrev U8 := Fin 256

/-- The register type `__m128i`, viewed as 16 bytes; byte 0 is the byte at
the lowest address (little endian: the least significant byte). -/
abbrev M128i := Fin 16 → U8

/-- The helper `load_unaligned_si128(p)`, i.e. `_mm_loadu_si128`: the 16
bytes at `p` become the register content. -/
def load_unaligned_si128 (p : Fin 16 → U8) : M128i := p

/-- The intrinsic `_mm_setzero_si128()`. -/
def _mm_setzero_si128 : M128i := fun _ => 0

/-- The intrinsic `_mm_xor_si128(a, b)`: bitwise exclusive or. -/
def _mm_xor_si128 (a b : M128i) : M128i :=
  fun i => ⟨(a i).val ^^^ (b i).val, @Nat.xor_lt_two_pow _ _ 8 (a i).isLt (b i).isLt⟩

/-- The value of a byte read as a signed 8-bit integer. -/
def toS8 (x : U8) : Int := if x.val < 128 then (x.val : Int) else (x.val : Int) - 256

/-- The intrinsic `_mm_cmpgt_epi8(a, b)`: per byte, `0xFF` when `a > b` as
signed 8-bit integers and `0` otherwise. -/
def _mm_cmpgt_epi8 (a b : M128i) : M128i :=
  fun i => if toS8 (a i) > toS8 (b i) then 255 else 0

/-- The `k`-th packed 32-bit integer of a register (little endian). -/
def lane32 (a : M128i) (k : Fin 4) : Nat :=
  (a ⟨4 * k.val, by omega⟩).val + 2 ^ 8 * (a ⟨4 * k.val + 1, by omega⟩).val
    + 2 ^ 16 * (a ⟨4 * k.val + 2, by omega⟩).val + 2 ^ 24 * (a ⟨4 * k.val + 3, by omega⟩).val

/-- The intrinsic `_mm_cmpeq_epi32(a, b)`: per packed 32-bit integer,
`0xFFFFFFFF` when the two are equal and `0` otherwise. -/
def _mm_cmpeq_epi32 (a b : M128i) : M128i :=
  fun i => if lane32 a ⟨i.val / 4, by omega⟩ = lane32 b ⟨i.val / 4, by omega⟩ then 255 else 0

/-- The number whose bit `i` is the `i`-th entry of the list. -/
def maskOfBits : List Bool → Nat
  | [] => 0
  | b :: bs => (if b then 1 else 0) + 2 * maskOfBits bs

/-- The intrinsic `_mm_movemask_epi8(a)`: bit `i` of the result is the most
significant bit of byte `i`. -/
def _mm_movemask_epi8 (a : M128i) : Nat :=
  maskOfBits (List.ofFn fun i => decide (128 ≤ (a i).val))

/-- The intrinsic `_mm_test_all_zeros(mask, a)`: `1` when `mask & a` has no
bit set, `0` otherwise. -/
def _mm_test_all_zeros (mask a : M128i) : Nat :=
  if ∀ i : Fin 16, (mask i).val &&& (a i).val = 0 then 1 else 0

/-- The `uint32_t` expression `(x - 1u) ^ x`. -/
def lowestBitTrick (x : Nat) : Nat := ((x + 2 ^ 32 - 1) % 2 ^ 32) ^^^ x

/-- The body shared by `LLUUID::operator<` and `LLMaterialID::operator<`. -/
def simdLess (left right : Fin 16 → U8) : Bool :=
  let mm_left := load_unaligned_si128 left
  let mm_right := load_unaligned_si128 right
  let mm_signs_mask := _mm_xor_si128 mm_left mm_right
  let mm_cmp := _mm_cmpgt_epi8 mm_right mm_left
  let mm_rcmp := _mm_cmpgt_epi8 mm_left mm_right
  let mm_cmp := _mm_xor_si128 mm_signs_mask mm_cmp
  let mm_rcmp := _mm_xor_si128 mm_signs_mask mm_rcmp
  let cmp := _mm_movemask_epi8 mm_cmp % 2 ^ 32
  let rcmp := _mm_movemask_epi8 mm_rcmp % 2 ^ 32
  let cmp := lowestBitTrick cmp
  let rcmp := lowestBitTrick rcmp
  decide (cmp < rcmp)

/-! ## `LLUUID` -/

/-- The class `LLUUID`: its only data member is `U8 mData[UUID_BYTES]`. -/
structure LLUUID where
  mData : Fin 16 → U8

/-- The static member `LLUUID::null`, a default-constructed id: `mData` is
value-initialised by its default member initialiser
(`U8 mData[UUID_BYTES] = {}`), so all 16 bytes are zero. -/
def LLUUID.null : LLUUID := ⟨fun _ => 0⟩

/-- The member `LLUUID::isNull`; `sse41` selects the `__SSE4_1__` branch of
the conditional compilation. -/
def LLUUID.isNull (sse41 : Bool) (self : LLUUID) : Bool :=
  let mm := load_unaligned_si128 self.mData
  if sse41 then
    _mm_test_all_zeros mm mm != 0
  else
    let mm := _mm_cmpeq_epi32 mm _mm_setzero_si128
    _mm_movemask_epi8 mm == 0xFFFF

/-- The member `LLUUID::notNull`. -/
def LLUUID.notNull (sse41 : Bool) (self : LLUUID) : Bool := !self.isNull sse41

/-- The member `LLUUID::operator<`. -/
def LLUUID.operator_lt (self rhs : LLUUID) : Bool := simdLess self.mData rhs.mData

/-- The member `LLUUID::operator>`. -/
def LLUUID.operator_gt (self rhs : LLUUID) : Bool := rhs.operator_lt self

/-- The functor `lluuid_less`. -/
def lluuid_less (lhs rhs : LLUUID) : Bool := if lhs.operator_lt rhs then true else false

/-! ## `LLMaterialID` -/

/-- The class `LLMaterialID`: its only data member is
`U8 mID[MATERIAL_ID_SIZE]`. -/
structure LLMaterialID where
  mID : Fin 16 → U8

/-- The static member `LLMaterialID::null`, a default-constructed id: `mID` is
value-initialised by its default member initialiser
(`U8 mID[MATERIAL_ID_SIZE] = {}`). -/
def LLMaterialID.null : LLMaterialID := ⟨fun _ => 0⟩

/-- The member `LLMaterialID::operator==`; `sse41` selects the `__SSE4_1__`
branch of the conditional compilation. -/
def LLMaterialID.operator_eq (sse41 : Bool) (self rhs : LLMaterialID) : Bool :=
  let mm_left := load_unaligned_si128 self.mID
  let mm_right := load_unaligned_si128 rhs.mID
  if sse41 then
    let mm := _mm_xor_si128 mm_left mm_right
    _mm_test_all_zeros mm mm != 0
  else
    let mm_cmp := _mm_cmpeq_epi32 mm_left mm_right
    _mm_movemask_epi8 mm_cmp == 0xFFFF

/-- The member `LLMaterialID::operator!=`. -/
def LLMaterialID.operator_ne (sse41 : Bool) (self rhs : LLMaterialID) : Bool :=
  !self.operator_eq sse41 rhs

/-- The member `LLMaterialID::operator<`. -/
def LLMaterialID.operator_lt (self rhs : LLMaterialID) : Bool := simdLess self.mID rhs.mID

/-- The member `LLMaterialID::operator>`. -/
def LLMaterialID.operator_gt (self rhs : LLMaterialID) : Bool := rhs.operator_lt self

/-- The member `LLMaterialID::isNull`. -/
def LLMaterialID.isNull (sse41 : Bool) (self : LLMaterialID) : Bool :=
  let mm := load_unaligned_si128 self.mID
  if sse41 then
    _mm_test_all_zeros mm mm != 0
  else
    let mm := _mm_cmpeq_epi32 mm _mm_setzero_si128
    _mm_movemask_epi8 mm == 0xFFFF

/-- The algorithm `std::lexicographical_compare` on two byte ranges with the
default `<` of `U8`: the first mismatching position decides; when one range is
exhausted first the result says whether it was the first range. -/
def lexicographical_compare : List U8 → List U8 → Bool
  | [], [] => false
  | [], _ :: _ => true
  | _ :: _, [] => false
  | x :: xs, y :: ys =>
    if x < y then true
    else if y < x then false
    else lexicographical_compare xs ys

/-! ## `LLKeywords::WStringMapIndex` -/

/-- The character type `llwchar`: a 32-bit wide character, represented by its
code point. -/
abbrev llwchar := Nat

/-- The string type `LLWString` (`std::basic_string<llwchar>`). -/
abbrev LLWString := List llwchar

/-- The class `LLKeywords::WStringMapIndex`. The pair `mData`, `mLength` of the
source denotes the character range `[mData, mData + mLength)`; the field
`mData` holds that range and `mLength` is its length. `mOwner` records
whether the index owns a private copy of the characters. -/
structure WStringMapIndex where
  mData : List llwchar
  mOwner : Bool

/-- The member `mLength`. -/
def WStringMapIndex.mLength (self : WStringMapIndex) : Nat := self.mData.length

/-- The helper `WStringMapIndex::copyData(start, length)`: the index becomes
the owner of a copy of the characters. -/
def WStringMapIndex.copyData (start : List llwchar) : WStringMapIndex :=
  { mData := start, mOwner := true }

/-- The copy constructor `WStringMapIndex(const WStringMapIndex& other)`. -/
def WStringMapIndex.copy (other : WStringMapIndex) : WStringMapIndex :=
  if other.mOwner then
    WStringMapIndex.copyData other.mData
  else
    { mOwner := false, mData := other.mData }

/-- The constructor `WStringMapIndex(const LLWString& str)`. -/
def WStringMapIndex.ofString (str : LLWString) : WStringMapIndex :=
  WStringMapIndex.copyData str

/-- The constructor `WStringMapIndex(const llwchar *start, size_t length)`,
where the argument is the range `[start, start + length)`. -/
def WStringMapIndex.ofRange (start : List llwchar) : WStringMapIndex :=
  { mData := start, mOwner := false }

/-- The loop of `WStringMapIndex::operator<` on the remaining ranges
`[self_iter, self_end)` and `[other_iter, other_end)`. -/
def WStringMapIndex.operator_lt_loop : List llwchar → List llwchar → Bool
  | _, [] => false
  | [], _ :: _ => true
  | x :: xs, y :: ys =>
    if x ≠ y then decide (x < y)
    else WStringMapIndex.operator_lt_loop xs ys

/-- The member `WStringMapIndex::operator<`. -/
def WStringMapIndex.operator_lt (self other : WStringMapIndex) : Bool :=
  WStringMapIndex.operator_lt_loop self.mData other.mData

/-! ## `LLKeywords` -/

/-- The enumeration `LLKeywordToken::ETokenType`, with the enumerators used in
`llkeywords.cpp`. -/
inductive ETokenType
  | TT_UNKNOWN
  | TT_WORD
  | TT_LINE
  | TT_TWO_SIDED_DELIMITER
  | TT_ONE_SIDED_DELIMITER
  | TT_DOUBLE_QUOTATION_MARKS
  | TT_CONSTANT
  | TT_CONTROL
  | TT_EVENT
  | TT_FUNCTION
  | TT_LABEL
  | TT_SECTION
  | TT_TYPE
  | TT_PREPROC
  deriving DecidableEq, Repr

/-- The class `LLKeywordToken`: its type, its token string and, for a
delimiter, the closing string. Colour and tool tip play no part in the
segmentation and are left out. -/
structure LLKeywordToken where
  mType : ETokenType
  mToken : LLWString
  mDelimiter : LLWString
  deriving DecidableEq, Repr

/-- The character `s[i]` of the buffer `wtext.c_str()`: the characters of
`wtext` followed by the terminating `0`. A position past the terminator, which
the code reads only when a token itself holds the character `0`, reads as `0`
here. -/
def charAt (wtext : LLWString) (i : Nat) : llwchar := wtext.getD i 0

/-- The loop shared by `LLKeywordToken::isHead` and `LLKeywordToken::isTail`:
`t` holds the characters of the token not yet compared and `s` is the position
of the character compared with the first of them. -/
def matchesAt : List llwchar → LLWString → Nat → Bool
  | [], _, _ => true
  | t :: ts, wtext, s =>
    if charAt wtext s ≠ t then false
    else matchesAt ts wtext (s + 1)

/-- The member `LLKeywordToken::isHead(s)`, for `s` the position `cur`. -/
def LLKeywordToken.isHead (self : LLKeywordToken) (wtext : LLWString) (s : Nat) : Bool :=
  matchesAt self.mToken wtext s

/-- The member `LLKeywordToken::isTail(s)`, for `s` the position `cur`. -/
def LLKeywordToken.isTail (self : LLKeywordToken) (wtext : LLWString) (s : Nat) : Bool :=
  matchesAt self.mDelimiter wtext s

/-- The member `LLKeywordToken::getLengthHead`. -/
def LLKeywordToken.getLengthHead (self : LLKeywordToken) : Nat := self.mToken.length

/-- The member `LLKeywordToken::getLengthTail`. -/
def LLKeywordToken.getLengthTail (self : LLKeywordToken) : Nat := self.mDelimiter.length

/-- The member `LLKeywordToken::getType`. -/
def LLKeywordToken.getType (self : LLKeywordToken) : ETokenType := self.mType

/-- The token tables of the class `LLKeywords`. `mWordTokenMap` is a
`std::map` keyed by `WStringMapIndex`, kept as an association list; the two
token lists have their front first. -/
structure LLKeywords where
  mWordTokenMap : List (WStringMapIndex × LLKeywordToken)
  mLineTokenList : List LLKeywordToken
  mDelimiterTokenList : List LLKeywordToken

/-- The lookup `mWordTokenMap.find(word)` of `std::map`: the entry whose key is
equivalent to `word`, neither being less than the other. -/
def wordTokenMapFind (m : List (WStringMapIndex × LLKeywordToken)) (word : WStringMapIndex) :
    Option LLKeywordToken :=
  (m.find? fun e => !e.1.operator_lt word && !word.operator_lt e.1).map Prod.snd

/-- The assignment `mWordTokenMap[key] = token` of `std::map`: the value of
an equivalent key is replaced, otherwise a new entry is made. -/
def wordTokenMapAssign (m : List (WStringMapIndex × LLKeywordToken)) (key : WStringMapIndex)
    (token : LLKeywordToken) : List (WStringMapIndex × LLKeywordToken) :=
  if (m.any fun e => !e.1.operator_lt key && !key.operator_lt e.1) then
    m.map fun e => if !e.1.operator_lt key && !key.operator_lt e.1 then (e.1, token) else e
  else
    m ++ [(key, token)]

/-- The member `LLKeywords::addToken(type, key, color, tool_tip, delimiter)`.
The `default` case of its `switch`, reached for `TT_UNKNOWN`, only asserts and
registers nothing. -/
def LLKeywords.addToken (self : LLKeywords) (type : ETokenType) (key : LLWString)
    (delimiter : LLWString) : LLKeywords :=
  match type with
  | .TT_CONSTANT | .TT_CONTROL | .TT_EVENT | .TT_FUNCTION | .TT_LABEL | .TT_SECTION
  | .TT_TYPE | .TT_PREPROC | .TT_WORD =>
    let token : LLKeywordToken := { mType := type, mToken := key, mDelimiter := [] }
    { self with
      mWordTokenMap :=
        wordTokenMapAssign self.mWordTokenMap (WStringMapIndex.ofString key) token }
  | .TT_LINE =>
    let token : LLKeywordToken := { mType := type, mToken := key, mDelimiter := [] }
    { self with mLineTokenList := token :: self.mLineTokenList }
  | .TT_TWO_SIDED_DELIMITER | .TT_DOUBLE_QUOTATION_MARKS | .TT_ONE_SIDED_DELIMITER =>
    let token : LLKeywordToken := { mType := type, mToken := key, mDelimiter := delimiter }
    { self with mDelimiterTokenList := token :: self.mDelimiterTokenList }
  | .TT_UNKNOWN => self

/-- The four `addToken` calls with which `LLKeywords::processTokens` registers
the label, the comments and the string literal, before it walks the syntax
file: `"@"`, `"//"`, `"/*"` with `"*/"`, and the double quotation mark. -/
def LLKeywords.processTokensStandard (self : LLKeywords) : LLKeywords :=
  let self := self.addToken .TT_LABEL [64] []
  let self := self.addToken .TT_ONE_SIDED_DELIMITER [47, 47] []
  let self := self.addToken .TT_TWO_SIDED_DELIMITER [47, 42] [42, 47]
  let self := self.addToken .TT_DOUBLE_QUOTATION_MARKS [34] [34]
  self

/-- The two classes of text segment that `findSegments` creates. -/
inductive SegmentClass
  | LLNormalTextSegment
  | LLLineBreakTextSegment
  deriving DecidableEq, Repr

/-- The class `LLTextSegment` as far as `LLKeywords` uses it: the range
`[mStart, mEnd)` and the token set with `setToken` (none for the null
pointer). Positions and lengths, `S32` in the source, are natural numbers: they
never exceed `wtext.size() + 1`, so that the arithmetic of the source does not
wrap for a text of fewer than `2 ^ 31 - 1` characters. -/
structure LLTextSegment where
  cls : SegmentClass
  mStart : Nat
  mEnd : Nat
  mToken : Option LLKeywordToken
  deriving DecidableEq, Repr

/-- The constructor `LLNormalTextSegment(style, start, end, editor)`. -/
def LLNormalTextSegment (start end_ : Nat) : LLTextSegment :=
  { cls := .LLNormalTextSegment, mStart := start, mEnd := end_, mToken := none }

/-- Modelled from the spec: the constructor `LLLineBreakTextSegment(style, pos)`
is not among the sources; a line break segment covers the one character at
`pos`, the range `[pos, pos + 1)`. -/
def LLLineBreakTextSegment (pos : Nat) : LLTextSegment :=
  { cls := .LLLineBreakTextSegment, mStart := pos, mEnd := pos + 1, mToken := none }

/-- The member `LLTextSegment::setToken`. -/
def LLTextSegment.setToken (self : LLTextSegment) (token : Option LLKeywordToken) :
    LLTextSegment :=
  { self with mToken := token }

/-- The member `LLTextSegment::setEnd`. -/
def LLTextSegment.setEnd (self : LLTextSegment) (end_ : Nat) : LLTextSegment :=
  { self with mEnd := end_ }

/-- The member `LLKeywords::insertSegment`. The result is `none` when
`seg_list.back()` is taken of an empty vector. -/
def insertSegment (seg_list : List LLTextSegment) (new_segment : LLTextSegment)
    (text_len : Nat) : Option (List LLTextSegment) :=
  match seg_list.getLast? with
  | none => none
  | some last =>
    let new_seg_end := new_segment.mEnd
    let seg_list :=
      if new_segment.mStart = last.mStart then seg_list.dropLast
      else seg_list.dropLast ++ [last.setEnd new_segment.mStart]
    let seg_list := seg_list ++ [new_segment]
    if new_seg_end < text_len then
      some (seg_list ++ [LLNormalTextSegment new_seg_end text_len])
    else
      some seg_list

/-- The search `wtext.find(c, pos)` of `std::basic_string`, on the characters
from `pos` on; `i` is the position of the first of them. The result is `none`
for `npos`. -/
def findFrom (c : llwchar) : List llwchar → Nat → Option Nat
  | [], _ => none
  | x :: xs, i => if x = c then some i else findFrom c xs (i + 1)

/-- The call `wtext.find(c, pos)`. -/
def wtext_find (wtext : LLWString) (c : llwchar) (pos : Nat) : Option Nat :=
  findFrom c (wtext.drop pos) pos

/-- The loop of `LLKeywords::insertSegments`. `pos` is the result of the last
`wtext.find`; the result is the segment list and the value of `seg_start` at
the exit of the loop. The first argument bounds the number of iterations;
`none` is returned when it is used up. -/
def insertSegmentsLoop (wtext : LLWString) (cur_token : LLKeywordToken) (text_len seg_end : Nat) :
    Nat → List LLTextSegment → Nat → Option Nat → Option (List LLTextSegment × Nat)
  | 0, _, _, _ => none
  | fuel + 1, seg_list, seg_start, pos =>
    match pos with
    | none => some (seg_list, seg_start)
    | some pos =>
      if pos < seg_end then
        match (if pos ≠ seg_start then
            insertSegment seg_list
              ((LLNormalTextSegment seg_start pos).setToken (some cur_token)) text_len
          else some seg_list) with
        | none => none
        | some seg_list =>
          match insertSegment seg_list
              ((LLLineBreakTextSegment pos).setToken (some cur_token)) text_len with
          | none => none
          | some seg_list =>
            insertSegmentsLoop wtext cur_token text_len seg_end fuel seg_list (pos + 1)
              (wtext_find wtext 10 (pos + 1))
      else some (seg_list, seg_start)

/-- The member `LLKeywords::insertSegments`. -/
def insertSegments (wtext : LLWString) (seg_list : List LLTextSegment)
    (cur_token : LLKeywordToken) (text_len seg_start seg_end : Nat) :
    Option (List LLTextSegment) :=
  match insertSegmentsLoop wtext cur_token text_len seg_end (seg_end + 1) seg_list seg_start
      (wtext_find wtext 10 seg_start) with
  | none => none
  | some (seg_list, seg_start) =>
    insertSegment seg_list
      ((LLNormalTextSegment seg_start seg_end).setToken (some cur_token)) text_len

/-- The two character classification functions of the C library that
`findSegments` calls. -/
structure CType where
  iswspace : llwchar → Bool
  iswalnum : llwchar → Bool

/-- A loop of the form `while (cond(*cur)) cur++`. The first argument bounds
the number of iterations; `none` is returned when it is used up. -/
def scanWhile (cond : llwchar → Bool) (wtext : LLWString) : Nat → Nat → Option Nat
  | 0, _ => none
  | fuel + 1, cur =>
    if cond (charAt wtext cur) then scanWhile cond wtext fuel (cur + 1)
    else some cur

/-- The condition of the two loops "Skip white space":
`*cur && iswspace(*cur) && (*cur != '\n')`. -/
def isSkippedSpace (ct : CType) (c : llwchar) : Bool :=
  c != 0 && ct.iswspace c && c != 10

/-- The condition of the loops that run to the end of the line:
`*cur && *cur != '\n'`. -/
def isInLine (c : llwchar) : Bool :=
  c != 0 && c != 10

/-- The condition of the word loop:
`*p && (iswalnum(*p) || (*p == '_') || (*p == '#'))`. -/
def isWordLoopChar (ct : CType) (c : llwchar) : Bool :=
  c != 0 && (ct.iswalnum c || c == 95 || c == 35)

/-- The loop of the one-sided delimiter, which counts `between_delimiters`
while it runs to the end of the line. -/
def oneSidedLoop (wtext : LLWString) : Nat → Nat → Nat → Option (Nat × Nat)
  | 0, _, _ => none
  | fuel + 1, cur, between_delimiters =>
    if charAt wtext cur != 0 && (10 != charAt wtext cur) then
      oneSidedLoop wtext fuel (cur + 1) (between_delimiters + 1)
    else some (cur, between_delimiters)

/-- The loop "Count the number of backslashes":
`while (*cur == '\\') { num_backslashes++; between_delimiters++; cur++; }`.
The result is `cur`, `num_backslashes` and `between_delimiters` at its exit. -/
def countBackslashes (wtext : LLWString) : Nat → Nat → Nat → Nat → Option (Nat × Nat × Nat)
  | 0, _, _, _ => none
  | fuel + 1, cur, num_backslashes, between_delimiters =>
    if charAt wtext cur = 92 then
      countBackslashes wtext fuel (cur + 1) (num_backslashes + 1) (between_delimiters + 1)
    else some (cur, num_backslashes, between_delimiters)

/-- The loop `while (*cur && !cur_delimiter->isTail(cur))` of a two-sided
delimiter or of a string literal. The result is `cur` and
`between_delimiters` at its exit. -/
def delimitedLoop (cur_delimiter : LLKeywordToken) (wtext : LLWString) :
    Nat → Nat → Nat → Option (Nat × Nat)
  | 0, _, _ => none
  | fuel + 1, cur, between_delimiters =>
    if charAt wtext cur != 0 && !cur_delimiter.isTail wtext cur then
      if cur_delimiter.getType = .TT_DOUBLE_QUOTATION_MARKS && charAt wtext cur = 92 then
        match countBackslashes wtext fuel cur 0 between_delimiters with
        | none => none
        | some (cur, num_backslashes, between_delimiters) =>
          if cur_delimiter.isTail wtext cur then
            if num_backslashes % 2 = 1 then
              delimitedLoop cur_delimiter wtext fuel (cur + 1) (between_delimiters + 1)
            else some (cur, between_delimiters)
          else delimitedLoop cur_delimiter wtext fuel cur between_delimiters
      else delimitedLoop cur_delimiter wtext fuel (cur + 1) (between_delimiters + 1)
    else some (cur, between_delimiters)

/-- The block "Check against delimiters" once `cur_delimiter` is found at
`cur`: the scan to the end of the delimited text and the call of
`insertSegments`. The result is `cur` and the segment list. -/
def delimiterSegment (wtext : LLWString) (text_len : Nat) (cur_delimiter : LLKeywordToken)
    (fuel cur : Nat) (seg_list : List LLTextSegment) : Option (Nat × List LLTextSegment) :=
  let seg_start := cur
  let cur := cur + cur_delimiter.getLengthHead
  let type := cur_delimiter.getType
  match (if type = .TT_TWO_SIDED_DELIMITER || type = .TT_DOUBLE_QUOTATION_MARKS then
      match delimitedLoop cur_delimiter wtext fuel cur 0 with
      | none => none
      | some (cur, between_delimiters) =>
        if charAt wtext cur != 0 then
          some (cur + cur_delimiter.getLengthHead,
            seg_start + between_delimiters + cur_delimiter.getLengthHead
              + cur_delimiter.getLengthTail)
        else
          some (cur, seg_start + between_delimiters + cur_delimiter.getLengthHead)
    else
      match oneSidedLoop wtext fuel cur 0 with
      | none => none
      | some (cur, between_delimiters) =>
        some (cur, seg_start + between_delimiters + cur_delimiter.getLengthHead)) with
  | none => none
  | some (cur, seg_end) =>
    match insertSegments wtext seg_list cur_delimiter text_len seg_start seg_end with
    | none => none
    | some seg_list => some (cur, seg_list)

/-- The inner loop `while (*cur && *cur != '\n')` of `findSegments`, which
checks `cur` against the delimiters and then against the words. The result is
`cur` and the segment list at its exit. -/
def lineLoop (self : LLKeywords) (ct : CType) (wtext : LLWString) (text_len : Nat) :
    Nat → Nat → List LLTextSegment → Option (Nat × List LLTextSegment)
  | 0, _, _ => none
  | fuel + 1, cur, seg_list =>
    if charAt wtext cur != 0 && charAt wtext cur != 10 then
      match self.mDelimiterTokenList.find? (fun delimiter => delimiter.isHead wtext cur) with
      | some cur_delimiter =>
        match delimiterSegment wtext text_len cur_delimiter fuel cur seg_list with
        | none => none
        | some (cur, seg_list) => lineLoop self ct wtext text_len fuel cur seg_list
      | none =>
        let prev := if cur > 0 then charAt wtext (cur - 1) else 0
        if !ct.iswalnum prev && (prev != 95) && (prev != 35) then
          match scanWhile (isWordLoopChar ct) wtext fuel cur with
          | none => none
          | some p =>
            let seg_len := p - cur
            if seg_len > 0 then
              let word := WStringMapIndex.ofRange ((wtext.drop cur).take seg_len)
              match wordTokenMapFind self.mWordTokenMap word with
              | some cur_token =>
                let seg_start := cur
                let seg_end := seg_start + seg_len
                match insertSegments wtext seg_list cur_token text_len seg_start seg_end with
                | none => none
                | some seg_list => lineLoop self ct wtext text_len fuel (cur + seg_len) seg_list
              | none => lineLoop self ct wtext text_len fuel (cur + seg_len) seg_list
            else
              if charAt wtext cur != 0 && charAt wtext cur != 10 then
                lineLoop self ct wtext text_len fuel (cur + 1) seg_list
              else lineLoop self ct wtext text_len fuel cur seg_list
        else
          if charAt wtext cur != 0 && charAt wtext cur != 10 then
            lineLoop self ct wtext text_len fuel (cur + 1) seg_list
          else lineLoop self ct wtext text_len fuel cur seg_list
    else some (cur, seg_list)

/-- The block of `findSegments` guarded by `*cur == '\n' || cur == base`: the
line break segment, the white space at the start of the line and the line
start tokens. The flag of the result is true when the block leaves through one
of its `continue` statements. -/
def lineStart (self : LLKeywords) (ct : CType) (wtext : LLWString) (text_len : Nat)
    (fuel cur : Nat) (seg_list : List LLTextSegment) :
    Option (Bool × Nat × List LLTextSegment) :=
  match (if charAt wtext cur = 10 then
      match insertSegment seg_list ((LLLineBreakTextSegment cur).setToken none) text_len with
      | none => none
      | some seg_list =>
        let cur := cur + 1
        if charAt wtext cur = 0 || charAt wtext cur = 10 then some (true, cur, seg_list)
        else some (false, cur, seg_list)
    else some (false, cur, seg_list)) with
  | none => none
  | some (true, cur, seg_list) => some (true, cur, seg_list)
  | some (false, cur, seg_list) =>
    match scanWhile (isSkippedSpace ct) wtext fuel cur with
    | none => none
    | some cur =>
      if charAt wtext cur = 0 || charAt wtext cur = 10 then some (true, cur, seg_list)
      else
        match self.mLineTokenList.find? (fun cur_token => cur_token.isHead wtext cur) with
        | some cur_token =>
          let seg_start := cur
          match scanWhile isInLine wtext fuel cur with
          | none => none
          | some cur =>
            let seg_end := cur
            match insertSegments wtext seg_list cur_token text_len seg_start seg_end with
            | none => none
            | some seg_list => some (true, cur, seg_list)
        | none => some (false, cur, seg_list)

/-- The outer loop `while (*cur)` of `findSegments`. -/
def findSegmentsLoop (self : LLKeywords) (ct : CType) (wtext : LLWString) (text_len : Nat) :
    Nat → Nat → List LLTextSegment → Option (List LLTextSegment)
  | 0, _, _ => none
  | fuel + 1, cur, seg_list =>
    if charAt wtext cur != 0 then
      match (if charAt wtext cur = 10 || cur = 0 then
          lineStart self ct wtext text_len fuel cur seg_list
        else some (false, cur, seg_list)) with
      | none => none
      | some (true, cur, seg_list) => findSegmentsLoop self ct wtext text_len fuel cur seg_list
      | some (false, cur, seg_list) =>
        match scanWhile (isSkippedSpace ct) wtext fuel cur with
        | none => none
        | some cur =>
          match lineLoop self ct wtext text_len fuel cur seg_list with
          | none => none
          | some (cur, seg_list) => findSegmentsLoop self ct wtext text_len fuel cur seg_list
    else some seg_list

/-- The member `LLKeywords::findSegments`: the segment list it leaves in
`*seg_list`. The iteration bound handed to the loops of this embedding is
`wtext.size() + 4`; `findSegmentsLoop_spec` shows that it is never used up. -/
def LLKeywords.findSegments (self : LLKeywords) (ct : CType) (wtext : LLWString) :
    Option (List LLTextSegment) :=
  if wtext.isEmpty then some []
  else
    let text_len := wtext.length + 1
    findSegmentsLoop self ct wtext text_len (wtext.length + 4) 0
      [LLNormalTextSegment 0 text_len]

/-- The constructor `LLKeywords()`: no token is registered. -/
def LLKeywords.empty : LLKeywords :=
  { mWordTokenMap := [], mLineTokenList := [], mDelimiterTokenList := [] }

/-- The delimiter tokens that `processTokens` registers. -/
def standardDelimiters : List LLKeywordToken :=
  LLKeywords.empty.processTokensStandard.mDelimiterTokenList

/-- The segments of the list, in order, lead from position `a` to position
`b`: the first starts at `a`, each ends where the next starts, and the last
ends at `b`. -/
def Tiles : Nat → List LLTextSegment → Nat → Prop
  | a, [], b => a = b
  | a, s :: ss, b => s.mStart = a ∧ Tiles s.mEnd ss b

/-- The properties of a delimiter token on which the scan relies: the opening
string is not empty, neither string holds the character `0`, and a two-sided
delimiter or string literal does not open with a longer string than it closes
with. -/
def DelimOK (d : LLKeywordToken) : Prop :=
  d.mToken ≠ [] ∧ (∀ c ∈ d.mToken, c ≠ 0) ∧ (∀ c ∈ d.mDelimiter, c ≠ 0)
    ∧ ((d.mType = .TT_TWO_SIDED_DELIMITER ∨ d.mType = .TT_DOUBLE_QUOTATION_MARKS) →
        d.mToken.length ≤ d.mDelimiter.length)

/-- The string literal token as `processTokens` registers it:
`addToken(TT_DOUBLE_QUOTATION_MARKS, "\"", ..., "\"")`. -/
def dqToken : LLKeywordToken :=
  { mType := .TT_DOUBLE_QUOTATION_MARKS, mToken := [34], mDelimiter := [34] }

/-- The length of the maximal run of consecutive backslashes that ends just
before position `p`. -/
def backslashRun (wtext : LLWString) : Nat → Nat
  | 0 => 0
  | p + 1 => if charAt wtext p = 92 then backslashRun wtext p + 1 else 0

/-- The classification of the "C" locale, with which the theorems are tried
on concrete texts: white space is the space and the characters 9 to 13,
alphanumeric are the digits and the letters of ASCII. -/
def asciiCType : CType :=
  { iswspace := fun c => c == 32 || (decide (9 ≤ c) && decide (c ≤ 13)),
    iswalnum := fun c =>
      (decide (48 ≤ c) && decide (c ≤ 57)) || (decide (65 ≤ c) && decide (c ≤ 90))
        || (decide (97 ≤ c) && decide (c ≤ 122)) }

/-- The token types that `addToken` files in the word token map. -/
def isWordType : ETokenType → Bool
  | .TT_CONSTANT | .TT_CONTROL | .TT_EVENT | .TT_FUNCTION | .TT_LABEL | .TT_SECTION
  | .TT_TYPE | .TT_PREPROC | .TT_WORD => true
  | _ => false

/-- A word character: alphanumeric, `_` or `#`. -/
def isWordChar (ct : CType) (c : llwchar) : Bool :=
  ct.iswalnum c || c == 95 || c == 35

/-- The range `[s, e)` of the text is a word with token `t`: it is the maximal
run of word characters that starts at `s`, the character before `s`, if any,
is not a word character, and looking the run up in the word token map finds
`t`. -/
def WordAt (self : LLKeywords) (ct : CType) (wtext : LLWString) (s e : Nat)
    (t : LLKeywordToken) : Prop :=
  s < e ∧ e ≤ wtext.length
  ∧ (∀ i, s ≤ i → i < e → isWordChar ct (charAt wtext i) = true)
  ∧ (e = wtext.length ∨ isWordChar ct (charAt wtext e) = false)
  ∧ (s = 0 ∨ isWordChar ct (charAt wtext (s - 1)) = false)
  ∧ wordTokenMapFind self.mWordTokenMap
      (WStringMapIndex.ofRange ((wtext.drop s).take (e - s))) = some t

/-- Position `s` lies in a segment whose token is not a word token: the
segment of a comment, of a string literal or of a line token. -/
def Covered (segs : List LLTextSegment) (s : Nat) : Prop :=
  ∃ x ∈ segs, ∃ d, x.mToken = some d ∧ isWordType d.mType = false
    ∧ x.mStart ≤ s ∧ s < x.mEnd

/-- What the claims about words assume of the character classification: the
terminating `0` and the line feed are not alphanumeric, and no white space
character is a word character. -/
def CTypeOK (ct : CType) : Prop :=
  ct.iswalnum 0 = false ∧ ct.iswalnum 10 = false
    ∧ ∀ c, ct.iswspace c = true → isWordChar ct c = false

/-- The last segment of the list carries no token. -/
def LastUntokened (segs : List LLTextSegment) : Prop :=
  ∃ init f, segs = init ++ [f] ∧ f.mToken = none

/-- The invariant of the scan for the word tokens, when `cur` has been
reached: the list ends with a segment without token; every segment with a word
token is a word of the text with that token; and every word that starts before
`cur` has its segment, unless its start lies in a segment with another
token. -/
def WordInv (self : LLKeywords) (ct : CType) (wtext : LLWString) (cur : Nat)
    (segs : List LLTextSegment) : Prop :=
  LastUntokened segs
  ∧ (∀ x ∈ segs, ∀ t, x.mToken = some t → isWordType t.mType = true →
      x.cls = SegmentClass.LLNormalTextSegment ∧ WordAt self ct wtext x.mStart x.mEnd t)
  ∧ (∀ s e t, s < cur → WordAt self ct wtext s e t →
      (⟨SegmentClass.LLNormalTextSegment, s, e, some t⟩ : LLTextSegment) ∈ segs
        ∨ Covered segs s)

/-- The first of the `n` positions from `a` on at which `P` holds, and `a + n`
when it holds at none of them. -/
def firstPos (P : Nat → Bool) : Nat → Nat → Nat
  | 0, a => a
  | n + 1, a => if P a then a else firstPos P n (a + 1)

/-- The first position from `a` on whose character fails `cond`, the end of
the text at the latest. -/
def firstFail (cond : llwchar → Bool) (wtext : LLWString) (a : Nat) : Nat :=
  firstPos (fun j => !cond (charAt wtext j)) (wtext.length - a) a

/-- The end of the comment or string literal that the delimiter `d` opens at
position `a`, read off the text. A two-sided delimiter runs to the end of the
first occurrence of its closing string after the opening one; a string literal
runs to the end of the first closing string that follows an even number of
backslashes; either runs to the end of the text when it is not closed. A
one-sided delimiter runs to the end of the line. -/
def regionEnd (d : LLKeywordToken) (wtext : LLWString) (a : Nat) : Nat :=
  let body := a + d.mToken.length
  if d.mType = .TT_TWO_SIDED_DELIMITER then
    let q := firstPos (fun j => charAt wtext j == 0 || d.isTail wtext j)
      (wtext.length - body) body
    if charAt wtext q = 0 then q else q + d.mDelimiter.length
  else if d.mType = .TT_DOUBLE_QUOTATION_MARKS then
    let q := firstPos
      (fun j => charAt wtext j == 0 || (d.isTail wtext j && backslashRun wtext j % 2 == 0))
      (wtext.length - body) body
    if charAt wtext q = 0 then q else q + d.mDelimiter.length
  else firstFail isInLine wtext body

/-- One step of the scan of the text for comments, string literals and lines
with a line token, which reads the text and the tokens only. The scan stands
either at the start of a line (`fresh`) or within a line, at position `p`. The
result is the range of the comment, string literal or line token found at this
step, if any, and the state after the step, if the text has not ended.

At the start of a line the white space is passed; a line feed starts the next
line; a line token that opens there extends to the end of the line. Within a
line, a line feed starts the next line; a delimiter that opens at `p` extends
to `regionEnd`; a maximal run of word characters that starts at `p` is passed
as a whole; any other character is passed alone. -/
def scanStep (self : LLKeywords) (ct : CType) (wtext : LLWString) (fresh : Bool) (p : Nat) :
    Option (Nat × Nat) × Option (Bool × Nat) :=
  if fresh then
    let p := firstFail (isSkippedSpace ct) wtext p
    if charAt wtext p = 0 then (none, none)
    else if charAt wtext p = 10 then (none, some (true, p + 1))
    else if (self.mLineTokenList.find? fun t => t.isHead wtext p).isSome then
      let e := firstFail isInLine wtext p
      (some (p, e), if charAt wtext e = 10 then some (true, e + 1) else none)
    else (none, some (false, p))
  else
    if charAt wtext p = 0 then (none, none)
    else if charAt wtext p = 10 then (none, some (true, p + 1))
    else
      match self.mDelimiterTokenList.find? fun d => d.isHead wtext p with
      | some d => (some (p, regionEnd d wtext p), some (false, regionEnd d wtext p))
      | none =>
        let q := firstFail (isWordChar ct) wtext p
        if (p = 0 ∨ isWordChar ct (charAt wtext (p - 1)) = false) ∧ p < q then
          (none, some (false, q))
        else (none, some (false, p + 1))

/-- The ranges found by the first `n` steps of the scan from a state. -/
def regionsLoop (self : LLKeywords) (ct : CType) (wtext : LLWString) :
    Nat → Bool → Nat → List (Nat × Nat)
  | 0, _, _ => []
  | n + 1, fresh, p =>
    match scanStep self ct wtext fresh p with
    | (region, none) => region.toList
    | (region, some (fresh, p)) => region.toList ++ regionsLoop self ct wtext n fresh p

/-- The comments, string literals and lines with a line token of the text, as
ranges `[a, b)`, in the order of the text: what the scan finds from the start
of the text. Two steps pass at least one character, so that `2 * n + 2` steps
reach the end of a text of `n` characters. -/
def delimitedRegions (self : LLKeywords) (ct : CType) (wtext : LLWString) : List (Nat × Nat) :=
  regionsLoop self ct wtext (2 * wtext.length + 2) true 0

/-- Position `s` lies in a comment, in a string literal or in a line with a
line token. -/
def inRegion (self : LLKeywords) (ct : CType) (wtext : LLWString) (s : Nat) : Bool :=
  (delimitedRegions self ct wtext).any fun r => decide (r.1 ≤ s) && decide (s < r.2)

/-- The scan reaches the state `(fresh, p)` with enough steps left: no
character before `p` is `0`, and the ranges of the text are those found before,
which end at or before `p`, followed by those found from this state on. -/
def ScanReaches (self : LLKeywords) (ct : CType) (wtext : LLWString) (fresh : Bool) (p : Nat) :
    Prop :=
  p ≤ wtext.length ∧ (∀ j, j < p → charAt wtext j ≠ 0)
    ∧ ∃ pre n, delimitedRegions self ct wtext = pre ++ regionsLoop self ct wtext n fresh p
      ∧ (∀ r ∈ pre, r.2 ≤ p)
      ∧ 2 * (wtext.length - p) + (if fresh then 2 else 1) ≤ n

/-- The invariant of the scan for comments, string literals and line tokens:
the list ends with a segment without token; every segment whose token is not a
word token lies within one of the ranges of the text; and every segment with a
word token starts outside these ranges, with no character `0` up to its
start. -/
def RegionInv (self : LLKeywords) (ct : CType) (wtext : LLWString)
    (segs : List LLTextSegment) : Prop :=
  LastUntokened segs
  ∧ (∀ x ∈ segs, ∀ d, x.mToken = some d → isWordType d.mType = false →
      ∃ r ∈ delimitedRegions self ct wtext, r.1 ≤ x.mStart ∧ x.mEnd ≤ r.2)
  ∧ (∀ x ∈ segs, ∀ t, x.mToken = some t → isWordType t.mType = true →
      inRegion self ct wtext x.mStart = false ∧ ∀ j, j ≤ x.mStart → charAt wtext j ≠ 0)

/-- The state of the scan when the outer loop of `findSegments` stands at
`cur`: the text has ended, or `cur` is the start of the text or a line feed and
the scan has reached the start of the line. -/
def OuterInv (self : LLKeywords) (ct : CType) (wtext : LLWString) (cur : Nat) : Prop :=
  charAt wtext cur = 0
    ∨ ((charAt wtext cur = 10 ∨ cur = 0)
      ∧ ScanReaches self ct wtext true (if charAt wtext cur = 10 then cur + 1 else cur))

/-- The tokens of `processTokens` together with one word token, the control
word `if`, on which the theorems are tried. -/
def exampleKeywords : LLKeywords :=
  LLKeywords.empty.processTokensStandard.addToken .TT_CONTROL [105, 102] []

/-! ## `LLDiskCache::purge`

The body of `LLDiskCache::purge` lives in `lldiskcache.cpp`, which is not among
the sources; only its declaration and the description in `lldiskcache.h` are.
The definitions of this section follow that description. -/

/-- A cache file as `purge` sees it: the time of its last access (its last
write time), its size in bytes and its path. -/
structure CacheFile where
  mtime : Nat
  size : Nat
  path : String
  deriving DecidableEq, Repr

/-- The combined size of a list of files. -/
def totalSize (files : List CacheFile) : Nat := (files.map CacheFile.size).sum

/-- Modelled from the spec: the sorting step of the missing `LLDiskCache::purge`
("collects a list of all files in the directory, sorts them by date of last
access (write)"). The oldest file comes first. -/
def sortByLastAccess (files : List CacheFile) : List CacheFile :=
  files.insertionSort (fun a b => a.mtime ≤ b.mtime)

/-- Modelled from the spec: the deletion step of the missing
`LLDiskCache::purge` ("then deletes any files based on age until the total size
of all the files is less than the maximum size specified", "so that the
combined size of all files is no bigger than mMaxSizeBytes"). The argument is
sorted oldest first; the result is the list of the files left in the cache. -/
def purgeLoop (mMaxSizeBytes : Nat) : List CacheFile → List CacheFile
  | [] => []
  | f :: rest =>
    if totalSize (f :: rest) > mMaxSizeBytes then purgeLoop mMaxSizeBytes rest
    else f :: rest

/-- Modelled from the spec: the missing `LLDiskCache::purge`, as a function from
the cache files present before the call to the cache files present after it. -/
def purge (mMaxSizeBytes : Nat) (files : List CacheFile) : List CacheFile :=
  purgeLoop mMaxSizeBytes (sortByLastAccess files)

/-! ## `LLHUDEffectResetSkeleton` -/

/-- Modelled from the spec: `LLUUID::operator==` is declared in `lluuid.h` and
defined in a file that is not among the sources; two ids are equal when their
16 bytes are. -/
def LLUUID.operator_eq (self rhs : LLUUID) : Bool :=
  decide (∀ i : Fin 16, self.mData i = rhs.mData i)

/-- The packet layout constant `TARGET_OBJECT`. -/
def TARGET_OBJECT : Nat := 0

/-- The packet layout constant `RESET_ANIMATIONS`. -/
def RESET_ANIMATIONS : Nat := 16

/-- The packet layout constant `PKT_SIZE`. -/
def PKT_SIZE : Nat := 17

/-- The call `memset(packed_data, 0, n)` on a buffer of `n` bytes. -/
def memset_zero (n : Nat) : List U8 := List.replicate n 0

/-- Modelled from the spec: `htolememcpy(&buf[off], src, type, n)` is not among
the sources; for the types `MVT_LLUUID` and `MVT_U8`, the only ones used here,
it copies the `n` bytes of `src` unchanged. The result is the buffer after the
copy. -/
def htolememcpy_into (buf : List U8) (off : Nat) (src : List U8) : List U8 :=
  buf.take off ++ src ++ buf.drop (off + src.length)

/-- The `n` bytes of a buffer from offset `off` on, as the source of a
`htolememcpy`; a byte past the end of the buffer reads as `0`. -/
def bytesAt (buf : List U8) (off n : Nat) : List U8 :=
  (List.range n).map fun i => buf.getD (off + i) 0

/-- The 16 bytes `mData` of an id as a list. -/
def LLUUID.bytes (self : LLUUID) : List U8 := List.ofFn self.mData

/-- The id whose `mData` is filled from a list of 16 bytes. -/
def LLUUID.ofBytes (b : List U8) : LLUUID := ⟨fun i => b.getD i.val 0⟩

/-- The class `LLViewerObject` as far as the effect uses it: the members `mID`
and `mOwnerID` and the results of `isAvatar()`, `isAnimatedObject()` and
`isDead()`. -/
structure LLViewerObject where
  mID : LLUUID
  mOwnerID : LLUUID
  isAvatar : Bool
  isAnimatedObject : Bool
  isDead : Bool

/-- The member `LLViewerObject::getID`. -/
def LLViewerObject.getID (self : LLViewerObject) : LLUUID := self.mID

/-- The calls that the effect makes on the message system and on objects, in
the order in which they are made: `getBinaryDataFast` for the type data,
`update()`, `resetSkeleton(flag)` on an object, and `markDead()`. -/
inductive EffectEvent
  | getBinaryData
  | update
  | resetSkeleton (target : LLViewerObject) (reset_animations : Bool)
  | markDead

/-- The class `LLHUDEffectResetSkeleton`: the source and target objects (none
for a null pointer), `mResetAnimations`, the result of `getOriginatedHere()`,
whether the effect is dead, and in `base` the members of `LLHUDEffect` that
only the base class reads and writes. -/
structure LLHUDEffectResetSkeleton (β : Type) where
  base : β
  mSourceObject : Option LLViewerObject
  mTargetObject : Option LLViewerObject
  mResetAnimations : Bool
  mOriginatedHere : Bool
  mDead : Bool

/-- The `Effect` block of a message as `unpackData` reads it: the variable
`AgentID` and the binary variable `TypeData`. -/
structure EffectBlock where
  AgentID : LLUUID
  TypeData : List U8

/-- The type data that `LLHUDEffectResetSkeleton::packData` hands to
`addBinaryDataFast(_PREHASH_TypeData, packed_data, PKT_SIZE)`. The default
data that `LLHUDEffect::packData` packs before is left out. -/
def LLHUDEffectResetSkeleton.packData {β : Type} (self : LLHUDEffectResetSkeleton β) :
    List U8 :=
  let packed_data := memset_zero PKT_SIZE
  let packed_data :=
    match self.mTargetObject with
    | some mTargetObject => htolememcpy_into packed_data TARGET_OBJECT mTargetObject.mID.bytes
    | none => htolememcpy_into packed_data TARGET_OBJECT LLUUID.null.bytes
  let resetAnimations : U8 := if self.mResetAnimations then 1 else 0
  let packed_data := htolememcpy_into packed_data RESET_ANIMATIONS [resetAnimations]
  packed_data.take PKT_SIZE

/-- The decoding of `packed_data` in `unpackData`: the target id, replaced by
the source id when it is null, and the value assigned to `mResetAnimations`,
`resetAnimations & 1`. -/
def unpackTypeData (sse41 : Bool) (packed_data : List U8) (source_id : LLUUID) :
    LLUUID × Bool :=
  let target_id := LLUUID.ofBytes (bytesAt packed_data TARGET_OBJECT 16)
  let target_id := if target_id.isNull sse41 then source_id else target_id
  let resetAnimations : U8 := (bytesAt packed_data RESET_ANIMATIONS 1).getD 0 0
  (target_id, decide (resetAnimations.val &&& 1 ≠ 0))

/-- Modelled from the spec: `LLHUDEffect::markDead` is not among the sources; it
flags the effect dead. What else it does to the members is left open: no
theorem speaks of the other members after it. -/
def LLHUDEffectResetSkeleton.markDead {β : Type} (self : LLHUDEffectResetSkeleton β) :
    LLHUDEffectResetSkeleton β :=
  { self with mDead := true }

/-- The member `LLHUDEffectResetSkeleton::setTargetObject`. -/
def LLHUDEffectResetSkeleton.setTargetObject {β : Type} (self : LLHUDEffectResetSkeleton β)
    (objp : Option LLViewerObject) : LLHUDEffectResetSkeleton β :=
  { self with mTargetObject := objp }

/-- The member `LLHUDEffectResetSkeleton::setSourceObject`, which restricts
source objects to avatars; the base class member that it calls, not among the
sources, assigns `mSourceObject`. -/
def LLHUDEffectResetSkeleton.setSourceObject {β : Type} (self : LLHUDEffectResetSkeleton β)
    (objectp : Option LLViewerObject) : LLHUDEffectResetSkeleton β :=
  match objectp with
  | some o => if o.isAvatar then { self with mSourceObject := some o } else self
  | none => self

/-- The member `LLHUDEffectResetSkeleton::update`: the effect afterwards and
the calls made, in order. -/
def LLHUDEffectResetSkeleton.update {β : Type} (self : LLHUDEffectResetSkeleton β) :
    LLHUDEffectResetSkeleton β × List EffectEvent :=
  match self.mTargetObject with
  | none => (self.markDead, [EffectEvent.markDead])
  | some mTargetObject =>
    if mTargetObject.isDead then (self.markDead, [EffectEvent.markDead])
    else
      match self.mSourceObject with
      | none => (self.markDead, [EffectEvent.markDead])
      | some mSourceObject =>
        if mSourceObject.isDead then (self.markDead, [EffectEvent.markDead])
        else
          let owned :=
            if self.mOriginatedHere then true
            else if mTargetObject.isAnimatedObject then
              mTargetObject.mOwnerID.operator_eq mSourceObject.getID
            else
              mTargetObject.getID.operator_eq mSourceObject.getID
          let calls :=
            if owned then
              if mTargetObject.isAvatar || mTargetObject.isAnimatedObject then
                [EffectEvent.resetSkeleton mTargetObject self.mResetAnimations]
              else []
            else []
          (self.markDead, calls ++ [EffectEvent.markDead])

/-- The member `LLHUDEffectResetSkeleton::unpackData`: the effect afterwards
and the calls made, in order. `LLHUDEffect_unpackData` is the base class
member, not among the sources, which unpacks the default data into the members
of `LLHUDEffect`; `findObject` is `gObjectList.findObject`; `sse41` selects the
variant of `LLUUID::isNull`. -/
def LLHUDEffectResetSkeleton.unpackData {β : Type} (sse41 : Bool)
    (LLHUDEffect_unpackData : β → β) (findObject : LLUUID → Option LLViewerObject)
    (self : LLHUDEffectResetSkeleton β) (mesgsys : EffectBlock) :
    LLHUDEffectResetSkeleton β × List EffectEvent :=
  let self := { self with base := LLHUDEffect_unpackData self.base }
  let source_id := mesgsys.AgentID
  let objp := findObject source_id
  match objp with
  | none => (self, [])
  | some o =>
    if o.isAvatar then
      let self := self.setSourceObject objp
      let size := mesgsys.TypeData.length
      if size ≠ PKT_SIZE then (self, [])
      else
        let packed_data := mesgsys.TypeData.take PKT_SIZE
        let decoded := unpackTypeData sse41 packed_data source_id
        let target_id := decoded.1
        let objp := findObject target_id
        let self :=
          match objp with
          | some t => self.setTargetObject (some t)
          | none => self
        let self := { self with mResetAnimations := decoded.2 }
        let r := self.update
        (r.1, EffectEvent.getBinaryData :: EffectEvent.update :: r.2)
    else (self, [])

/-- An avatar with the id bytes `1, ..., 16`, for the examples. -/
def exampleAvatar : LLViewerObject where
  mID := ⟨fun i => ((i.val + 1 : Nat) : U8)⟩
  mOwnerID := LLUUID.null
  isAvatar := true
  isAnimatedObject := false
  isDead := false

/-- An effect from elsewhere whose target is the example avatar and whose flag
is set, for the examples. -/
def exampleEffect : LLHUDEffectResetSkeleton Unit where
  base := ()
  mSourceObject := none
  mTargetObject := some exampleAvatar
  mResetAnimations := true
  mOriginatedHere := false
  mDead := false

/-- An object list that holds the example avatar alone, for the examples. -/
def exampleFindObject (id : LLUUID) : Option LLViewerObject :=
  if id.operator_eq exampleAvatar.mID then some exampleAvatar else none

/-! ## `LLGroupCommandHandler` -/

/-- Modelled from the spec: the class `LLSD` is not among the sources. A value
is undefined, a scalar, an array or a map; a scalar is given by the string that
`asString()` converts it to. -/
inductive LLSD
  | undefined
  | scalar (value : String)
  | array (elements : List LLSD)
  | map (entries : List (String × LLSD))

/-- Modelled from the spec: `LLSD::size()`, the number of elements of an array
or map and `0` for any other value. -/
def LLSD.size : LLSD → Nat
  | .array elements => elements.length
  | .map entries => entries.length
  | _ => 0

/-- Modelled from the spec: `LLSD::operator[](Integer) const`, the element of
an array at an index within it, and an undefined value otherwise. -/
def LLSD.index : LLSD → Nat → LLSD
  | .array elements, i => elements.getD i LLSD.undefined
  | _, _ => LLSD.undefined

/-- Modelled from the spec: `LLSD::asString()`, the string of a scalar and the
empty string for an undefined value, an array or a map. -/
def LLSD.asString : LLSD → String
  | .scalar value => value
  | _ => ""

/-- The member `LLGroupCommandHandler::canHandleUntrusted`. The constants
`NAV_TYPE_CLICKED` and `NAV_TYPE_EXTERNAL`, declared in a header that is not
among the sources, are parameters; `query_map` and `web` are not used. -/
def LLGroupCommandHandler.canHandleUntrusted (NAV_TYPE_CLICKED NAV_TYPE_EXTERNAL : String)
    (params : LLSD) (nav_type : String) : Bool :=
  if params.size < 1 then true
  else if nav_type == NAV_TYPE_CLICKED || nav_type == NAV_TYPE_EXTERNAL then true
  else
    let verb := (params.index 0).asString
    if verb == "create" then false
    else true

/-! # Theorems -/

/-! ## The comparison of identifiers -/

theorem msb_iff_testBit (n : Nat) (h : n < 256) : 128 ≤ n ↔ n.testBit 7 = true := by
  rw [Nat.testBit_to_div_mod]
  simp
  omega

theorem toS8_gt_iff (x y : U8) :
    toS8 y > toS8 x ↔
      ((x.val < 128 ∧ y.val < 128 ∧ x.val < y.val) ∨ (128 ≤ x.val ∧ 128 ≤ y.val ∧ x.val < y.val)
        ∨ (128 ≤ x.val ∧ y.val < 128)) := by
  unfold toS8
  have hx := x.isLt
  have hy := y.isLt
  split <;> split <;> omega

theorem msb_xor (a b : Nat) (ha : a < 256) (hb : b < 256) :
    128 ≤ a ^^^ b ↔ ¬ (128 ≤ a ↔ 128 ≤ b) := by
  have hab : a ^^^ b < 256 := @Nat.xor_lt_two_pow _ _ 8 ha hb
  rw [msb_iff_testBit _ hab, msb_iff_testBit _ ha, msb_iff_testBit _ hb, Nat.testBit_xor]
  cases a.testBit 7 <;> cases b.testBit 7 <;> simp

/-- Per byte, the sign-corrected signed comparison is the unsigned one. -/
theorem byte_cmp_msb (x y : U8) :
    decide (128 ≤ ((x.val ^^^ y.val) ^^^ (if toS8 y > toS8 x then (255 : U8) else 0).val))
      = decide (x < y) := by
  have hx := x.isLt
  have hy := y.isLt
  have hxy : x.val ^^^ y.val < 256 := @Nat.xor_lt_two_pow _ _ 8 hx hy
  have hlt : x < y ↔ x.val < y.val := Fin.lt_def
  have h1 := msb_xor x.val y.val hx hy
  rw [decide_eq_decide, hlt]
  by_cases hg : toS8 y > toS8 x
  · have hg2 := (toS8_gt_iff x y).mp hg
    have h2 := msb_xor (x.val ^^^ y.val) 255 hxy (by norm_num)
    rw [if_pos hg]
    have e : ((255 : U8) : Nat) = 255 := rfl
    rw [e, h2]
    omega
  · have hg2 := (not_congr (toS8_gt_iff x y)).mp hg
    rw [if_neg hg]
    have e : ((0 : U8) : Nat) = 0 := rfl
    rw [e, Nat.xor_zero, h1]
    omega

theorem lowestBitTrick_zero : lowestBitTrick 0 = 2 ^ 32 - 1 := by
  decide

theorem lowestBitTrick_odd (m : Nat) (h : m < 2 ^ 31) : lowestBitTrick (1 + 2 * m) = 1 := by
  unfold lowestBitTrick
  have e1 : (1 + 2 * m + 2 ^ 32 - 1) % 2 ^ 32 = 2 * m := by omega
  rw [e1]
  apply Nat.eq_of_testBit_eq
  intro i
  cases i with
  | zero => simp [Nat.testBit_zero]; omega
  | succ j =>
    have a1 : (2 * m) / 2 = m := by omega
    have a2 : (1 + 2 * m) / 2 = m := by omega
    rw [Nat.testBit_xor, Nat.testBit_succ, Nat.testBit_succ, Nat.testBit_succ, a1, a2]
    simp

theorem lowestBitTrick_even (m : Nat) (h : 0 < m) (h2 : m < 2 ^ 31) :
    lowestBitTrick (2 * m) = 2 * lowestBitTrick m + 1 := by
  unfold lowestBitTrick
  have e1 : (2 * m + 2 ^ 32 - 1) % 2 ^ 32 = 2 * (m - 1) + 1 := by omega
  have e2 : (m + 2 ^ 32 - 1) % 2 ^ 32 = m - 1 := by omega
  rw [e1, e2]
  apply Nat.eq_of_testBit_eq
  intro i
  cases i with
  | zero => simp [Nat.testBit_zero]; omega
  | succ j =>
    have a1 : (2 * (m - 1) + 1) / 2 = m - 1 := by omega
    have a2 : (2 * (m - 1 ^^^ m) + 1) / 2 = (m - 1 ^^^ m) := by omega
    have a3 : (2 * m) / 2 = m := by omega
    rw [Nat.testBit_xor, Nat.testBit_succ, Nat.testBit_succ, Nat.testBit_succ, a1, a2, a3,
      Nat.testBit_xor]

theorem lowestBitTrick_bounds (m : Nat) (h : 0 < m) (h2 : m < 2 ^ 30) :
    1 ≤ lowestBitTrick m ∧ lowestBitTrick m < 2 ^ 30 := by
  unfold lowestBitTrick
  have e2 : (m + 2 ^ 32 - 1) % 2 ^ 32 = m - 1 := by omega
  rw [e2]
  constructor
  · rcases Nat.eq_zero_or_pos (m - 1 ^^^ m) with h0 | h0
    · have := Nat.xor_eq_zero.mp h0
      omega
    · exact h0
  · exact Nat.xor_lt_two_pow (by omega) h2

theorem maskOfBits_lt (bs : List Bool) : maskOfBits bs < 2 ^ bs.length := by
  induction bs with
  | nil => simp [maskOfBits]
  | cons b bs ih =>
    simp only [maskOfBits, List.length_cons, pow_succ]
    split <;> omega

/-- The doubling step of the comparison of the two masks. -/
theorem lowestBitTrick_double_lt (a b : Nat) (ha : a < 2 ^ 30) (hb : b < 2 ^ 30) :
    lowestBitTrick (2 * a) < lowestBitTrick (2 * b) ↔ lowestBitTrick a < lowestBitTrick b := by
  rcases Nat.eq_zero_or_pos a with h0 | h0 <;> rcases Nat.eq_zero_or_pos b with h1 | h1
  · subst h0; subst h1; simp
  · subst h0
    have := lowestBitTrick_even b h1 (by omega)
    have := lowestBitTrick_bounds b h1 hb
    have := lowestBitTrick_zero
    simp only [Nat.mul_zero]
    omega
  · subst h1
    have := lowestBitTrick_even a h0 (by omega)
    have := lowestBitTrick_bounds a h0 ha
    have := lowestBitTrick_zero
    simp only [Nat.mul_zero]
    omega
  · have := lowestBitTrick_even a h0 (by omega)
    have := lowestBitTrick_even b h1 (by omega)
    omega

/-- The mask comparison decides the lexicographic order, for ranges of any
length up to 30. -/
theorem mask_compare_lex (n : Nat) (hn : n ≤ 30) (l r : Fin n → U8) :
    lowestBitTrick (maskOfBits (List.ofFn fun i => decide (l i < r i)))
        < lowestBitTrick (maskOfBits (List.ofFn fun i => decide (r i < l i)))
      ↔ lexicographical_compare (List.ofFn l) (List.ofFn r) = true := by
  induction n with
  | zero => simp [maskOfBits, lexicographical_compare]
  | succ n ih =>
    have ih2 := ih (by omega) (fun i => l i.succ) (fun i => r i.succ)
    have hA := maskOfBits_lt (List.ofFn fun i : Fin n => decide (l i.succ < r i.succ))
    have hB := maskOfBits_lt (List.ofFn fun i : Fin n => decide (r i.succ < l i.succ))
    rw [List.length_ofFn] at hA hB
    have hp : 2 ^ n ≤ 2 ^ 29 := Nat.pow_le_pow_right (by norm_num) (by omega)
    have hA2 : maskOfBits (List.ofFn fun i : Fin n => decide (l i.succ < r i.succ)) < 2 ^ 30 := by
      omega
    have hB2 : maskOfBits (List.ofFn fun i : Fin n => decide (r i.succ < l i.succ)) < 2 ^ 30 := by
      omega
    rw [List.ofFn_succ, List.ofFn_succ, @List.ofFn_succ _ _ l, @List.ofFn_succ _ _ r]
    simp only [maskOfBits, lexicographical_compare]
    rcases lt_trichotomy (l 0) (r 0) with h | h | h
    · have h2 : ¬ r 0 < l 0 := not_lt.mpr (le_of_lt h)
      simp only [h, h2, decide_True, decide_False, if_true, Bool.false_eq_true, if_false,
        Nat.zero_add]
      rw [lowestBitTrick_odd _ (by omega)]
      rcases Nat.eq_zero_or_pos
        (maskOfBits (List.ofFn fun i : Fin n => decide (r i.succ < l i.succ))) with h0 | h0
      · rw [h0]; simp [lowestBitTrick_zero]
      · have := lowestBitTrick_even _ h0 (Nat.lt_trans hB2 (by norm_num))
        have := lowestBitTrick_bounds _ h0 hB2
        simp only [iff_true]
        omega
    · simp only [h, lt_irrefl, decide_False, Bool.false_eq_true, if_false, Nat.zero_add]
      rw [lowestBitTrick_double_lt _ _ hA2 hB2]
      exact ih2
    · have h2 : ¬ l 0 < r 0 := not_lt.mpr (le_of_lt h)
      simp only [h, h2, decide_True, decide_False, if_true, Bool.false_eq_true, if_false,
        Nat.zero_add, iff_false, not_lt]
      rw [lowestBitTrick_odd _ (by omega)]
      rcases Nat.eq_zero_or_pos
        (maskOfBits (List.ofFn fun i : Fin n => decide (l i.succ < r i.succ))) with h0 | h0
      · rw [h0]; simp [lowestBitTrick_zero]
      · have := lowestBitTrick_even _ h0 (Nat.lt_trans hA2 (by norm_num))
        have := lowestBitTrick_bounds _ h0 hA2
        omega

theorem movemask_cmp (l r : Fin 16 → U8) :
    _mm_movemask_epi8 (_mm_xor_si128 (_mm_xor_si128 l r) (_mm_cmpgt_epi8 r l))
      = maskOfBits (List.ofFn fun i => decide (l i < r i)) := by
  unfold _mm_movemask_epi8
  congr 1
  congr 1
  funext i
  exact byte_cmp_msb (l i) (r i)

theorem xor_si128_comm (l r : M128i) : _mm_xor_si128 l r = _mm_xor_si128 r l := by
  funext i
  apply Fin.ext
  simp [_mm_xor_si128, Nat.xor_comm]

theorem simdLess_unfold (l r : Fin 16 → U8) :
    simdLess l r = decide
      (lowestBitTrick
          (_mm_movemask_epi8 (_mm_xor_si128 (_mm_xor_si128 l r) (_mm_cmpgt_epi8 r l)) % 2 ^ 32)
        < lowestBitTrick
          (_mm_movemask_epi8 (_mm_xor_si128 (_mm_xor_si128 l r) (_mm_cmpgt_epi8 l r)) % 2 ^ 32)) :=
  rfl

/-- The SSE comparison computes `std::lexicographical_compare`. -/
theorem simdLess_eq_lex (l r : Fin 16 → U8) :
    simdLess l r = lexicographical_compare (List.ofFn l) (List.ofFn r) := by
  have h1 := movemask_cmp l r
  have h2 := movemask_cmp r l
  rw [xor_si128_comm r l] at h2
  have b1 := maskOfBits_lt (List.ofFn fun i : Fin 16 => decide (l i < r i))
  have b2 := maskOfBits_lt (List.ofFn fun i : Fin 16 => decide (r i < l i))
  rw [List.length_ofFn] at b1 b2
  have c1 : maskOfBits (List.ofFn fun i : Fin 16 => decide (l i < r i)) % 2 ^ 32
      = maskOfBits (List.ofFn fun i : Fin 16 => decide (l i < r i)) :=
    Nat.mod_eq_of_lt (Nat.lt_trans b1 (by norm_num))
  have c2 : maskOfBits (List.ofFn fun i : Fin 16 => decide (r i < l i)) % 2 ^ 32
      = maskOfBits (List.ofFn fun i : Fin 16 => decide (r i < l i)) :=
    Nat.mod_eq_of_lt (Nat.lt_trans b2 (by norm_num))
  have key := mask_compare_lex 16 (by norm_num) l r
  rw [simdLess_unfold, h1, h2, c1, c2]
  rcases Bool.eq_false_or_eq_true (lexicographical_compare (List.ofFn l) (List.ofFn r)) with h | h
  · rw [h]
    exact decide_eq_true (key.mpr h)
  · rw [h]
    apply decide_eq_false
    intro hc
    rw [key.mp hc] at h
    exact Bool.noConfusion h

/-- On ranges of equal length `std::lexicographical_compare` holds exactly
when the first differing position has the smaller byte on the left. -/
theorem lex_ofFn_iff (n : Nat) (l r : Fin n → U8) :
    lexicographical_compare (List.ofFn l) (List.ofFn r) = true
      ↔ ∃ i : Fin n, (∀ j : Fin n, j < i → l j = r j) ∧ l i < r i := by
  induction n with
  | zero =>
    simp only [List.ofFn_zero, lexicographical_compare, Bool.false_eq_true, false_iff]
    rintro ⟨i, _⟩
    exact i.elim0
  | succ n ih =>
    have ih2 := ih (fun i => l i.succ) (fun i => r i.succ)
    rw [@List.ofFn_succ _ _ l, @List.ofFn_succ _ _ r]
    simp only [lexicographical_compare]
    rcases lt_trichotomy (l 0) (r 0) with h | h | h
    · simp only [h, if_true, true_iff]
      exact ⟨0, fun j hj => absurd hj (Fin.not_lt_zero j), h⟩
    · simp only [h, lt_irrefl, if_false]
      rw [ih2]
      constructor
      · rintro ⟨i, hi1, hi2⟩
        refine ⟨i.succ, ?_, hi2⟩
        intro j hj
        induction j using Fin.cases with
        | zero => exact h
        | succ j => exact hi1 j (Fin.succ_lt_succ_iff.mp hj)
      · rintro ⟨i, hi1, hi2⟩
        induction i using Fin.cases with
        | zero => rw [h] at hi2; exact absurd hi2 (lt_irrefl _)
        | succ i =>
          exact ⟨i, fun j hj => hi1 j.succ (Fin.succ_lt_succ_iff.mpr hj), hi2⟩
    · have h2 : ¬ l 0 < r 0 := not_lt.mpr (le_of_lt h)
      simp only [h, h2, if_true, if_false, Bool.false_eq_true, false_iff]
      rintro ⟨i, hi1, hi2⟩
      induction i using Fin.cases with
      | zero => exact h2 hi2
      | succ i =>
        have := hi1 0 (Fin.succ_pos i)
        rw [this] at h
        exact lt_irrefl _ h

/-- Claim C1: `LLUUID::operator<` and the identical `LLMaterialID::operator<`
return, for all 16-byte values, the result of `std::lexicographical_compare`
over `mData` / `mID`; that is, they return true exactly when at the first
differing byte (byte 0 compared first) the left byte is the smaller one as an
unsigned 8-bit integer. -/
theorem C1_operator_lt_is_lexicographical_compare (a b : LLUUID) (x y : LLMaterialID) :
    (a.operator_lt b = lexicographical_compare (List.ofFn a.mData) (List.ofFn b.mData)
      ∧ (a.operator_lt b = true ↔
          ∃ i : Fin 16, (∀ j : Fin 16, j < i → a.mData j = b.mData j)
            ∧ (a.mData i).val < (b.mData i).val))
    ∧ (x.operator_lt y = lexicographical_compare (List.ofFn x.mID) (List.ofFn y.mID)
      ∧ (x.operator_lt y = true ↔
          ∃ i : Fin 16, (∀ j : Fin 16, j < i → x.mID j = y.mID j)
            ∧ (x.mID i).val < (y.mID i).val)) := by
  refine ⟨⟨simdLess_eq_lex a.mData b.mData, ?_⟩, ⟨simdLess_eq_lex x.mID y.mID, ?_⟩⟩
  · unfold LLUUID.operator_lt
    rw [simdLess_eq_lex, lex_ofFn_iff]
    rfl
  · unfold LLMaterialID.operator_lt
    rw [simdLess_eq_lex, lex_ofFn_iff]
    rfl

theorem lex_irrefl (l : List U8) : lexicographical_compare l l = false := by
  induction l with
  | nil => rfl
  | cons x xs ih => simp [lexicographical_compare, ih]

theorem lex_trans (a b c : List U8) (h1 : lexicographical_compare a b = true)
    (h2 : lexicographical_compare b c = true) : lexicographical_compare a c = true := by
  induction a generalizing b c with
  | nil =>
    cases b with
    | nil => simp [lexicographical_compare] at h1
    | cons y ys =>
      cases c with
      | nil => simp [lexicographical_compare] at h2
      | cons z zs => rfl
  | cons x xs ih =>
    cases b with
    | nil => simp [lexicographical_compare] at h1
    | cons y ys =>
      cases c with
      | nil => simp [lexicographical_compare] at h2
      | cons z zs =>
        simp only [lexicographical_compare] at h1 h2 ⊢
        rcases lt_trichotomy x y with hxy | hxy | hxy
        · rcases lt_trichotomy y z with hyz | hyz | hyz
          · simp [lt_trans hxy hyz]
          · subst hyz; simp [hxy]
          · simp [hyz, not_lt.mpr (le_of_lt hyz)] at h2
        · subst hxy
          rcases lt_trichotomy x z with hyz | hyz | hyz
          · simp [hyz]
          · subst hyz
            simp only [lt_irrefl, if_false] at h1 h2 ⊢
            exact ih _ _ h1 h2
          · simp [hyz, not_lt.mpr (le_of_lt hyz)] at h2
        · simp [hxy, not_lt.mpr (le_of_lt hxy)] at h1

theorem lex_trichotomy (a b : List U8) (h : a.length = b.length) :
    (lexicographical_compare a b = true ∧ lexicographical_compare b a = false ∧ a ≠ b)
    ∨ (lexicographical_compare a b = false ∧ lexicographical_compare b a = true ∧ a ≠ b)
    ∨ (lexicographical_compare a b = false ∧ lexicographical_compare b a = false ∧ a = b) := by
  induction a generalizing b with
  | nil =>
    cases b with
    | nil => simp [lexicographical_compare]
    | cons y ys => simp at h
  | cons x xs ih =>
    cases b with
    | nil => simp at h
    | cons y ys =>
      have h2 : xs.length = ys.length := by simpa using h
      simp only [lexicographical_compare]
      rcases lt_trichotomy x y with hxy | hxy | hxy
      · left
        simp [hxy, not_lt.mpr (le_of_lt hxy), ne_of_lt hxy]
      · subst hxy
        simp only [lt_irrefl, if_false, List.cons.injEq, true_and, ne_eq]
        exact ih ys h2
      · right; left
        simp [hxy, not_lt.mpr (le_of_lt hxy), ne_of_gt hxy]

theorem ofFn_eq_iff (l r : Fin 16 → U8) : List.ofFn l = List.ofFn r ↔ ∀ i, l i = r i := by
  constructor
  · intro h i
    exact congrFun (List.ofFn_injective h) i
  · intro h
    rw [funext h]

/-- Claim C2: `LLUUID::operator<` is a strict total order on 128-bit ids: it
is irreflexive and transitive, exactly one of `a < b`, `b < a` and "all 16
bytes of `a` and `b` are equal" holds, and `a > b` is `b < a`. -/
theorem C2_operator_lt_strict_total_order (a b c : LLUUID) :
    a.operator_lt a = false
    ∧ (a.operator_lt b = true → b.operator_lt c = true → a.operator_lt c = true)
    ∧ ((a.operator_lt b = true ∧ b.operator_lt a = false ∧ ¬ (∀ i, a.mData i = b.mData i))
      ∨ (a.operator_lt b = false ∧ b.operator_lt a = true ∧ ¬ (∀ i, a.mData i = b.mData i))
      ∨ (a.operator_lt b = false ∧ b.operator_lt a = false ∧ (∀ i, a.mData i = b.mData i)))
    ∧ a.operator_gt b = b.operator_lt a := by
  unfold LLUUID.operator_gt LLUUID.operator_lt
  simp only [simdLess_eq_lex]
  refine ⟨lex_irrefl _, lex_trans _ _ _, ?_, trivial⟩
  have h := lex_trichotomy (List.ofFn a.mData) (List.ofFn b.mData) (by simp)
  rw [ne_eq, ofFn_eq_iff] at h
  exact h

/-- Witness for claim C2: the transitivity hypotheses hold at three concrete
ids. -/
theorem C2_operator_lt_strict_total_order_witness :
    LLUUID.operator_lt ⟨fun _ => 1⟩ ⟨fun _ => 200⟩ = true
    ∧ LLUUID.operator_lt ⟨fun _ => 200⟩ ⟨fun i => if i.val = 15 then 201 else 200⟩ = true
    ∧ LLUUID.operator_lt ⟨fun _ => 1⟩ ⟨fun i => if i.val = 15 then 201 else 200⟩ = true :=
  ⟨by decide, by decide,
    (C2_operator_lt_strict_total_order ⟨fun _ => 1⟩ ⟨fun _ => 200⟩
      ⟨fun i => if i.val = 15 then 201 else 200⟩).2.1 (by decide) (by decide)⟩

/-! ## Equality and null tests -/

theorem maskOfBits_all (bs : List Bool) :
    maskOfBits bs = 2 ^ bs.length - 1 ↔ ∀ b ∈ bs, b = true := by
  induction bs with
  | nil => simp [maskOfBits]
  | cons b bs ih =>
    have hlt := maskOfBits_lt bs
    have hpos : 0 < 2 ^ bs.length := Nat.pow_pos (by norm_num)
    simp only [maskOfBits, List.length_cons, pow_succ, List.mem_cons, forall_eq_or_imp]
    rw [← ih]
    cases b <;> simp <;> omega

theorem movemask_eq_ffff (a : M128i) :
    _mm_movemask_epi8 a = 0xFFFF ↔ ∀ i : Fin 16, 128 ≤ (a i).val := by
  unfold _mm_movemask_epi8
  have h := maskOfBits_all (List.ofFn fun i : Fin 16 => decide (128 ≤ (a i).val))
  rw [List.length_ofFn] at h
  have e : (2 : Nat) ^ 16 - 1 = 0xFFFF := by norm_num
  rw [e] at h
  rw [h]
  constructor
  · intro hb i
    have := hb (decide (128 ≤ (a i).val)) ((List.mem_ofFn _ _).mpr ⟨i, rfl⟩)
    exact of_decide_eq_true this
  · intro hb x hx
    obtain ⟨i, hi⟩ := (List.mem_ofFn _ _).mp hx
    rw [← hi]
    exact decide_eq_true (hb i)

theorem lane32_eq_iff (a b : M128i) (k : Fin 4) :
    lane32 a k = lane32 b k ↔
      (a ⟨4 * k.val, by omega⟩ = b ⟨4 * k.val, by omega⟩
        ∧ a ⟨4 * k.val + 1, by omega⟩ = b ⟨4 * k.val + 1, by omega⟩
        ∧ a ⟨4 * k.val + 2, by omega⟩ = b ⟨4 * k.val + 2, by omega⟩
        ∧ a ⟨4 * k.val + 3, by omega⟩ = b ⟨4 * k.val + 3, by omega⟩) := by
  unfold lane32
  simp only [Fin.ext_iff]
  have h0 := (a ⟨4 * k.val, by omega⟩).isLt
  have h1 := (a ⟨4 * k.val + 1, by omega⟩).isLt
  have h2 := (a ⟨4 * k.val + 2, by omega⟩).isLt
  have h3 := (a ⟨4 * k.val + 3, by omega⟩).isLt
  have g0 := (b ⟨4 * k.val, by omega⟩).isLt
  have g1 := (b ⟨4 * k.val + 1, by omega⟩).isLt
  have g2 := (b ⟨4 * k.val + 2, by omega⟩).isLt
  have g3 := (b ⟨4 * k.val + 3, by omega⟩).isLt
  omega

theorem all_lanes_eq_iff (a b : M128i) :
    (∀ i : Fin 16, lane32 a ⟨i.val / 4, by omega⟩ = lane32 b ⟨i.val / 4, by omega⟩)
      ↔ ∀ i : Fin 16, a i = b i := by
  constructor
  · intro h i
    have hl := (lane32_eq_iff a b ⟨i.val / 4, by omega⟩).mp (h i)
    have hi : i.val = 4 * (i.val / 4) + i.val % 4 := by omega
    have hm : i.val % 4 = 0 ∨ i.val % 4 = 1 ∨ i.val % 4 = 2 ∨ i.val % 4 = 3 := by omega
    rcases hm with hm | hm | hm | hm
    · have e : i = ⟨4 * (i.val / 4), by omega⟩ := Fin.ext (by simp only; omega)
      rw [e]; exact hl.1
    · have e : i = ⟨4 * (i.val / 4) + 1, by omega⟩ := Fin.ext (by simp only; omega)
      rw [e]; exact hl.2.1
    · have e : i = ⟨4 * (i.val / 4) + 2, by omega⟩ := Fin.ext (by simp only; omega)
      rw [e]; exact hl.2.2.1
    · have e : i = ⟨4 * (i.val / 4) + 3, by omega⟩ := Fin.ext (by simp only; omega)
      rw [e]; exact hl.2.2.2
  · intro h i
    rw [lane32_eq_iff]
    exact ⟨h _, h _, h _, h _⟩

/-- The fallback equality test holds exactly when all bytes agree. -/
theorem cmpeq_movemask_iff (a b : M128i) :
    _mm_movemask_epi8 (_mm_cmpeq_epi32 a b) = 0xFFFF ↔ ∀ i : Fin 16, a i = b i := by
  rw [movemask_eq_ffff, ← all_lanes_eq_iff]
  apply forall_congr'
  intro i
  unfold _mm_cmpeq_epi32
  by_cases h : lane32 a ⟨i.val / 4, by omega⟩ = lane32 b ⟨i.val / 4, by omega⟩
  · simp only [h, if_true, iff_true]
    decide
  · simp only [h, if_false, iff_false]
    decide

/-- The SSE4.1 zero test of a register against itself holds exactly when all
bytes are zero. -/
theorem test_all_zeros_self_iff (m : M128i) :
    _mm_test_all_zeros m m ≠ 0 ↔ ∀ i : Fin 16, m i = 0 := by
  unfold _mm_test_all_zeros
  simp only [Nat.and_self]
  have e : (∀ i : Fin 16, (m i).val = 0) ↔ ∀ i : Fin 16, m i = 0 := by
    apply forall_congr'
    intro i
    exact ⟨fun h => Fin.ext h, fun h => by rw [h]; rfl⟩
  by_cases h : ∀ i : Fin 16, (m i).val = 0
  · simp only [h, if_true]
    exact ⟨fun _ => e.mp h, fun _ => by norm_num⟩
  · simp only [h, if_false]
    exact ⟨fun hc => absurd rfl hc, fun hc => absurd (e.mpr hc) h⟩

theorem xor_si128_zero_iff (a b : M128i) :
    (∀ i : Fin 16, _mm_xor_si128 a b i = 0) ↔ ∀ i : Fin 16, a i = b i := by
  apply forall_congr'
  intro i
  unfold _mm_xor_si128
  constructor
  · intro h
    have h2 : (a i).val ^^^ (b i).val = 0 := congrArg Fin.val h
    exact Fin.ext (Nat.xor_eq_zero.mp h2)
  · intro h
    apply Fin.ext
    simp only [h, Nat.xor_self]
    rfl

theorem materialid_operator_eq_iff (sse41 : Bool) (a b : LLMaterialID) :
    a.operator_eq sse41 b = true ↔ ∀ i : Fin 16, a.mID i = b.mID i := by
  cases sse41
  · simp only [LLMaterialID.operator_eq, load_unaligned_si128, Bool.false_eq_true, if_false,
      beq_iff_eq]
    exact cmpeq_movemask_iff a.mID b.mID
  · simp only [LLMaterialID.operator_eq, load_unaligned_si128, if_true, bne_iff_ne]
    rw [test_all_zeros_self_iff, xor_si128_zero_iff]

/-- Claim C3: `LLMaterialID::operator==` returns true exactly when all 16
bytes of the two ids are pairwise equal, in the SSE4.1 variant and in the
fallback variant alike, so the two variants agree on every input;
`operator!=` is its negation. -/
theorem C3_materialid_operator_eq (a b : LLMaterialID) :
    (∀ sse41 : Bool, a.operator_eq sse41 b = true ↔ ∀ i : Fin 16, a.mID i = b.mID i)
    ∧ a.operator_eq true b = a.operator_eq false b
    ∧ (∀ sse41 : Bool, a.operator_ne sse41 b = !a.operator_eq sse41 b) := by
  refine ⟨fun s => materialid_operator_eq_iff s a b, ?_, fun _ => rfl⟩
  rw [Bool.eq_iff_iff, materialid_operator_eq_iff, materialid_operator_eq_iff]

theorem isNull_body_iff (sse41 : Bool) (d : Fin 16 → U8) :
    (if sse41 then _mm_test_all_zeros d d != 0
      else _mm_movemask_epi8 (_mm_cmpeq_epi32 d _mm_setzero_si128) == 0xFFFF) = true
      ↔ ∀ i : Fin 16, d i = 0 := by
  cases sse41
  · simp only [Bool.false_eq_true, if_false, beq_iff_eq]
    rw [cmpeq_movemask_iff]
    rfl
  · simp only [if_true, bne_iff_ne]
    exact test_all_zeros_self_iff d

/-- Claim C4: `LLUUID::isNull` and `LLMaterialID::isNull` return true exactly
when all 16 bytes are zero, that is exactly when the id is the null id, in the
SSE4.1 variant and in the fallback variant; `LLUUID::notNull` is the negation
of `isNull`. -/
theorem C4_isNull_iff_all_bytes_zero (sse41 : Bool) (u : LLUUID) (m : LLMaterialID) :
    (u.isNull sse41 = true ↔ ∀ i : Fin 16, u.mData i = 0)
    ∧ (u.isNull sse41 = true ↔ u = LLUUID.null)
    ∧ (m.isNull sse41 = true ↔ ∀ i : Fin 16, m.mID i = 0)
    ∧ (m.isNull sse41 = true ↔ m = LLMaterialID.null)
    ∧ u.notNull sse41 = !u.isNull sse41 := by
  have hu : u.isNull sse41 = true ↔ ∀ i : Fin 16, u.mData i = 0 :=
    isNull_body_iff sse41 u.mData
  have hm : m.isNull sse41 = true ↔ ∀ i : Fin 16, m.mID i = 0 :=
    isNull_body_iff sse41 m.mID
  refine ⟨hu, ?_, hm, ?_, rfl⟩
  · rw [hu]
    constructor
    · intro h
      cases u with
      | mk d => exact congrArg LLUUID.mk (funext h)
    · intro h i
      rw [h]
      rfl
  · rw [hm]
    constructor
    · intro h
      cases m with
      | mk d => exact congrArg LLMaterialID.mk (funext h)
    · intro h i
      rw [h]
      rfl

/-! ## The ordering of `WStringMapIndex` -/

theorem wlt_irrefl (a : List Nat) : WStringMapIndex.operator_lt_loop a a = false := by
  induction a with
  | nil => rfl
  | cons x xs ih => simp [WStringMapIndex.operator_lt_loop, ih]

theorem wlt_trans (a b c : List Nat) (h1 : WStringMapIndex.operator_lt_loop a b = true)
    (h2 : WStringMapIndex.operator_lt_loop b c = true) :
    WStringMapIndex.operator_lt_loop a c = true := by
  induction a generalizing b c with
  | nil =>
    cases b with
    | nil => simp [WStringMapIndex.operator_lt_loop] at h1
    | cons y ys =>
      cases c with
      | nil => simp [WStringMapIndex.operator_lt_loop] at h2
      | cons z zs => rfl
  | cons x xs ih =>
    cases b with
    | nil => simp [WStringMapIndex.operator_lt_loop] at h1
    | cons y ys =>
      cases c with
      | nil => simp [WStringMapIndex.operator_lt_loop] at h2
      | cons z zs =>
        simp only [WStringMapIndex.operator_lt_loop] at h1 h2 ⊢
        by_cases hxy : x = y
        · subst hxy
          by_cases hxz : x = z
          · subst hxz
            simp only [ne_eq, not_true_eq_false, if_false] at h1 h2 ⊢
            exact ih _ _ h1 h2
          · simp only [ne_eq, hxz, not_false_eq_true, if_true] at h2 ⊢
            exact h2
        · simp only [ne_eq, hxy, not_false_eq_true, if_true, decide_eq_true_eq] at h1
          by_cases hyz : y = z
          · subst hyz
            simp [hxy, h1]
          · simp only [ne_eq, hyz, not_false_eq_true, if_true, decide_eq_true_eq] at h2
            have hlt : x < z := Nat.lt_trans h1 h2
            have hxz : x ≠ z := Nat.ne_of_lt hlt
            simp only [ne_eq, hxz, not_false_eq_true, if_true, decide_eq_true_eq]
            exact hlt

theorem wlt_total (a b : List Nat) :
    (a ≠ b → (WStringMapIndex.operator_lt_loop a b = true
        ∧ WStringMapIndex.operator_lt_loop b a = false)
      ∨ (WStringMapIndex.operator_lt_loop a b = false
        ∧ WStringMapIndex.operator_lt_loop b a = true))
    ∧ (a = b → WStringMapIndex.operator_lt_loop a b = false
        ∧ WStringMapIndex.operator_lt_loop b a = false) := by
  constructor
  · induction a generalizing b with
    | nil =>
      cases b with
      | nil => intro h; exact absurd rfl h
      | cons y ys => intro _; left; exact ⟨rfl, rfl⟩
    | cons x xs ih =>
      cases b with
      | nil => intro _; right; exact ⟨rfl, rfl⟩
      | cons y ys =>
        intro hne
        simp only [WStringMapIndex.operator_lt_loop]
        by_cases hxy : x = y
        · subst hxy
          simp only [ne_eq, not_true_eq_false, if_false]
          exact ih ys (fun h => hne (by rw [h]))
        · have hyx : ¬ y = x := fun h => hxy h.symm
          simp only [ne_eq, hxy, hyx, not_false_eq_true, if_true, decide_eq_true_eq,
            decide_eq_false_iff_not]
          rcases Nat.lt_or_gt_of_ne hxy with h | h
          · exact Or.inl ⟨h, Nat.lt_asymm h⟩
          · exact Or.inr ⟨Nat.lt_asymm h, h⟩
  · intro h
    subst h
    exact ⟨wlt_irrefl a, wlt_irrefl a⟩

/-- Claim C5: `WStringMapIndex::operator<` strictly orders all strings: it is
irreflexive and transitive, for different character sequences exactly one of
`a < b` and `b < a` holds, for equal ones neither holds, and the result
depends only on the characters, not on the ownership flag. -/
theorem C5_wstringmapindex_strict_order (a b c a2 b2 : WStringMapIndex) :
    a.operator_lt a = false
    ∧ (a.operator_lt b = true → b.operator_lt c = true → a.operator_lt c = true)
    ∧ (a.mData ≠ b.mData →
        (a.operator_lt b = true ∧ b.operator_lt a = false)
        ∨ (a.operator_lt b = false ∧ b.operator_lt a = true))
    ∧ (a.mData = b.mData → a.operator_lt b = false ∧ b.operator_lt a = false)
    ∧ (a.mData = a2.mData → b.mData = b2.mData → a.operator_lt b = a2.operator_lt b2) := by
  unfold WStringMapIndex.operator_lt
  refine ⟨wlt_irrefl _, wlt_trans _ _ _, (wlt_total _ _).1, (wlt_total _ _).2, ?_⟩
  intro h1 h2
  rw [h1, h2]

/-- Witness for claim C5: three indices with different ownership flags, for
which every hypothesis of the claim holds. -/
theorem C5_wstringmapindex_strict_order_witness :
    (WStringMapIndex.ofRange [97]).operator_lt (WStringMapIndex.ofString [97, 98]) = true
    ∧ (WStringMapIndex.ofString [97, 98]).operator_lt (WStringMapIndex.ofRange [98]) = true
    ∧ (WStringMapIndex.ofRange [97]).operator_lt (WStringMapIndex.ofRange [98]) = true
    ∧ (WStringMapIndex.ofRange [97]).operator_lt (WStringMapIndex.ofString [97, 98])
        = (WStringMapIndex.ofString [97]).operator_lt (WStringMapIndex.ofRange [97, 98]) :=
  have h := C5_wstringmapindex_strict_order (WStringMapIndex.ofRange [97])
    (WStringMapIndex.ofString [97, 98]) (WStringMapIndex.ofRange [98])
    (WStringMapIndex.ofString [97]) (WStringMapIndex.ofRange [97, 98])
  ⟨by decide, by decide, h.2.1 (by decide) (by decide), h.2.2.2.2 rfl rfl⟩

theorem wlt_prefix_false (a b : List Nat) (h : List.IsPrefix b a) :
    WStringMapIndex.operator_lt_loop a b = false := by
  induction b generalizing a with
  | nil => cases a <;> rfl
  | cons y ys ih =>
    cases a with
    | nil => simp at h
    | cons x xs =>
      rw [List.cons_prefix_cons] at h
      simp only [WStringMapIndex.operator_lt_loop, ne_eq, h.1.symm, not_true_eq_false, if_false]
      exact ih xs h.2

theorem wlt_proper_prefix_true (a b : List Nat) (h : List.IsPrefix a b) (hne : a ≠ b) :
    WStringMapIndex.operator_lt_loop a b = true := by
  induction a generalizing b with
  | nil =>
    cases b with
    | nil => exact absurd rfl hne
    | cons y ys => rfl
  | cons x xs ih =>
    cases b with
    | nil => simp at h
    | cons y ys =>
      rw [List.cons_prefix_cons] at h
      simp only [WStringMapIndex.operator_lt_loop, ne_eq, h.1, not_true_eq_false, if_false]
      exact ih ys h.2 (fun e => hne (by rw [h.1, e]))

theorem wlt_first_difference (a b : List Nat) (i : Nat) (ha : i < a.length) (hb : i < b.length)
    (hpre : a.take i = b.take i) (hdiff : a.get ⟨i, ha⟩ ≠ b.get ⟨i, hb⟩) :
    WStringMapIndex.operator_lt_loop a b = decide (a.get ⟨i, ha⟩ < b.get ⟨i, hb⟩) := by
  induction i generalizing a b with
  | zero =>
    cases a with
    | nil => simp at ha
    | cons x xs =>
      cases b with
      | nil => simp at hb
      | cons y ys =>
        simp only [List.get_eq_getElem, List.getElem_cons_zero] at hdiff ⊢
        simp only [WStringMapIndex.operator_lt_loop, ne_eq, hdiff, not_false_eq_true, if_true]
  | succ i ih =>
    cases a with
    | nil => simp at ha
    | cons x xs =>
      cases b with
      | nil => simp at hb
      | cons y ys =>
        simp only [List.take_succ_cons, List.cons.injEq] at hpre
        simp only [List.get_eq_getElem, List.getElem_cons_succ] at hdiff ⊢
        simp only [WStringMapIndex.operator_lt_loop, ne_eq, hpre.1, not_true_eq_false, if_false]
        have ha2 : i < xs.length := by simpa using ha
        have hb2 : i < ys.length := by simpa using hb
        exact ih xs ys ha2 hb2 hpre.2 hdiff

/-- Claim C6: `WStringMapIndex::operator<(self, other)` is false when `other`
is a prefix of `self` (equality included), true when `self` is a proper prefix
of `other`, and otherwise it is `self[i] < other[i]` at the first index `i`
where the two differ. -/
theorem C6_wstringmapindex_operator_lt_cases (self other : WStringMapIndex) :
    (List.IsPrefix other.mData self.mData → self.operator_lt other = false)
    ∧ (List.IsPrefix self.mData other.mData → self.mData ≠ other.mData →
        self.operator_lt other = true)
    ∧ (∀ (i : Nat) (hs : i < self.mData.length) (ho : i < other.mData.length),
        self.mData.take i = other.mData.take i →
        self.mData.get ⟨i, hs⟩ ≠ other.mData.get ⟨i, ho⟩ →
        self.operator_lt other = decide (self.mData.get ⟨i, hs⟩ < other.mData.get ⟨i, ho⟩)) :=
  ⟨wlt_prefix_false _ _, wlt_proper_prefix_true _ _, wlt_first_difference _ _⟩

/-- Witness for claim C6: each of the three cases at concrete strings. -/
theorem C6_wstringmapindex_operator_lt_cases_witness :
    (WStringMapIndex.ofRange [105, 102, 120]).operator_lt (WStringMapIndex.ofString [105, 102])
        = false
    ∧ (WStringMapIndex.ofRange [105, 102]).operator_lt (WStringMapIndex.ofString [105, 102, 120])
        = true
    ∧ (WStringMapIndex.ofRange [105, 102, 120]).operator_lt
        (WStringMapIndex.ofString [105, 110]) = decide ((102 : Nat) < 110) :=
  ⟨(C6_wstringmapindex_operator_lt_cases (WStringMapIndex.ofRange [105, 102, 120])
      (WStringMapIndex.ofString [105, 102])).1 ⟨[120], rfl⟩,
   (C6_wstringmapindex_operator_lt_cases (WStringMapIndex.ofRange [105, 102])
      (WStringMapIndex.ofString [105, 102, 120])).2.1 ⟨[120], rfl⟩ (by decide),
   (C6_wstringmapindex_operator_lt_cases (WStringMapIndex.ofRange [105, 102, 120])
      (WStringMapIndex.ofString [105, 110])).2.2 1 (by decide) (by decide) rfl (by decide)⟩

/-! ## The segment list of `findSegments` -/

theorem tiles_append (a b : Nat) (xs ys : List LLTextSegment) :
    Tiles a (xs ++ ys) b ↔ ∃ m, Tiles a xs m ∧ Tiles m ys b := by
  induction xs generalizing a with
  | nil =>
    simp only [List.nil_append, Tiles]
    constructor
    · intro h; exact ⟨a, rfl, h⟩
    · rintro ⟨m, h1, h2⟩; rw [h1]; exact h2
  | cons x xs ih =>
    rw [List.cons_append]
    show (x.mStart = a ∧ Tiles x.mEnd (xs ++ ys) b) ↔ ∃ m, (x.mStart = a ∧ Tiles x.mEnd xs m) ∧ Tiles m ys b
    rw [ih]
    constructor
    · rintro ⟨h1, m, h2, h3⟩; exact ⟨m, ⟨h1, h2⟩, h3⟩
    · rintro ⟨m, ⟨h1, h2⟩, h3⟩; exact ⟨h1, m, h2, h3⟩

theorem tiles_singleton (a b : Nat) (x : LLTextSegment) :
    Tiles a [x] b ↔ x.mStart = a ∧ x.mEnd = b := by
  simp [Tiles]

theorem insertSegment_concat (init : List LLTextSegment) (last new_segment : LLTextSegment)
    (text_len : Nat) :
    insertSegment (init ++ [last]) new_segment text_len =
      if new_segment.mEnd < text_len then
        some ((if new_segment.mStart = last.mStart then init
          else init ++ [last.setEnd new_segment.mStart]) ++ [new_segment]
            ++ [LLNormalTextSegment new_segment.mEnd text_len])
      else
        some ((if new_segment.mStart = last.mStart then init
          else init ++ [last.setEnd new_segment.mStart]) ++ [new_segment]) := by
  simp [insertSegment]

/-- The member `insertSegment` keeps the segment list a tiling: not empty and
leading from `0` to `text_len`, whenever the new segment ends within the
text. -/
theorem insertSegment_tiles (seg_list : List LLTextSegment) (new_segment : LLTextSegment)
    (text_len : Nat) (hne : seg_list ≠ []) (ht : Tiles 0 seg_list text_len)
    (hend : new_segment.mEnd ≤ text_len) :
    ∃ r, insertSegment seg_list new_segment text_len = some r ∧ r ≠ [] ∧ Tiles 0 r text_len := by
  obtain ⟨init, last, rfl⟩ := (List.eq_nil_or_concat seg_list).resolve_left hne
  rw [List.concat_eq_append] at ht
  obtain ⟨m, h1, h2⟩ := (tiles_append _ _ _ _).mp ht
  rw [tiles_singleton] at h2
  rw [List.concat_eq_append, insertSegment_concat]
  by_cases hs : new_segment.mStart = last.mStart
  · rw [if_pos hs]
    by_cases hlt : new_segment.mEnd < text_len
    · simp only [hlt, if_true]
      refine ⟨_, rfl, by simp, ?_⟩
      rw [tiles_append]
      refine ⟨new_segment.mEnd, ?_, by simp [Tiles, LLNormalTextSegment]⟩
      rw [tiles_append]
      exact ⟨m, h1, by rw [tiles_singleton]; exact ⟨by rw [hs]; exact h2.1, rfl⟩⟩
    · simp only [hlt, if_false]
      refine ⟨_, rfl, by simp, ?_⟩
      rw [tiles_append]
      refine ⟨m, h1, ?_⟩
      rw [tiles_singleton]
      exact ⟨by rw [hs]; exact h2.1, by omega⟩
  · rw [if_neg hs]
    have hbody : Tiles 0 (init ++ [last.setEnd new_segment.mStart] ++ [new_segment])
        new_segment.mEnd := by
      rw [tiles_append]
      refine ⟨new_segment.mStart, ?_, by simp [Tiles]⟩
      rw [tiles_append]
      exact ⟨m, h1, by rw [tiles_singleton]; exact ⟨h2.1, rfl⟩⟩
    by_cases hlt : new_segment.mEnd < text_len
    · simp only [hlt, if_true]
      refine ⟨_, rfl, by simp, ?_⟩
      rw [tiles_append]
      exact ⟨new_segment.mEnd, hbody, by simp [Tiles, LLNormalTextSegment]⟩
    · simp only [hlt, if_false]
      refine ⟨_, rfl, by simp, ?_⟩
      have : new_segment.mEnd = text_len := by omega
      rw [← this]
      exact hbody

theorem findFrom_ge (c : Nat) (l : List Nat) (i p : Nat) (h : findFrom c l i = some p) :
    i ≤ p := by
  induction l generalizing i with
  | nil => simp [findFrom] at h
  | cons x xs ih =>
    simp only [findFrom] at h
    split at h
    · simp only [Option.some.injEq] at h; omega
    · have := ih (i + 1) h; omega

theorem wtext_find_ge (wtext : LLWString) (c : Nat) (pos p : Nat)
    (h : wtext_find wtext c pos = some p) : pos ≤ p :=
  findFrom_ge c _ pos p h

theorem insertSegmentsLoop_tiles (wtext : LLWString) (tok : LLKeywordToken)
    (text_len seg_end : Nat) (hle : seg_end ≤ text_len) (fuel : Nat)
    (seg_list : List LLTextSegment) (seg_start : Nat) (pos : Option Nat)
    (hfuel : seg_end < seg_start + fuel) (hfuel0 : 0 < fuel) (hpos : ∀ p, pos = some p → seg_start ≤ p)
    (hne : seg_list ≠ []) (ht : Tiles 0 seg_list text_len) :
    ∃ r s, insertSegmentsLoop wtext tok text_len seg_end fuel seg_list seg_start pos
        = some (r, s) ∧ r ≠ [] ∧ Tiles 0 r text_len := by
  induction fuel generalizing seg_list seg_start pos with
  | zero => omega
  | succ fuel ih =>
    cases pos with
    | none => exact ⟨seg_list, seg_start, rfl, hne, ht⟩
    | some p =>
      have hp := hpos p rfl
      simp only [insertSegmentsLoop]
      by_cases hlt : p < seg_end
      · simp only [hlt, if_true]
        have h1 : ∃ r1, (if p ≠ seg_start then
            insertSegment seg_list ((LLNormalTextSegment seg_start p).setToken (some tok)) text_len
            else some seg_list) = some r1 ∧ r1 ≠ [] ∧ Tiles 0 r1 text_len := by
          by_cases hps : p ≠ seg_start
          · rw [if_pos hps]
            exact insertSegment_tiles _ _ _ hne ht
              (by simp only [LLTextSegment.setToken, LLNormalTextSegment]; omega)
          · rw [if_neg hps]
            exact ⟨seg_list, rfl, hne, ht⟩
        obtain ⟨r1, e1, n1, t1⟩ := h1
        rw [e1]
        obtain ⟨r2, e2, n2, t2⟩ := insertSegment_tiles r1
          ((LLLineBreakTextSegment p).setToken (some tok)) text_len n1 t1
          (by simp only [LLTextSegment.setToken, LLLineBreakTextSegment]; omega)
        simp only [e2]
        exact ih r2 (p + 1) _ (by omega) (by omega) (fun q hq => wtext_find_ge _ _ _ _ hq) n2 t2
      · simp only [hlt, if_false]
        exact ⟨seg_list, seg_start, rfl, hne, ht⟩

/-- The member `insertSegments` keeps the segment list a tiling, whenever the
new range ends within the text. -/
theorem insertSegments_tiles (wtext : LLWString) (seg_list : List LLTextSegment)
    (tok : LLKeywordToken) (text_len seg_start seg_end : Nat) (hle : seg_end ≤ text_len)
    (hne : seg_list ≠ []) (ht : Tiles 0 seg_list text_len) :
    ∃ r, insertSegments wtext seg_list tok text_len seg_start seg_end = some r
      ∧ r ≠ [] ∧ Tiles 0 r text_len := by
  obtain ⟨r1, s1, e1, n1, t1⟩ := insertSegmentsLoop_tiles wtext tok text_len seg_end hle
    (seg_end + 1) seg_list seg_start (wtext_find wtext 10 seg_start) (by omega) (by omega)
    (fun q hq => wtext_find_ge _ _ _ _ hq) hne ht
  simp only [insertSegments, e1]
  exact insertSegment_tiles r1 _ text_len n1 t1
    (by simp only [LLTextSegment.setToken, LLNormalTextSegment]; omega)

/-! ## The scanning loops of `findSegments` -/

theorem charAt_of_length_le (wtext : LLWString) (i : Nat) (h : wtext.length ≤ i) :
    charAt wtext i = 0 := by
  unfold charAt
  rw [List.getD_eq_default _ _ h]

theorem lt_length_of_charAt_ne_zero (wtext : LLWString) (i : Nat) (h : charAt wtext i ≠ 0) :
    i < wtext.length := by
  by_contra hc
  exact h (charAt_of_length_le wtext i (by omega))

/-- A loop `while (cond(*cur)) cur++` whose condition fails on the terminating
`0` stops within the buffer, at the first position where the condition
fails. -/
theorem scanWhile_spec (cond : Nat → Bool) (h0 : cond 0 = false) (wtext : LLWString)
    (fuel cur : Nat) (hcur : cur ≤ wtext.length) (hfuel : wtext.length < cur + fuel) :
    ∃ r, scanWhile cond wtext fuel cur = some r ∧ cur ≤ r ∧ r ≤ wtext.length
      ∧ cond (charAt wtext r) = false
      ∧ ∀ j, cur ≤ j → j < r → cond (charAt wtext j) = true := by
  induction fuel generalizing cur with
  | zero => omega
  | succ fuel ih =>
    simp only [scanWhile]
    by_cases hc : cond (charAt wtext cur) = true
    · rw [if_pos hc]
      have hlt : cur < wtext.length := by
        apply lt_length_of_charAt_ne_zero
        intro h
        rw [h, h0] at hc
        exact Bool.noConfusion hc
      obtain ⟨r, e, h1, h2, h3, h4⟩ := ih (cur + 1) (by omega) (by omega)
      refine ⟨r, e, by omega, h2, h3, ?_⟩
      intro j hj1 hj2
      by_cases hj : j = cur
      · rw [hj]; exact hc
      · exact h4 j (by omega) hj2
    · rw [if_neg hc]
      exact ⟨cur, rfl, le_refl _, hcur, by simpa using hc, fun j h1 h2 => by omega⟩

theorem oneSidedLoop_spec (wtext : LLWString) (fuel cur between : Nat)
    (hcur : cur ≤ wtext.length) (hfuel : wtext.length < cur + fuel) :
    ∃ r, oneSidedLoop wtext fuel cur between = some (r, between + (r - cur))
      ∧ cur ≤ r ∧ r ≤ wtext.length := by
  induction fuel generalizing cur between with
  | zero => omega
  | succ fuel ih =>
    simp only [oneSidedLoop]
    by_cases hc : (charAt wtext cur != 0 && (10 != charAt wtext cur)) = true
    · rw [if_pos hc]
      have hlt : cur < wtext.length := by
        apply lt_length_of_charAt_ne_zero
        simp only [Bool.and_eq_true, bne_iff_ne, ne_eq] at hc
        exact hc.1
      obtain ⟨r, e, h1, h2⟩ := ih (cur + 1) (between + 1) (by omega) (by omega)
      refine ⟨r, ?_, by omega, h2⟩
      rw [e]
      congr 2
      omega
    · rw [if_neg hc]
      exact ⟨cur, by simp, le_refl _, hcur⟩

theorem countBackslashes_spec (wtext : LLWString) (fuel cur num between : Nat)
    (hcur : cur ≤ wtext.length) (hfuel : wtext.length < cur + fuel) :
    ∃ r, countBackslashes wtext fuel cur num between
        = some (r, num + (r - cur), between + (r - cur))
      ∧ cur ≤ r ∧ r ≤ wtext.length ∧ charAt wtext r ≠ 92
      ∧ ∀ j, cur ≤ j → j < r → charAt wtext j = 92 := by
  induction fuel generalizing cur num between with
  | zero => omega
  | succ fuel ih =>
    simp only [countBackslashes]
    by_cases hc : charAt wtext cur = 92
    · rw [if_pos hc]
      have hlt : cur < wtext.length := by
        apply lt_length_of_charAt_ne_zero
        rw [hc]
        norm_num
      obtain ⟨r, e, h1, h2, h3, h4⟩ := ih (cur + 1) (num + 1) (between + 1) (by omega) (by omega)
      refine ⟨r, ?_, by omega, h2, h3, ?_⟩
      · rw [e]
        have e1 : num + 1 + (r - (cur + 1)) = num + (r - cur) := by omega
        have e2 : between + 1 + (r - (cur + 1)) = between + (r - cur) := by omega
        rw [e1, e2]
      · intro j hj1 hj2
        by_cases hj : j = cur
        · rw [hj]; exact hc
        · exact h4 j (by omega) hj2
    · rw [if_neg hc]
      exact ⟨cur, by simp, le_refl _, hcur, hc, fun j h1 h2 => by omega⟩

/-- A token without the character `0` that matches at `s` lies within the
text. -/
theorem matchesAt_bound (t : List Nat) (h0 : ∀ c ∈ t, c ≠ 0) (wtext : LLWString) (s : Nat)
    (hs : s ≤ wtext.length) (h : matchesAt t wtext s = true) :
    s + t.length ≤ wtext.length := by
  induction t generalizing s with
  | nil => simpa using hs
  | cons c cs ih =>
    simp only [matchesAt] at h
    by_cases hc : charAt wtext s = c
    · have hne : charAt wtext s ≠ 0 := by
        rw [hc]
        exact h0 c (List.mem_cons_self _ _)
      have hlt := lt_length_of_charAt_ne_zero wtext s hne
      simp only [ne_eq, hc, not_true_eq_false, if_false] at h
      have := ih (fun x hx => h0 x (List.mem_cons_of_mem _ hx)) (s + 1) (by omega) h
      simp only [List.length_cons]
      omega
    · simp only [ne_eq, hc, not_false_eq_true, if_true] at h
      exact Bool.noConfusion h

/-- The loop of a two-sided delimiter or string literal stops within the
buffer, at the terminating `0` or where the closing string matches, and
`between_delimiters` has grown by the distance covered. -/
theorem delimitedLoop_spec (tok : LLKeywordToken) (wtext : LLWString)
    (htail : ∀ c ∈ tok.mDelimiter, c ≠ 0)
    (fuel cur between : Nat) (hcur : cur ≤ wtext.length)
    (hfuel : wtext.length + 2 ≤ cur + fuel) :
    ∃ r, delimitedLoop tok wtext fuel cur between = some (r, between + (r - cur))
      ∧ cur ≤ r ∧ r ≤ wtext.length
      ∧ (charAt wtext r ≠ 0 → tok.isTail wtext r = true) := by
  induction fuel generalizing cur between with
  | zero => omega
  | succ fuel ih =>
    simp only [delimitedLoop]
    by_cases hc : (charAt wtext cur != 0 && !tok.isTail wtext cur) = true
    · rw [if_pos hc]
      have hc2 := hc
      simp only [Bool.and_eq_true, bne_iff_ne, ne_eq, Bool.not_eq_true'] at hc2
      have hlt : cur < wtext.length := lt_length_of_charAt_ne_zero wtext cur hc2.1
      by_cases hq : (decide (tok.getType = ETokenType.TT_DOUBLE_QUOTATION_MARKS)
          && decide (charAt wtext cur = 92)) = true
      · rw [if_pos hq]
        simp only [Bool.and_eq_true, decide_eq_true_eq] at hq
        obtain ⟨c, e, h1, h2, h3, h4⟩ :=
          countBackslashes_spec wtext fuel cur 0 between hcur (by omega)
        have hcc : cur < c := by
          by_contra hn
          have : c = cur := by omega
          rw [this] at h3
          exact h3 hq.2
        simp only [e]
        by_cases ht : tok.isTail wtext c = true
        · rw [if_pos ht]
          by_cases hodd : (0 + (c - cur)) % 2 = 1
          · rw [if_pos hodd]
            have hb := matchesAt_bound tok.mDelimiter htail wtext c h2 ht
            have hlen : 0 < tok.mDelimiter.length := by
              rcases Nat.eq_zero_or_pos tok.mDelimiter.length with h | h
              · have hnil := List.length_eq_zero.mp h
                have hf := hc2.2
                simp only [LLKeywordToken.isTail, hnil, matchesAt] at hf
                exact Bool.noConfusion hf
              · exact h
            obtain ⟨r, e2, g1, g2, g3⟩ := ih (c + 1) (between + (c - cur) + 1) (by omega)
              (by omega)
            refine ⟨r, ?_, by omega, g2, g3⟩
            rw [e2]
            congr 2
            omega
          · rw [if_neg hodd]
            refine ⟨c, rfl, by omega, h2, fun _ => ht⟩
        · rw [if_neg ht]
          obtain ⟨r, e2, g1, g2, g3⟩ := ih c (between + (c - cur)) h2 (by omega)
          refine ⟨r, ?_, by omega, g2, g3⟩
          rw [e2]
          congr 2
          omega
      · rw [if_neg hq]
        obtain ⟨r, e2, g1, g2, g3⟩ := ih (cur + 1) (between + 1) (by omega) (by omega)
        refine ⟨r, ?_, by omega, g2, g3⟩
        rw [e2]
        congr 2
        omega
    · rw [if_neg hc]
      refine ⟨cur, by simp, le_refl _, hcur, ?_⟩
      intro hne
      simp only [Bool.and_eq_true, bne_iff_ne, ne_eq, Bool.not_eq_true', not_and,
        Bool.not_eq_false] at hc
      exact hc hne

/-- The block "Check against delimiters", for a delimiter that matches at
`cur`: it moves `cur` forward, within the buffer, and keeps the segment list a
tiling. -/
theorem delimiterSegment_spec (wtext : LLWString) (text_len : Nat)
    (hL : text_len = wtext.length + 1) (tok : LLKeywordToken) (hok : DelimOK tok)
    (fuel cur : Nat) (seg_list : List LLTextSegment)
    (hhead : tok.isHead wtext cur = true) (hcur : cur ≤ wtext.length)
    (hfuel : wtext.length + 2 ≤ cur + fuel)
    (hne : seg_list ≠ []) (ht : Tiles 0 seg_list text_len) :
    ∃ c r, delimiterSegment wtext text_len tok fuel cur seg_list = some (c, r)
      ∧ cur < c ∧ c ≤ wtext.length ∧ r ≠ [] ∧ Tiles 0 r text_len := by
  obtain ⟨hnil, hhd, htl, hlen⟩ := hok
  have hb := matchesAt_bound tok.mToken hhd wtext cur hcur hhead
  have hpos : 0 < tok.mToken.length := List.length_pos.mpr hnil
  simp only [delimiterSegment, LLKeywordToken.getLengthHead, LLKeywordToken.getLengthTail,
    LLKeywordToken.getType]
  by_cases hty : (decide (tok.mType = ETokenType.TT_TWO_SIDED_DELIMITER)
      || decide (tok.mType = ETokenType.TT_DOUBLE_QUOTATION_MARKS)) = true
  · rw [if_pos hty]
    simp only [Bool.or_eq_true, decide_eq_true_eq] at hty
    have hlen2 := hlen hty
    obtain ⟨q, e, h1, h2, h3⟩ := delimitedLoop_spec tok wtext htl fuel
      (cur + tok.mToken.length) 0 hb (by omega)
    simp only [e]
    by_cases hz : (charAt wtext q != 0) = true
    · rw [if_pos hz]
      simp only [bne_iff_ne, ne_eq] at hz
      have hb2 := matchesAt_bound tok.mDelimiter htl wtext q h2 (h3 hz)
      obtain ⟨r, er, n1, t1⟩ := insertSegments_tiles wtext seg_list tok text_len cur
        (cur + (0 + (q - (cur + tok.mToken.length))) + tok.mToken.length
          + tok.mDelimiter.length) (by omega) hne ht
      simp only [er]
      exact ⟨_, _, rfl, by omega, by omega, n1, t1⟩
    · rw [if_neg hz]
      obtain ⟨r, er, n1, t1⟩ := insertSegments_tiles wtext seg_list tok text_len cur
        (cur + (0 + (q - (cur + tok.mToken.length))) + tok.mToken.length) (by omega) hne ht
      simp only [er]
      exact ⟨_, _, rfl, by omega, by omega, n1, t1⟩
  · rw [if_neg hty]
    obtain ⟨q, e, h1, h2⟩ := oneSidedLoop_spec wtext fuel (cur + tok.mToken.length) 0 hb
      (by omega)
    simp only [e]
    obtain ⟨r, er, n1, t1⟩ := insertSegments_tiles wtext seg_list tok text_len cur
      (cur + (0 + (q - (cur + tok.mToken.length))) + tok.mToken.length) (by omega) hne ht
    simp only [er]
    exact ⟨_, _, rfl, by omega, by omega, n1, t1⟩

theorem isWordLoopChar_zero (ct : CType) : isWordLoopChar ct 0 = false := by
  simp [isWordLoopChar]

theorem isSkippedSpace_zero (ct : CType) : isSkippedSpace ct 0 = false := by
  simp [isSkippedSpace]

theorem isInLine_zero : isInLine 0 = false := by
  simp [isInLine]

/-- The inner loop of `findSegments` returns, with `cur` moved forward within
the buffer (strictly, when it starts inside a line) and the segment list
still a tiling. -/
theorem lineLoop_spec (self : LLKeywords) (hdel : ∀ d ∈ self.mDelimiterTokenList, DelimOK d)
    (ct : CType) (wtext : LLWString) (text_len : Nat) (hL : text_len = wtext.length + 1)
    (fuel cur : Nat) (seg_list : List LLTextSegment) (hcur : cur ≤ wtext.length)
    (hfuel : wtext.length + 3 ≤ cur + fuel)
    (hne : seg_list ≠ []) (ht : Tiles 0 seg_list text_len) :
    ∃ c r, lineLoop self ct wtext text_len fuel cur seg_list = some (c, r)
      ∧ cur ≤ c ∧ c ≤ wtext.length ∧ (isInLine (charAt wtext cur) = true → cur < c)
      ∧ r ≠ [] ∧ Tiles 0 r text_len := by
  induction fuel generalizing cur seg_list with
  | zero => omega
  | succ fuel ih =>
    simp only [lineLoop]
    by_cases hc : (charAt wtext cur != 0 && charAt wtext cur != 10) = true
    · rw [if_pos hc]
      have hc2 := hc
      simp only [Bool.and_eq_true, bne_iff_ne, ne_eq] at hc2
      have hlt : cur < wtext.length := lt_length_of_charAt_ne_zero wtext cur hc2.1
      cases hfind : self.mDelimiterTokenList.find? (fun delimiter => delimiter.isHead wtext cur) with
      | some d =>
        simp only []
        have hmem := List.mem_of_find?_eq_some hfind
        have hhead := List.find?_some hfind
        obtain ⟨c, r, e, h1, h2, n1, t1⟩ := delimiterSegment_spec wtext text_len hL d
          (hdel d hmem) fuel cur seg_list hhead hcur (by omega) hne ht
        simp only [e]
        obtain ⟨c2, r2, e2, g1, g2, _, n2, t2⟩ := ih c r h2 (by omega) n1 t1
        exact ⟨c2, r2, e2, by omega, g2, fun _ => by omega, n2, t2⟩
      | none =>
        simp only []
        have hstep : ∃ c r, (if (charAt wtext cur != 0 && charAt wtext cur != 10) = true then
            lineLoop self ct wtext text_len fuel (cur + 1) seg_list
            else lineLoop self ct wtext text_len fuel cur seg_list) = some (c, r)
            ∧ cur ≤ c ∧ c ≤ wtext.length ∧ (isInLine (charAt wtext cur) = true → cur < c)
            ∧ r ≠ [] ∧ Tiles 0 r text_len := by
          rw [if_pos hc]
          obtain ⟨c2, r2, e2, g1, g2, _, n2, t2⟩ := ih (cur + 1) seg_list (by omega) (by omega)
            hne ht
          exact ⟨c2, r2, e2, by omega, g2, fun _ => by omega, n2, t2⟩
        by_cases hprev : (!ct.iswalnum (if cur > 0 then charAt wtext (cur - 1) else 0)
            && (if cur > 0 then charAt wtext (cur - 1) else 0) != 95
            && (if cur > 0 then charAt wtext (cur - 1) else 0) != 35) = true
        · rw [if_pos hprev]
          obtain ⟨p, e, h1, h2, h3, h4⟩ := scanWhile_spec (isWordLoopChar ct)
            (isWordLoopChar_zero ct) wtext fuel cur hcur (by omega)
          simp only [e]
          by_cases hlen : p - cur > 0
          · rw [if_pos hlen]
            cases hw : wordTokenMapFind self.mWordTokenMap
                (WStringMapIndex.ofRange (List.take (p - cur) (List.drop cur wtext))) with
            | some tk =>
              simp only []
              obtain ⟨r, er, n1, t1⟩ := insertSegments_tiles wtext seg_list tk text_len cur
                (cur + (p - cur)) (by omega) hne ht
              simp only [er]
              obtain ⟨c2, r2, e2, g1, g2, _, n2, t2⟩ := ih (cur + (p - cur)) r (by omega)
                (by omega) n1 t1
              exact ⟨c2, r2, e2, by omega, g2, fun _ => by omega, n2, t2⟩
            | none =>
              simp only []
              obtain ⟨c2, r2, e2, g1, g2, _, n2, t2⟩ := ih (cur + (p - cur)) seg_list
                (by omega) (by omega) hne ht
              exact ⟨c2, r2, e2, by omega, g2, fun _ => by omega, n2, t2⟩
          · rw [if_neg hlen]
            exact hstep
        · rw [if_neg hprev]
          exact hstep
    · rw [if_neg hc]
      refine ⟨cur, seg_list, rfl, le_refl _, hcur, ?_, hne, ht⟩
      intro h
      exact absurd h hc

theorem isInLine_iff (c : Nat) : isInLine c = true ↔ c ≠ 0 ∧ c ≠ 10 := by
  simp [isInLine]

/-- The second part of the block at the start of a line: the white space and
the line start tokens. -/
theorem lineStart_rest_spec (self : LLKeywords) (ct : CType) (wtext : LLWString)
    (text_len : Nat) (hL : text_len = wtext.length + 1) (fuel cur c0 : Nat)
    (r0 : List LLTextSegment) (hc0 : cur ≤ c0) (hc0n : c0 ≤ wtext.length)
    (hprog : cur < c0 ∨ (isInLine (charAt wtext cur) = true ∧ c0 = cur))
    (hfuel : wtext.length + 3 ≤ c0 + fuel) (hne : r0 ≠ []) (ht : Tiles 0 r0 text_len) :
    ∃ flag c r,
      (match scanWhile (isSkippedSpace ct) wtext fuel c0 with
        | none => none
        | some cur =>
          if (charAt wtext cur = 0 || charAt wtext cur = 10) then some (true, cur, r0)
          else
            match self.mLineTokenList.find? (fun cur_token => cur_token.isHead wtext cur) with
            | some cur_token =>
              match scanWhile isInLine wtext fuel cur with
              | none => none
              | some cur2 =>
                match insertSegments wtext r0 cur_token text_len cur cur2 with
                | none => none
                | some seg_list => some (true, cur2, seg_list)
            | none => some (false, cur, r0)) = some (flag, c, r)
      ∧ cur ≤ c ∧ c ≤ wtext.length ∧ (flag = true → cur < c)
      ∧ (flag = false → isInLine (charAt wtext c) = true
          ∧ isSkippedSpace ct (charAt wtext c) = false)
      ∧ r ≠ [] ∧ Tiles 0 r text_len := by
  obtain ⟨c1, e1, h1, h2, h3, h4⟩ := scanWhile_spec (isSkippedSpace ct) (isSkippedSpace_zero ct)
    wtext fuel c0 hc0n (by omega)
  simp only [e1]
  by_cases hz : (decide (charAt wtext c1 = 0) || decide (charAt wtext c1 = 10)) = true
  · rw [if_pos hz]
    refine ⟨true, c1, r0, rfl, by omega, h2, ?_, fun h => Bool.noConfusion h, hne, ht⟩
    intro _
    rcases hprog with hp | ⟨hp, hp2⟩
    · omega
    · by_contra hn
      have : c1 = cur := by omega
      rw [this] at hz
      rw [isInLine_iff] at hp
      simp only [Bool.or_eq_true, decide_eq_true_eq] at hz
      rcases hz with hz | hz
      · exact hp.1 hz
      · exact hp.2 hz
  · rw [if_neg hz]
    have hin : isInLine (charAt wtext c1) = true := by
      rw [isInLine_iff]
      simp only [Bool.or_eq_true, decide_eq_true_eq, not_or] at hz
      exact hz
    cases hfind : self.mLineTokenList.find? (fun cur_token => cur_token.isHead wtext c1) with
    | some tk =>
      simp only []
      obtain ⟨c2, e2, g1, g2, g3, g4⟩ := scanWhile_spec isInLine isInLine_zero wtext fuel c1 h2
        (by omega)
      simp only [e2]
      have hlt : c1 < c2 := by
        by_contra hn
        have : c2 = c1 := by omega
        rw [this, hin] at g3
        exact Bool.noConfusion g3
      obtain ⟨r, er, n1, t1⟩ := insertSegments_tiles wtext r0 tk text_len c1 c2 (by omega)
        hne ht
      simp only [er]
      exact ⟨true, c2, r, rfl, by omega, g2, fun _ => by omega, fun h => Bool.noConfusion h,
        n1, t1⟩
    | none =>
      simp only []
      exact ⟨false, c1, r0, rfl, by omega, h2, fun h => Bool.noConfusion h, fun _ => ⟨hin, h3⟩,
        hne, ht⟩

/-- The block at the start of a line returns, within the buffer, with the
segment list still a tiling; it has moved `cur` forward when it leaves through
a `continue`, and otherwise `cur` is at a character of the line that the next
"Skip white space" loop leaves in place. -/
theorem lineStart_spec (self : LLKeywords) (ct : CType) (wtext : LLWString)
    (text_len : Nat) (hL : text_len = wtext.length + 1) (fuel cur : Nat)
    (seg_list : List LLTextSegment) (hcur : charAt wtext cur ≠ 0)
    (hfuel : wtext.length + 3 ≤ cur + fuel) (hne : seg_list ≠ [])
    (ht : Tiles 0 seg_list text_len) :
    ∃ flag c r, lineStart self ct wtext text_len fuel cur seg_list = some (flag, c, r)
      ∧ cur ≤ c ∧ c ≤ wtext.length ∧ (flag = true → cur < c)
      ∧ (flag = false → isInLine (charAt wtext c) = true
          ∧ isSkippedSpace ct (charAt wtext c) = false)
      ∧ r ≠ [] ∧ Tiles 0 r text_len := by
  have hlt : cur < wtext.length := lt_length_of_charAt_ne_zero wtext cur hcur
  unfold lineStart
  by_cases hnl : charAt wtext cur = 10
  · rw [if_pos hnl]
    obtain ⟨r1, e1, n1, t1⟩ := insertSegment_tiles seg_list
      ((LLLineBreakTextSegment cur).setToken none) text_len hne ht
      (by simp only [LLTextSegment.setToken, LLLineBreakTextSegment]; omega)
    simp only [e1]
    by_cases hz : (decide (charAt wtext (cur + 1) = 0) || decide (charAt wtext (cur + 1) = 10))
        = true
    · rw [if_pos hz]
      exact ⟨true, cur + 1, r1, rfl, by omega, by omega, fun _ => by omega,
        fun h => Bool.noConfusion h, n1, t1⟩
    · rw [if_neg hz]
      simp only []
      obtain ⟨flag, c, r, e, g1, g2, g3, g4, g5, g6⟩ := lineStart_rest_spec self ct wtext
        text_len hL fuel cur (cur + 1) r1 (by omega) (by omega) (Or.inl (by omega)) (by omega)
        n1 t1
      exact ⟨flag, c, r, e, g1, g2, g3, g4, g5, g6⟩
  · rw [if_neg hnl]
    simp only []
    have hin : isInLine (charAt wtext cur) = true := by
      rw [isInLine_iff]
      exact ⟨hcur, hnl⟩
    exact lineStart_rest_spec self ct wtext text_len hL fuel cur cur seg_list (le_refl _)
      (by omega) (Or.inr ⟨hin, rfl⟩) (by omega) hne ht

/-- The outer loop of `findSegments` returns a segment list that is still a
tiling. -/
theorem findSegmentsLoop_spec (self : LLKeywords)
    (hdel : ∀ d ∈ self.mDelimiterTokenList, DelimOK d) (ct : CType) (wtext : LLWString)
    (text_len : Nat) (hL : text_len = wtext.length + 1) (fuel cur : Nat)
    (seg_list : List LLTextSegment) (hcur : cur ≤ wtext.length)
    (hfuel : wtext.length + 4 ≤ cur + fuel) (hne : seg_list ≠ [])
    (ht : Tiles 0 seg_list text_len) :
    ∃ r, findSegmentsLoop self ct wtext text_len fuel cur seg_list = some r
      ∧ r ≠ [] ∧ Tiles 0 r text_len := by
  induction fuel generalizing cur seg_list with
  | zero => omega
  | succ fuel ih =>
    simp only [findSegmentsLoop]
    by_cases hc : (charAt wtext cur != 0) = true
    · rw [if_pos hc]
      have hc2 : charAt wtext cur ≠ 0 := by simpa using hc
      have hlt : cur < wtext.length := lt_length_of_charAt_ne_zero wtext cur hc2
      have hfirst : ∃ flag c r, (if (decide (charAt wtext cur = 10) || decide (cur = 0)) = true
          then lineStart self ct wtext text_len fuel cur seg_list
          else some (false, cur, seg_list)) = some (flag, c, r)
          ∧ cur ≤ c ∧ c ≤ wtext.length ∧ (flag = true → cur < c)
          ∧ (flag = false → isInLine (charAt wtext c) = true)
          ∧ r ≠ [] ∧ Tiles 0 r text_len := by
        by_cases hls : (decide (charAt wtext cur = 10) || decide (cur = 0)) = true
        · rw [if_pos hls]
          obtain ⟨flag, c, r, e, g1, g2, g3, g4, g5, g6⟩ := lineStart_spec self ct wtext
            text_len hL fuel cur seg_list hc2 (by omega) hne ht
          exact ⟨flag, c, r, e, g1, g2, g3, fun h => (g4 h).1, g5, g6⟩
        · rw [if_neg hls]
          refine ⟨false, cur, seg_list, rfl, le_refl _, hcur, fun h => Bool.noConfusion h, ?_,
            hne, ht⟩
          intro _
          rw [isInLine_iff]
          simp only [Bool.or_eq_true, decide_eq_true_eq, not_or] at hls
          exact ⟨hc2, hls.1⟩
      obtain ⟨flag, c, r, e, g1, g2, g3, g4, g5, g6⟩ := hfirst
      rw [e]
      cases flag with
      | true =>
        simp only []
        exact ih c r g2 (by have := g3 rfl; omega) g5 g6
      | false =>
        simp only []
        obtain ⟨c1, e1, h1, h2, h3, h4⟩ := scanWhile_spec (isSkippedSpace ct)
          (isSkippedSpace_zero ct) wtext fuel c g2 (by omega)
        simp only [e1]
        obtain ⟨c2, r2, e2, k1, k2, k3, k4, k5⟩ := lineLoop_spec self hdel ct wtext text_len hL
          fuel c1 r h2 (by omega) g5 g6
        simp only [e2]
        have hprog : cur < c2 := by
          by_cases hcc : c1 = c
          · have := g4 rfl
            rw [← hcc] at this
            have := k3 this
            omega
          · omega
        exact ih c2 r2 k2 (by omega) k4 k5
    · rw [if_neg hc]
      exact ⟨seg_list, rfl, hne, ht⟩

theorem standardDelimiters_ok (d : LLKeywordToken) (h : d ∈ standardDelimiters) : DelimOK d := by
  simp only [standardDelimiters, LLKeywords.processTokensStandard, LLKeywords.addToken,
    LLKeywords.empty, List.mem_cons, List.mem_singleton, List.not_mem_nil, or_false] at h
  rcases h with h | h | h <;> subst h <;> simp [DelimOK]

theorem tiles_iff_chain (a b : Nat) (l : List LLTextSegment) (hne : l ≠ []) :
    Tiles a l b ↔
      (l.head?.map LLTextSegment.mStart = some a
        ∧ List.Chain' (fun s t : LLTextSegment => s.mEnd = t.mStart) l
        ∧ l.getLast?.map LLTextSegment.mEnd = some b) := by
  induction l generalizing a with
  | nil => exact absurd rfl hne
  | cons x xs ih =>
    cases xs with
    | nil => simp [Tiles]
    | cons y ys =>
      have ih2 := ih x.mEnd (by simp)
      show (x.mStart = a ∧ Tiles x.mEnd (y :: ys) b) ↔ _
      rw [ih2]
      simp only [List.head?_cons, Option.map_some', Option.some.injEq, List.chain'_cons,
        List.getLast?_cons_cons]
      constructor
      · rintro ⟨h1, h2, h3, h4⟩
        exact ⟨h1, ⟨h2.symm, h3⟩, h4⟩
      · rintro ⟨h1, ⟨h2, h3⟩, h4⟩
        exact ⟨h1, h2.symm, h3, h4⟩

/-- Claim C7: `findSegments` returns an empty segment list for empty text; for
every non-empty text of length `n`, with delimiters among those registered by
`processTokens` (and any line tokens, word tokens and character
classification), it returns a segment list that tiles `[0, n + 1)`: the first
segment starts at `0`, each segment ends where the next starts, and the last
segment ends at `n + 1`. -/
theorem C7_findSegments_tiles (self : LLKeywords) (ct : CType) (wtext : LLWString)
    (hdel : ∀ d ∈ self.mDelimiterTokenList, d ∈ standardDelimiters) :
    (wtext = [] → self.findSegments ct wtext = some [])
    ∧ (wtext ≠ [] → ∃ segs, self.findSegments ct wtext = some segs
        ∧ segs.head?.map LLTextSegment.mStart = some 0
        ∧ List.Chain' (fun s t : LLTextSegment => s.mEnd = t.mStart) segs
        ∧ segs.getLast?.map LLTextSegment.mEnd = some (wtext.length + 1)) := by
  constructor
  · intro h
    subst h
    rfl
  · intro h
    have he : wtext.isEmpty = false := by
      cases wtext with
      | nil => exact absurd rfl h
      | cons x xs => rfl
    obtain ⟨r, e, n1, t1⟩ := findSegmentsLoop_spec self
      (fun d hd => standardDelimiters_ok d (hdel d hd)) ct wtext (wtext.length + 1) rfl
      (wtext.length + 4) 0 [LLNormalTextSegment 0 (wtext.length + 1)] (Nat.zero_le _)
      (by omega) (by simp) (by simp [Tiles, LLNormalTextSegment])
    refine ⟨r, ?_, (tiles_iff_chain 0 _ r n1).mp t1⟩
    simp only [LLKeywords.findSegments, he, Bool.false_eq_true, if_false]
    exact e

/-- Witness for claim C7: the text `if "a` with the tokens of `processTokens`. -/
theorem C7_findSegments_tiles_witness :
    ([105, 102, 32, 34, 97] : LLWString) ≠ []
    ∧ ∃ segs, LLKeywords.empty.processTokensStandard.findSegments asciiCType
          [105, 102, 32, 34, 97] = some segs
        ∧ segs.head?.map LLTextSegment.mStart = some 0
        ∧ List.Chain' (fun s t : LLTextSegment => s.mEnd = t.mStart) segs
        ∧ segs.getLast?.map LLTextSegment.mEnd
            = some (([105, 102, 32, 34, 97] : LLWString).length + 1) :=
  ⟨by decide,
    (C7_findSegments_tiles LLKeywords.empty.processTokensStandard asciiCType
      [105, 102, 32, 34, 97] (fun _ hd => hd)).2 (by decide)⟩

/-! ## The escape sequences of a string literal -/

theorem dq_isTail_iff (wtext : LLWString) (c : Nat) :
    dqToken.isTail wtext c = true ↔ charAt wtext c = 34 := by
  simp [LLKeywordToken.isTail, dqToken, matchesAt]

theorem backslashRun_succ_of_ne (wtext : LLWString) (p : Nat) (h : charAt wtext p ≠ 92) :
    backslashRun wtext (p + 1) = 0 := by
  simp [backslashRun, h]

theorem backslashRun_add (wtext : LLWString) (cur k : Nat)
    (h : ∀ j, cur ≤ j → j < cur + k → charAt wtext j = 92) :
    backslashRun wtext (cur + k) = backslashRun wtext cur + k := by
  induction k with
  | zero => rfl
  | succ k ih =>
    have h1 := ih (fun j h1 h2 => h j h1 (by omega))
    have h2 := h (cur + k) (by omega) (by omega)
    show backslashRun wtext (cur + k + 1) = _
    simp only [backslashRun, h2, if_true, h1]
    omega

/-- The loop of a string literal, started where no escape is pending: it
stops at the first position that holds the terminating `0` or a quotation
mark after an even run of backslashes; the quotation marks it passes follow
odd runs and are counted in `between_delimiters`. -/
theorem dq_delimitedLoop_spec (wtext : LLWString) (fuel cur between : Nat)
    (hcur : cur ≤ wtext.length) (hfuel : wtext.length + 2 ≤ cur + fuel)
    (hP : backslashRun wtext cur = 0 ∨ (charAt wtext cur ≠ 34 ∧ charAt wtext cur ≠ 92)) :
    ∃ q, delimitedLoop dqToken wtext fuel cur between = some (q, between + (q - cur))
      ∧ cur ≤ q ∧ q ≤ wtext.length
      ∧ (∀ p, cur ≤ p → p < q →
          charAt wtext p ≠ 0 ∧ (charAt wtext p = 34 → backslashRun wtext p % 2 = 1))
      ∧ (charAt wtext q = 0 ∨ (charAt wtext q = 34 ∧ backslashRun wtext q % 2 = 0)) := by
  induction fuel generalizing cur between with
  | zero => omega
  | succ fuel ih =>
    simp only [delimitedLoop]
    by_cases hc : (charAt wtext cur != 0 && !dqToken.isTail wtext cur) = true
    · rw [if_pos hc]
      have hc2 := hc
      simp only [Bool.and_eq_true, bne_iff_ne, ne_eq, Bool.not_eq_true'] at hc2
      have hnq : charAt wtext cur ≠ 34 := by
        intro h
        have := (dq_isTail_iff wtext cur).mpr h
        rw [this] at hc2
        exact Bool.noConfusion hc2.2
      have hlt : cur < wtext.length := lt_length_of_charAt_ne_zero wtext cur hc2.1
      by_cases hq : (decide (dqToken.getType = ETokenType.TT_DOUBLE_QUOTATION_MARKS)
          && decide (charAt wtext cur = 92)) = true
      · rw [if_pos hq]
        simp only [Bool.and_eq_true, decide_eq_true_eq] at hq
        have hrun0 : backslashRun wtext cur = 0 := by
          rcases hP with h | h
          · exact h
          · exact absurd hq.2 h.2
        obtain ⟨c, e, h1, h2, h3, h4⟩ :=
          countBackslashes_spec wtext fuel cur 0 between hcur (by omega)
        have hcc : cur < c := by
          by_contra hn
          have : c = cur := by omega
          rw [this] at h3
          exact h3 hq.2
        have hrun : backslashRun wtext c = c - cur := by
          have := backslashRun_add wtext cur (c - cur) (fun j g1 g2 => h4 j g1 (by omega))
          rw [hrun0] at this
          have e2 : cur + (c - cur) = c := by omega
          rw [e2] at this
          omega
        have hpass : ∀ p, cur ≤ p → p < c →
            charAt wtext p ≠ 0 ∧ (charAt wtext p = 34 → backslashRun wtext p % 2 = 1) := by
          intro p g1 g2
          have := h4 p g1 g2
          rw [this]
          exact ⟨by norm_num, fun h => by norm_num at h⟩
        simp only [e]
        by_cases ht : dqToken.isTail wtext c = true
        · rw [if_pos ht]
          have hcq := (dq_isTail_iff wtext c).mp ht
          have hcl : c < wtext.length := by
            apply lt_length_of_charAt_ne_zero
            rw [hcq]
            norm_num
          by_cases hodd : (0 + (c - cur)) % 2 = 1
          · rw [if_pos hodd]
            obtain ⟨q, e2, g1, g2, g3, g4⟩ := ih (c + 1) (between + (c - cur) + 1) (by omega)
              (by omega) (Or.inl (backslashRun_succ_of_ne wtext c (by rw [hcq]; norm_num)))
            refine ⟨q, ?_, by omega, g2, ?_, g4⟩
            · rw [e2]
              congr 2
              omega
            · intro p k1 k2
              by_cases hpc : p < c
              · exact hpass p k1 hpc
              · by_cases hpe : p = c
                · rw [hpe, hcq, hrun]
                  refine ⟨by norm_num, fun _ => ?_⟩
                  omega
                · exact g3 p (by omega) k2
          · rw [if_neg hodd]
            refine ⟨c, rfl, by omega, h2, hpass, Or.inr ⟨hcq, ?_⟩⟩
            rw [hrun]
            omega
        · rw [if_neg ht]
          have hcnq : charAt wtext c ≠ 34 := fun h => ht ((dq_isTail_iff wtext c).mpr h)
          obtain ⟨q, e2, g1, g2, g3, g4⟩ := ih c (between + (c - cur)) h2 (by omega)
            (Or.inr ⟨hcnq, h3⟩)
          refine ⟨q, ?_, by omega, g2, ?_, g4⟩
          · rw [e2]
            congr 2
            omega
          · intro p k1 k2
            by_cases hpc : p < c
            · exact hpass p k1 hpc
            · exact g3 p (by omega) k2
      · rw [if_neg hq]
        have hnb : charAt wtext cur ≠ 92 := by
          intro h
          apply hq
          simp only [Bool.and_eq_true, decide_eq_true_eq]
          exact ⟨rfl, h⟩
        obtain ⟨q, e2, g1, g2, g3, g4⟩ := ih (cur + 1) (between + 1) (by omega) (by omega)
          (Or.inl (backslashRun_succ_of_ne wtext cur hnb))
        refine ⟨q, ?_, by omega, g2, ?_, g4⟩
        · rw [e2]
          congr 2
          omega
        · intro p k1 k2
          by_cases hpe : p = cur
          · rw [hpe]
            exact ⟨hc2.1, fun h => absurd h hnq⟩
          · exact g3 p (by omega) k2
    · rw [if_neg hc]
      refine ⟨cur, by simp, le_refl _, hcur, fun p k1 k2 => by omega, ?_⟩
      simp only [Bool.and_eq_true, bne_iff_ne, ne_eq, Bool.not_eq_true', not_and,
        Bool.not_eq_false] at hc
      by_cases hz : charAt wtext cur = 0
      · exact Or.inl hz
      · have hq := (dq_isTail_iff wtext cur).mp (hc hz)
        refine Or.inr ⟨hq, ?_⟩
        rcases hP with h | h
        · rw [h]
        · exact absurd hq h.1

/-- Claim C8: inside a double-quoted string literal of `findSegments`, whose
body starts at `start` right after the opening quotation mark, the scan stops
at the first position `q` that holds the end of the text or a quotation mark
following a maximal run of backslashes of even length (zero included); every
quotation mark before `q` follows a run of odd length, does not end the
literal and is counted in `between_delimiters` like any other character, and
the scan goes on after it. The segment of the literal then runs from the
opening quotation mark to just after the one at `q` (to `q` at the end of the
text). -/
theorem C8_string_literal_escapes (wtext : LLWString) (start fuel : Nat)
    (seg_list : List LLTextSegment) (text_len : Nat)
    (hstart : 0 < start) (hopen : charAt wtext (start - 1) = 34)
    (hfuel : wtext.length + 2 ≤ start + fuel) :
    ∃ q, delimitedLoop dqToken wtext fuel start 0 = some (q, q - start)
      ∧ start ≤ q ∧ q ≤ wtext.length
      ∧ (∀ p, start ≤ p → p < q →
          charAt wtext p ≠ 0 ∧ (charAt wtext p = 34 → backslashRun wtext p % 2 = 1))
      ∧ (charAt wtext q = 0 ∨ (charAt wtext q = 34 ∧ backslashRun wtext q % 2 = 0))
      ∧ delimiterSegment wtext text_len dqToken fuel (start - 1) seg_list
          = (insertSegments wtext seg_list dqToken text_len (start - 1)
              (if charAt wtext q = 0 then q else q + 1)).map
            (fun r => (if charAt wtext q = 0 then q else q + 1, r)) := by
  have hlt : start - 1 < wtext.length := by
    apply lt_length_of_charAt_ne_zero
    rw [hopen]
    norm_num
  have hrun : backslashRun wtext start = 0 := by
    have e : start = (start - 1) + 1 := by omega
    rw [e]
    exact backslashRun_succ_of_ne wtext (start - 1) (by rw [hopen]; norm_num)
  obtain ⟨q, e, h1, h2, h3, h4⟩ := dq_delimitedLoop_spec wtext fuel start 0 (by omega) hfuel
    (Or.inl hrun)
  rw [Nat.zero_add] at e
  refine ⟨q, e, h1, h2, h3, h4, ?_⟩
  have e1 : start - 1 + dqToken.getLengthHead = start := by
    simp only [LLKeywordToken.getLengthHead, dqToken, List.length_singleton]
    omega
  simp only [delimiterSegment, e1, e]
  simp only [LLKeywordToken.getType, dqToken, LLKeywordToken.getLengthHead,
    LLKeywordToken.getLengthTail, List.length_singleton, decide_True, Bool.or_true, if_true]
  by_cases hz : charAt wtext q = 0
  · simp only [hz, bne_self_eq_false, Bool.false_eq_true, if_false, if_true]
    have e2 : start - 1 + (q - start) + 1 = q := by omega
    rw [e2]
    cases insertSegments wtext seg_list
      { mType := ETokenType.TT_DOUBLE_QUOTATION_MARKS, mToken := [34], mDelimiter := [34] }
      text_len (start - 1) q <;> rfl
  · have hb : (charAt wtext q != 0) = true := by simpa using hz
    simp only [hb, hz, if_true, if_false]
    have e2 : start - 1 + (q - start) + 1 + 1 = q + 1 := by omega
    rw [e2]
    cases insertSegments wtext seg_list
      { mType := ETokenType.TT_DOUBLE_QUOTATION_MARKS, mToken := [34], mDelimiter := [34] }
      text_len (start - 1) (q + 1) <;> rfl

/-- Witness for claim C8: the literal `"a\"b"`, whose body starts at 1. -/
theorem C8_string_literal_escapes_witness :
    ∃ q, delimitedLoop dqToken [34, 97, 92, 34, 98, 34] 8 1 0 = some (q, q - 1)
      ∧ 1 ≤ q ∧ q ≤ ([34, 97, 92, 34, 98, 34] : LLWString).length
      ∧ (∀ p, 1 ≤ p → p < q →
          charAt [34, 97, 92, 34, 98, 34] p ≠ 0
          ∧ (charAt [34, 97, 92, 34, 98, 34] p = 34 →
              backslashRun [34, 97, 92, 34, 98, 34] p % 2 = 1))
      ∧ (charAt [34, 97, 92, 34, 98, 34] q = 0
          ∨ (charAt [34, 97, 92, 34, 98, 34] q = 34
              ∧ backslashRun [34, 97, 92, 34, 98, 34] q % 2 = 0))
      ∧ delimiterSegment [34, 97, 92, 34, 98, 34] 7 dqToken 8 (1 - 1)
            [LLNormalTextSegment 0 7]
          = (insertSegments [34, 97, 92, 34, 98, 34] [LLNormalTextSegment 0 7] dqToken 7 (1 - 1)
              (if charAt [34, 97, 92, 34, 98, 34] q = 0 then q else q + 1)).map
            (fun r => (if charAt [34, 97, 92, 34, 98, 34] q = 0 then q else q + 1, r)) :=
  C8_string_literal_escapes [34, 97, 92, 34, 98, 34] 1 8 [LLNormalTextSegment 0 7] 7
    (by decide) (by decide) (by decide)

/-- The scan of the literal `"a\"b"` from its body at 1: the escaped quotation
mark at 3 is passed and counted, the scan stops at the one at 5. -/
theorem delimitedLoop_example :
    delimitedLoop dqToken [34, 97, 92, 34, 98, 34] 8 1 0 = some (5, 4) := by
  decide

/-! ## The word tokens of `findSegments` -/

/-- The member `insertSegment`, on a list that ends with a segment without
token and for a new segment that ends before `text_len`: the segments with a
token are kept and the new segment is added. -/
theorem insertSegment_frame (segs : List LLTextSegment) (new_segment : LLTextSegment)
    (text_len : Nat) (hl : LastUntokened segs) (hend : new_segment.mEnd < text_len) :
    ∃ r, insertSegment segs new_segment text_len = some r ∧ LastUntokened r
      ∧ ∀ x : LLTextSegment, x.mToken ≠ none → (x ∈ r ↔ x ∈ segs ∨ x = new_segment) := by
  obtain ⟨init, f, rfl, hf⟩ := hl
  rw [insertSegment_concat, if_pos hend]
  refine ⟨_, rfl, ⟨_, _, rfl, rfl⟩, ?_⟩
  intro x hx
  have hxf : x ≠ f := fun h => hx (by rw [h]; exact hf)
  have hxf2 : x ≠ f.setEnd new_segment.mStart := fun h => hx (by rw [h]; exact hf)
  have hxn : x ≠ LLNormalTextSegment new_segment.mEnd text_len := fun h => hx (by rw [h]; rfl)
  by_cases hs : new_segment.mStart = f.mStart
  · rw [if_pos hs]
    simp only [List.mem_append, List.mem_singleton, hxf, hxn, or_false]
  · rw [if_neg hs]
    simp only [List.mem_append, List.mem_singleton, hxf, hxf2, hxn, or_false]

theorem findFrom_charAt (wtext : LLWString) (c : Nat) (l : List Nat) (i p : Nat)
    (hl : ∀ k, l.getD k 0 = wtext.getD (i + k) 0) (h : findFrom c l i = some p) :
    charAt wtext p = c := by
  induction l generalizing i with
  | nil => simp [findFrom] at h
  | cons x xs ih =>
    simp only [findFrom] at h
    by_cases hx : x = c
    · rw [if_pos hx] at h
      have hp : i = p := by simpa using h
      have := hl 0
      simp only [List.getD_cons_zero, Nat.add_zero] at this
      rw [← hp]
      unfold charAt
      rw [← this, hx]
    · rw [if_neg hx] at h
      apply ih (i + 1) _ h
      intro k
      have := hl (k + 1)
      simp only [List.getD_cons_succ] at this
      rw [this]
      congr 1
      omega

theorem wtext_find_charAt (wtext : LLWString) (c pos p : Nat)
    (h : wtext_find wtext c pos = some p) : charAt wtext p = c := by
  apply findFrom_charAt wtext c (wtext.drop pos) pos p _ h
  intro k
  simp [List.getD_eq_getElem?_getD, List.getElem?_drop]

/-- The loop of `insertSegments`: it keeps the segments that carry a token,
adds only segments with the token `tok`, and these contain every position from
the first `seg_start` up to the last one. -/
theorem insertSegmentsLoop_frame (wtext : LLWString) (tok : LLKeywordToken)
    (text_len seg_end : Nat) (hle : seg_end < text_len) (fuel : Nat)
    (segs : List LLTextSegment) (seg_start : Nat) (pos : Option Nat)
    (hpos : ∀ p, pos = some p → seg_start ≤ p) (hl : LastUntokened segs)
    (r : List LLTextSegment) (s : Nat)
    (h : insertSegmentsLoop wtext tok text_len seg_end fuel segs seg_start pos = some (r, s)) :
    LastUntokened r ∧ seg_start ≤ s ∧ (s = seg_start ∨ s ≤ seg_end)
      ∧ (∀ x : LLTextSegment, x.mToken ≠ none → x ∈ segs → x ∈ r)
      ∧ (∀ x : LLTextSegment, x.mToken ≠ none → x ∈ r → x ∈ segs ∨ x.mToken = some tok)
      ∧ (∀ j, seg_start ≤ j → j < s →
          ∃ x ∈ r, x.mToken = some tok ∧ x.mStart ≤ j ∧ j < x.mEnd) := by
  induction fuel generalizing segs seg_start pos with
  | zero => simp [insertSegmentsLoop] at h
  | succ fuel ih =>
    cases pos with
    | none =>
      simp only [insertSegmentsLoop, Option.some.injEq, Prod.mk.injEq] at h
      obtain ⟨h1, h2⟩ := h
      subst h1; subst h2
      exact ⟨hl, le_refl _, Or.inl rfl, fun _ _ hx => hx, fun _ _ hx => Or.inl hx,
        fun j h1 h2 => by omega⟩
    | some p =>
      have hp := hpos p rfl
      simp only [insertSegmentsLoop] at h
      by_cases hlt : p < seg_end
      · rw [if_pos hlt] at h
        -- the optional segment before the line break
        have h1 : ∃ r1, (if p ≠ seg_start then
            insertSegment segs ((LLNormalTextSegment seg_start p).setToken (some tok)) text_len
            else some segs) = some r1 ∧ LastUntokened r1
            ∧ (∀ x : LLTextSegment, x.mToken ≠ none → x ∈ segs → x ∈ r1)
            ∧ (∀ x : LLTextSegment, x.mToken ≠ none → x ∈ r1 → x ∈ segs ∨ x.mToken = some tok)
            ∧ (∀ j, seg_start ≤ j → j < p →
                ∃ x ∈ r1, x.mToken = some tok ∧ x.mStart ≤ j ∧ j < x.mEnd) := by
          by_cases hps : p ≠ seg_start
          · rw [if_pos hps]
            obtain ⟨r1, e1, l1, f1⟩ := insertSegment_frame segs
              ((LLNormalTextSegment seg_start p).setToken (some tok)) text_len hl
              (by simp only [LLTextSegment.setToken, LLNormalTextSegment]; omega)
            refine ⟨r1, e1, l1, fun x hx hm => (f1 x hx).mpr (Or.inl hm), ?_, ?_⟩
            · intro x hx hm
              rcases (f1 x hx).mp hm with h | h
              · exact Or.inl h
              · right; rw [h]; rfl
            · intro j g1 g2
              refine ⟨_, (f1 _ (by simp [LLTextSegment.setToken])).mpr (Or.inr rfl), rfl, ?_, ?_⟩
              · exact g1
              · exact g2
          · rw [if_neg hps]
            refine ⟨segs, rfl, hl, fun _ _ hx => hx, fun _ _ hx => Or.inl hx, ?_⟩
            intro j g1 g2
            have : p = seg_start := by
              by_contra hc
              exact hps hc
            omega
        obtain ⟨r1, e1, l1, k1, k2, k3⟩ := h1
        rw [e1] at h
        obtain ⟨r2, e2, l2, f2⟩ := insertSegment_frame r1
          ((LLLineBreakTextSegment p).setToken (some tok)) text_len l1
          (by simp only [LLTextSegment.setToken, LLLineBreakTextSegment]; omega)
        simp only [e2] at h
        obtain ⟨m1, m2, m3, m4, m5, m6⟩ := ih r2 (p + 1) _
          (fun q hq => wtext_find_ge _ _ _ _ hq) l2 h
        refine ⟨m1, by omega, Or.inr (by omega), ?_, ?_, ?_⟩
        · intro x hx hm
          exact m4 x hx ((f2 x hx).mpr (Or.inl (k1 x hx hm)))
        · intro x hx hm
          rcases m5 x hx hm with g | g
          · rcases (f2 x hx).mp g with g2 | g2
            · exact k2 x hx g2
            · right; rw [g2]; rfl
          · exact Or.inr g
        · intro j g1 g2
          by_cases hj : j < p
          · obtain ⟨x, hx1, hx2, hx3, hx4⟩ := k3 j g1 hj
            have hxt : x.mToken ≠ none := by rw [hx2]; exact Option.some_ne_none _
            exact ⟨x, m4 x hxt ((f2 x hxt).mpr (Or.inl hx1)), hx2, hx3, hx4⟩
          · by_cases hj2 : j = p
            · have hbt : ((LLLineBreakTextSegment p).setToken (some tok)).mToken ≠ none := by
                simp [LLTextSegment.setToken]
              refine ⟨_, m4 _ hbt ((f2 _ hbt).mpr (Or.inr rfl)), rfl, ?_, ?_⟩
              · simp only [LLTextSegment.setToken, LLLineBreakTextSegment]; omega
              · simp only [LLTextSegment.setToken, LLLineBreakTextSegment]; omega
            · exact m6 j (by omega) g2
      · rw [if_neg hlt] at h
        simp only [Option.some.injEq, Prod.mk.injEq] at h
        obtain ⟨h1, h2⟩ := h
        subst h1; subst h2
        exact ⟨hl, le_refl _, Or.inl rfl, fun _ _ hx => hx, fun _ _ hx => Or.inl hx,
          fun j h1 h2 => by omega⟩

/-- The member `insertSegments`, on a list that ends with a segment without
token and for a range that ends before `text_len`: the segments with a token
are kept, the new ones carry the token `cur_token`, and these contain every
position of the range. -/
theorem insertSegments_frame (wtext : LLWString) (segs : List LLTextSegment)
    (tok : LLKeywordToken) (text_len seg_start seg_end : Nat) (hle : seg_end < text_len)
    (hl : LastUntokened segs) (r : List LLTextSegment)
    (h : insertSegments wtext segs tok text_len seg_start seg_end = some r) :
    LastUntokened r
      ∧ (∀ x : LLTextSegment, x.mToken ≠ none → x ∈ segs → x ∈ r)
      ∧ (∀ x : LLTextSegment, x.mToken ≠ none → x ∈ r → x ∈ segs ∨ x.mToken = some tok)
      ∧ (∀ j, seg_start ≤ j → j < seg_end →
          ∃ x ∈ r, x.mToken = some tok ∧ x.mStart ≤ j ∧ j < x.mEnd) := by
  simp only [insertSegments] at h
  cases hloop : insertSegmentsLoop wtext tok text_len seg_end (seg_end + 1) segs seg_start
      (wtext_find wtext 10 seg_start) with
  | none => rw [hloop] at h; exact Option.noConfusion h
  | some res =>
    obtain ⟨r1, s⟩ := res
    rw [hloop] at h
    simp only [] at h
    obtain ⟨m1, m2, m3, m4, m5, m6⟩ := insertSegmentsLoop_frame wtext tok text_len seg_end hle
      (seg_end + 1) segs seg_start _ (fun q hq => wtext_find_ge _ _ _ _ hq) hl r1 s hloop
    obtain ⟨r2, e2, l2, f2⟩ := insertSegment_frame r1
      ((LLNormalTextSegment s seg_end).setToken (some tok)) text_len m1
      (by simp only [LLTextSegment.setToken, LLNormalTextSegment]; omega)
    rw [e2] at h
    have hr : r2 = r := by simpa using h
    subst hr
    refine ⟨l2, ?_, ?_, ?_⟩
    · intro x hx hm
      exact (f2 x hx).mpr (Or.inl (m4 x hx hm))
    · intro x hx hm
      rcases (f2 x hx).mp hm with g | g
      · exact m5 x hx g
      · right; rw [g]; rfl
    · intro j g1 g2
      by_cases hj : j < s
      · obtain ⟨x, hx1, hx2, hx3, hx4⟩ := m6 j g1 hj
        have hxt : x.mToken ≠ none := by rw [hx2]; exact Option.some_ne_none _
        exact ⟨x, (f2 x hxt).mpr (Or.inl hx1), hx2, hx3, hx4⟩
      · have hbt : ((LLNormalTextSegment s seg_end).setToken (some tok)).mToken ≠ none := by
          simp [LLTextSegment.setToken]
        refine ⟨_, (f2 _ hbt).mpr (Or.inr rfl), rfl, ?_, ?_⟩
        · simp only [LLTextSegment.setToken, LLNormalTextSegment]; omega
        · simp only [LLTextSegment.setToken, LLNormalTextSegment]; omega

/-- The member `insertSegments` for a range without line feed: it inserts the
one segment of the range. -/
theorem insertSegments_single (wtext : LLWString) (segs : List LLTextSegment)
    (tok : LLKeywordToken) (text_len seg_start seg_end : Nat)
    (hnl : ∀ j, seg_start ≤ j → j < seg_end → charAt wtext j ≠ 10) :
    insertSegments wtext segs tok text_len seg_start seg_end
      = insertSegment segs ((LLNormalTextSegment seg_start seg_end).setToken (some tok))
          text_len := by
  simp only [insertSegments]
  cases hf : wtext_find wtext 10 seg_start with
  | none => simp only [insertSegmentsLoop]
  | some p =>
    have h1 := wtext_find_ge _ _ _ _ hf
    have h2 := wtext_find_charAt _ _ _ _ hf
    have h3 : ¬ p < seg_end := fun hlt => hnl p h1 hlt h2
    simp only [insertSegmentsLoop, h3, if_false]

theorem wordAt_unique (self : LLKeywords) (ct : CType) (wtext : LLWString) (s e1 e2 : Nat)
    (t1 t2 : LLKeywordToken) (h1 : WordAt self ct wtext s e1 t1)
    (h2 : WordAt self ct wtext s e2 t2) : e1 = e2 ∧ t1 = t2 := by
  obtain ⟨a1, a2, a3, a4, _, a6⟩ := h1
  obtain ⟨b1, b2, b3, b4, _, b6⟩ := h2
  have he : e1 = e2 := by
    rcases Nat.lt_trichotomy e1 e2 with h | h | h
    · rcases a4 with g | g
      · omega
      · have := b3 e1 (by omega) h
        rw [this] at g
        exact Bool.noConfusion g
    · exact h
    · rcases b4 with g | g
      · omega
      · have := a3 e2 (by omega) h
        rw [this] at g
        exact Bool.noConfusion g
  subst he
  rw [a6] at b6
  exact ⟨rfl, by simpa using b6⟩

theorem covered_mono (segs r : List LLTextSegment) (s : Nat)
    (hkeep : ∀ x : LLTextSegment, x.mToken ≠ none → x ∈ segs → x ∈ r) (h : Covered segs s) :
    Covered r s := by
  obtain ⟨x, hx, d, h1, h2, h3, h4⟩ := h
  exact ⟨x, hkeep x (by rw [h1]; exact Option.some_ne_none _) hx, d, h1, h2, h3, h4⟩

/-- The scan may pass positions at which no word starts. -/
theorem wordInv_advance (self : LLKeywords) (ct : CType) (wtext : LLWString) (cur c : Nat)
    (segs : List LLTextSegment) (h : WordInv self ct wtext cur segs)
    (hskip : ∀ j, cur ≤ j → j < c → ∀ e t, ¬ WordAt self ct wtext j e t) :
    WordInv self ct wtext c segs := by
  obtain ⟨h1, h2, h3⟩ := h
  refine ⟨h1, h2, ?_⟩
  intro s e t hs hw
  by_cases hsc : s < cur
  · exact h3 s e t hsc hw
  · exact absurd hw (hskip s (by omega) hs e t)

/-- A segment without token, such as a line break at the end of a line, does
not touch the invariant. -/
theorem wordInv_insert_plain (self : LLKeywords) (ct : CType) (wtext : LLWString)
    (cur text_len : Nat) (segs r : List LLTextSegment) (new_segment : LLTextSegment)
    (h : WordInv self ct wtext cur segs) (htok : new_segment.mToken = none)
    (hend : new_segment.mEnd < text_len)
    (hr : insertSegment segs new_segment text_len = some r) :
    WordInv self ct wtext cur r := by
  obtain ⟨h1, h2, h3⟩ := h
  obtain ⟨r2, e2, l2, f2⟩ := insertSegment_frame segs new_segment text_len h1 hend
  rw [e2] at hr
  have : r2 = r := by simpa using hr
  subst this
  have hkeep : ∀ x : LLTextSegment, x.mToken ≠ none → x ∈ segs → x ∈ r2 :=
    fun x hx hm => (f2 x hx).mpr (Or.inl hm)
  refine ⟨l2, ?_, ?_⟩
  · intro x hx t ht hty
    have hxt : x.mToken ≠ none := by rw [ht]; exact Option.some_ne_none _
    rcases (f2 x hxt).mp hx with g | g
    · exact h2 x g t ht hty
    · rw [g, htok] at ht
      exact Option.noConfusion ht
  · intro s e t hs hw
    rcases h3 s e t hs hw with g | g
    · exact Or.inl (hkeep _ (by simp) g)
    · exact Or.inr (covered_mono segs r2 s hkeep g)

/-- The segments of a comment, a string literal or a line token: the scan may
pass every position of their range. -/
theorem wordInv_region (self : LLKeywords) (ct : CType) (wtext : LLWString)
    (cur c text_len seg_end : Nat) (segs r : List LLTextSegment) (tok : LLKeywordToken)
    (h : WordInv self ct wtext cur segs) (htok : isWordType tok.mType = false)
    (hend : seg_end < text_len) (hc : c ≤ seg_end)
    (hr : insertSegments wtext segs tok text_len cur seg_end = some r) :
    WordInv self ct wtext c r := by
  obtain ⟨h1, h2, h3⟩ := h
  obtain ⟨l2, k1, k2, k3⟩ := insertSegments_frame wtext segs tok text_len cur seg_end hend h1 r hr
  refine ⟨l2, ?_, ?_⟩
  · intro x hx t ht hty
    have hxt : x.mToken ≠ none := by rw [ht]; exact Option.some_ne_none _
    rcases k2 x hxt hx with g | g
    · exact h2 x g t ht hty
    · rw [g] at ht
      have : tok = t := by simpa using ht
      rw [this, hty] at htok
      exact Bool.noConfusion htok
  · intro s e t hs hw
    by_cases hsc : s < cur
    · rcases h3 s e t hsc hw with g | g
      · exact Or.inl (k1 _ (by simp) g)
      · exact Or.inr (covered_mono segs r s k1 g)
    · obtain ⟨x, hx1, hx2, hx3, hx4⟩ := k3 s (by omega) (by omega)
      exact Or.inr ⟨x, hx1, tok, hx2, htok, hx3, hx4⟩

theorem isWordChar_linefeed (ct : CType) (hct : CTypeOK ct) : isWordChar ct 10 = false := by
  simp [isWordChar, hct.2.1]

theorem isWordChar_zero (ct : CType) (hct : CTypeOK ct) : isWordChar ct 0 = false := by
  simp [isWordChar, hct.1]

/-- The segment of a word: the scan may pass the word. -/
theorem wordInv_word (self : LLKeywords) (ct : CType) (hct : CTypeOK ct) (wtext : LLWString)
    (cur p text_len : Nat) (segs r : List LLTextSegment) (t : LLKeywordToken)
    (h : WordInv self ct wtext cur segs) (hw : WordAt self ct wtext cur p t)
    (hty : isWordType t.mType = true) (hend : p < text_len)
    (hr : insertSegments wtext segs t text_len cur p = some r) :
    WordInv self ct wtext p r := by
  obtain ⟨h1, h2, h3⟩ := h
  have hnl : ∀ j, cur ≤ j → j < p → charAt wtext j ≠ 10 := by
    intro j g1 g2 hc
    have := hw.2.2.1 j g1 g2
    rw [hc, isWordChar_linefeed ct hct] at this
    exact Bool.noConfusion this
  rw [insertSegments_single wtext segs t text_len cur p hnl] at hr
  obtain ⟨r2, e2, l2, f2⟩ := insertSegment_frame segs
    ((LLNormalTextSegment cur p).setToken (some t)) text_len h1
    (by simp only [LLTextSegment.setToken, LLNormalTextSegment]; exact hend)
  rw [e2] at hr
  have : r2 = r := by simpa using hr
  subst this
  have hkeep : ∀ x : LLTextSegment, x.mToken ≠ none → x ∈ segs → x ∈ r2 :=
    fun x hx hm => (f2 x hx).mpr (Or.inl hm)
  refine ⟨l2, ?_, ?_⟩
  · intro x hx t2 ht hty2
    have hxt : x.mToken ≠ none := by rw [ht]; exact Option.some_ne_none _
    rcases (f2 x hxt).mp hx with g | g
    · exact h2 x g t2 ht hty2
    · subst g
      simp only [LLTextSegment.setToken, LLNormalTextSegment, Option.some.injEq] at ht
      subst ht
      exact ⟨rfl, hw⟩
  · intro s e t2 hs hw2
    by_cases hsc : s < cur
    · rcases h3 s e t2 hsc hw2 with g | g
      · exact Or.inl (hkeep _ (by simp) g)
      · exact Or.inr (covered_mono segs r2 s hkeep g)
    · by_cases hse : s = cur
      · subst hse
        obtain ⟨he, htt⟩ := wordAt_unique self ct wtext s e p t2 t hw2 hw
        subst he; subst htt
        left
        exact (f2 _ (by simp)).mpr (Or.inr rfl)
      · exfalso
        have hprev := hw2.2.2.2.2.1
        rcases hprev with g | g
        · omega
        · have := hw.2.2.1 (s - 1) (by omega) (by omega)
          rw [this] at g
          exact Bool.noConfusion g

/-- The block "Check against delimiters" calls `insertSegments` once, for a
range that starts at `cur` and ends within the text, at or after the position
that `cur` is moved to. -/
theorem delimiterSegment_eq (wtext : LLWString) (text_len : Nat) (tok : LLKeywordToken)
    (hok : DelimOK tok) (fuel cur : Nat) (seg_list : List LLTextSegment)
    (hhead : tok.isHead wtext cur = true) (hcur : cur ≤ wtext.length)
    (hfuel : wtext.length + 2 ≤ cur + fuel) :
    ∃ c seg_end, cur < c ∧ c ≤ seg_end ∧ seg_end ≤ wtext.length
      ∧ delimiterSegment wtext text_len tok fuel cur seg_list
        = (insertSegments wtext seg_list tok text_len cur seg_end).map (fun r => (c, r)) := by
  obtain ⟨hnil, hhd, htl, hlen⟩ := hok
  have hb := matchesAt_bound tok.mToken hhd wtext cur hcur hhead
  have hpos : 0 < tok.mToken.length := List.length_pos.mpr hnil
  simp only [delimiterSegment, LLKeywordToken.getLengthHead, LLKeywordToken.getLengthTail,
    LLKeywordToken.getType]
  by_cases hty : (decide (tok.mType = ETokenType.TT_TWO_SIDED_DELIMITER)
      || decide (tok.mType = ETokenType.TT_DOUBLE_QUOTATION_MARKS)) = true
  · rw [if_pos hty]
    simp only [Bool.or_eq_true, decide_eq_true_eq] at hty
    have hlen2 := hlen hty
    obtain ⟨q, e, h1, h2, h3⟩ := delimitedLoop_spec tok wtext htl fuel
      (cur + tok.mToken.length) 0 hb (by omega)
    simp only [e]
    by_cases hz : (charAt wtext q != 0) = true
    · rw [if_pos hz]
      simp only [bne_iff_ne, ne_eq] at hz
      have hb2 := matchesAt_bound tok.mDelimiter htl wtext q h2 (h3 hz)
      refine ⟨q + tok.mToken.length, cur + (0 + (q - (cur + tok.mToken.length)))
        + tok.mToken.length + tok.mDelimiter.length, by omega, by omega, by omega, ?_⟩
      try simp only []
      cases insertSegments wtext seg_list tok text_len cur
        (cur + (0 + (q - (cur + tok.mToken.length))) + tok.mToken.length
          + tok.mDelimiter.length) <;> rfl
    · rw [if_neg hz]
      refine ⟨q, cur + (0 + (q - (cur + tok.mToken.length))) + tok.mToken.length, by omega,
        by omega, by omega, ?_⟩
      try simp only []
      cases insertSegments wtext seg_list tok text_len cur
        (cur + (0 + (q - (cur + tok.mToken.length))) + tok.mToken.length) <;> rfl
  · rw [if_neg hty]
    obtain ⟨q, e, h1, h2⟩ := oneSidedLoop_spec wtext fuel (cur + tok.mToken.length) 0 hb
      (by omega)
    simp only [e]
    refine ⟨q, cur + (0 + (q - (cur + tok.mToken.length))) + tok.mToken.length, by omega,
      by omega, by omega, ?_⟩
    try simp only []
    cases insertSegments wtext seg_list tok text_len cur
      (cur + (0 + (q - (cur + tok.mToken.length))) + tok.mToken.length) <;> rfl

theorem delimiterSegment_words (self : LLKeywords) (ct : CType) (wtext : LLWString)
    (text_len : Nat) (hL : text_len = wtext.length + 1) (tok : LLKeywordToken)
    (hok : DelimOK tok) (htok : isWordType tok.mType = false) (fuel cur : Nat)
    (seg_list : List LLTextSegment) (hhead : tok.isHead wtext cur = true)
    (hcur : cur ≤ wtext.length) (hfuel : wtext.length + 2 ≤ cur + fuel)
    (hinv : WordInv self ct wtext cur seg_list) (c : Nat) (r : List LLTextSegment)
    (h : delimiterSegment wtext text_len tok fuel cur seg_list = some (c, r)) :
    WordInv self ct wtext c r := by
  obtain ⟨c0, seg_end, h1, h2, h3, e⟩ := delimiterSegment_eq wtext text_len tok hok fuel cur
    seg_list hhead hcur hfuel
  rw [e] at h
  cases hins : insertSegments wtext seg_list tok text_len cur seg_end with
  | none => rw [hins] at h; exact Option.noConfusion h
  | some r0 =>
    rw [hins] at h
    simp only [Option.map_some', Option.some.injEq, Prod.mk.injEq] at h
    obtain ⟨hc, hr⟩ := h
    subst hc; subst hr
    exact wordInv_region self ct wtext cur c0 text_len seg_end seg_list r0 tok hinv htok
      (by omega) h2 hins

theorem isWordLoopChar_eq (ct : CType) (c : Nat) :
    isWordLoopChar ct c = (c != 0 && isWordChar ct c) := rfl

/-- What the word loop finds at `cur` is the word that starts there. -/
theorem wordAt_of_scan (self : LLKeywords) (ct : CType) (hct : CTypeOK ct)
    (wtext : LLWString) (cur p : Nat) (t : LLKeywordToken)
    (hprev : (!ct.iswalnum (if cur > 0 then charAt wtext (cur - 1) else 0)
        && (if cur > 0 then charAt wtext (cur - 1) else 0) != 95
        && (if cur > 0 then charAt wtext (cur - 1) else 0) != 35) = true)
    (hcp : cur < p) (hpn : p ≤ wtext.length)
    (hstop : isWordLoopChar ct (charAt wtext p) = false)
    (hrun : ∀ j, cur ≤ j → j < p → isWordLoopChar ct (charAt wtext j) = true)
    (hfind : wordTokenMapFind self.mWordTokenMap
      (WStringMapIndex.ofRange ((wtext.drop cur).take (p - cur))) = some t) :
    WordAt self ct wtext cur p t := by
  refine ⟨hcp, hpn, ?_, ?_, ?_, hfind⟩
  · intro i g1 g2
    have := hrun i g1 g2
    rw [isWordLoopChar_eq] at this
    simp only [Bool.and_eq_true] at this
    exact this.2
  · right
    rw [isWordLoopChar_eq] at hstop
    simp only [Bool.and_eq_false_iff, bne_eq_false_iff_eq] at hstop
    rcases hstop with g | g
    · rw [g]
      exact isWordChar_zero ct hct
    · exact g
  · by_cases hc0 : cur = 0
    · exact Or.inl hc0
    · right
      have hpos : cur > 0 := by omega
      simp only [hpos, if_true, Bool.and_eq_true, Bool.not_eq_true', bne_iff_ne, ne_eq] at hprev
      simp only [isWordChar, Bool.or_eq_false_iff, beq_eq_false_iff_ne, ne_eq]
      exact ⟨⟨hprev.1.1, hprev.1.2⟩, hprev.2⟩

theorem not_wordAt_of_prev (self : LLKeywords) (ct : CType) (wtext : LLWString) (j e : Nat)
    (t : LLKeywordToken) (hj : 0 < j) (hp : isWordChar ct (charAt wtext (j - 1)) = true) :
    ¬ WordAt self ct wtext j e t := by
  intro hw
  rcases hw.2.2.2.2.1 with g | g
  · omega
  · rw [hp] at g
    exact Bool.noConfusion g

theorem not_wordAt_of_char (self : LLKeywords) (ct : CType) (wtext : LLWString) (j e : Nat)
    (t : LLKeywordToken) (hp : isWordChar ct (charAt wtext j) = false) :
    ¬ WordAt self ct wtext j e t := by
  intro hw
  have := hw.2.2.1 j (le_refl _) hw.1
  rw [hp] at this
  exact Bool.noConfusion this

/-- The inner loop of `findSegments` keeps the invariant of the word
tokens. -/
theorem lineLoop_words (self : LLKeywords)
    (hdel : ∀ d ∈ self.mDelimiterTokenList, DelimOK d ∧ isWordType d.mType = false)
    (hmap : ∀ e ∈ self.mWordTokenMap, isWordType e.2.mType = true)
    (ct : CType) (hct : CTypeOK ct) (wtext : LLWString)
    (text_len : Nat) (hL : text_len = wtext.length + 1)
    (fuel cur : Nat) (seg_list : List LLTextSegment) (hcur : cur ≤ wtext.length)
    (hfuel : wtext.length + 3 ≤ cur + fuel)
    (hne : seg_list ≠ []) (ht : Tiles 0 seg_list text_len)
    (hinv : WordInv self ct wtext cur seg_list) (c : Nat) (r : List LLTextSegment)
    (h : lineLoop self ct wtext text_len fuel cur seg_list = some (c, r)) :
    WordInv self ct wtext c r := by
  induction fuel generalizing cur seg_list with
  | zero => omega
  | succ fuel ih =>
    simp only [lineLoop] at h
    by_cases hc : (charAt wtext cur != 0 && charAt wtext cur != 10) = true
    · rw [if_pos hc] at h
      have hc2 := hc
      simp only [Bool.and_eq_true, bne_iff_ne, ne_eq] at hc2
      have hlt : cur < wtext.length := lt_length_of_charAt_ne_zero wtext cur hc2.1
      cases hfind : self.mDelimiterTokenList.find? (fun delimiter => delimiter.isHead wtext cur) with
      | some d =>
        rw [hfind] at h
        simp only [] at h
        have hmem := List.mem_of_find?_eq_some hfind
        have hhead := List.find?_some hfind
        obtain ⟨c1, r1, e, b1, b2, n1, t1⟩ := delimiterSegment_spec wtext text_len hL d
          (hdel d hmem).1 fuel cur seg_list hhead hcur (by omega) hne ht
        have hw1 := delimiterSegment_words self ct wtext text_len hL d (hdel d hmem).1
          (hdel d hmem).2 fuel cur seg_list hhead hcur (by omega) hinv c1 r1 e
        rw [e] at h
        simp only [] at h
        exact ih c1 r1 b2 (by omega) n1 t1 hw1 h
      | none =>
        rw [hfind] at h
        simp only [] at h
        have hstep : ∀ (hno : ∀ e t, ¬ WordAt self ct wtext cur e t),
            (if (charAt wtext cur != 0 && charAt wtext cur != 10) = true then
              lineLoop self ct wtext text_len fuel (cur + 1) seg_list
              else lineLoop self ct wtext text_len fuel cur seg_list) = some (c, r) →
            WordInv self ct wtext c r := by
          intro hno h2
          rw [if_pos hc] at h2
          have hw1 : WordInv self ct wtext (cur + 1) seg_list := by
            apply wordInv_advance self ct wtext cur (cur + 1) seg_list hinv
            intro j g1 g2
            have : j = cur := by omega
            rw [this]
            exact hno
          exact ih (cur + 1) seg_list (by omega) (by omega) hne ht hw1 h2
        by_cases hprev : (!ct.iswalnum (if cur > 0 then charAt wtext (cur - 1) else 0)
            && (if cur > 0 then charAt wtext (cur - 1) else 0) != 95
            && (if cur > 0 then charAt wtext (cur - 1) else 0) != 35) = true
        · rw [if_pos hprev] at h
          obtain ⟨p, e, h1, h2, h3, h4⟩ := scanWhile_spec (isWordLoopChar ct)
            (isWordLoopChar_zero ct) wtext fuel cur hcur (by omega)
          rw [e] at h
          simp only [] at h
          by_cases hlen : p - cur > 0
          · rw [if_pos hlen] at h
            have hcp : cur < p := by omega
            have hsum : cur + (p - cur) = p := by omega
            rw [hsum] at h
            cases hw : wordTokenMapFind self.mWordTokenMap
                (WStringMapIndex.ofRange (List.take (p - cur) (List.drop cur wtext))) with
            | some tk =>
              rw [hw] at h
              simp only [] at h
              have hwa := wordAt_of_scan self ct hct wtext cur p tk hprev hcp h2 h3 h4 hw
              have hty : isWordType tk.mType = true := by
                unfold wordTokenMapFind at hw
                cases hfe : List.find? (fun e => !e.1.operator_lt
                    (WStringMapIndex.ofRange (List.take (p - cur) (List.drop cur wtext)))
                  && !(WStringMapIndex.ofRange (List.take (p - cur)
                    (List.drop cur wtext))).operator_lt e.1) self.mWordTokenMap with
                | none => rw [hfe] at hw; exact Option.noConfusion hw
                | some en =>
                  rw [hfe] at hw
                  simp only [Option.map_some', Option.some.injEq] at hw
                  rw [← hw]
                  exact hmap en (List.mem_of_find?_eq_some hfe)
              obtain ⟨r1, er, n1, t1⟩ := insertSegments_tiles wtext seg_list tk text_len cur p
                (by omega) hne ht
              have hw1 := wordInv_word self ct hct wtext cur p text_len seg_list r1 tk hinv hwa
                hty (by omega) er
              rw [er] at h
              simp only [] at h
              exact ih p r1 h2 (by omega) n1 t1 hw1 h
            | none =>
              rw [hw] at h
              simp only [] at h
              have hw1 : WordInv self ct wtext p seg_list := by
                apply wordInv_advance self ct wtext cur p seg_list hinv
                intro j g1 g2 e2 t2 hwa
                by_cases hj : j = cur
                · subst hj
                  have hrun : ∀ i, j ≤ i → i < p → isWordChar ct (charAt wtext i) = true := by
                    intro i k1 k2
                    have := h4 i k1 k2
                    rw [isWordLoopChar_eq] at this
                    simp only [Bool.and_eq_true] at this
                    exact this.2
                  have hend : isWordChar ct (charAt wtext p) = false := by
                    rw [isWordLoopChar_eq] at h3
                    simp only [Bool.and_eq_false_iff, bne_eq_false_iff_eq] at h3
                    rcases h3 with g | g
                    · rw [g]
                      exact isWordChar_zero ct hct
                    · exact g
                  have hep : e2 = p := by
                    rcases Nat.lt_trichotomy e2 p with g | g | g
                    · rcases hwa.2.2.2.1 with k | k
                      · omega
                      · have := hrun e2 (by have := hwa.1; omega) g
                        rw [this] at k
                        exact Bool.noConfusion k
                    · exact g
                    · have := hwa.2.2.1 p (by omega) g
                      rw [this] at hend
                      exact Bool.noConfusion hend
                  have hf := hwa.2.2.2.2.2
                  rw [hep] at hf
                  rw [List.take_drop] at hw
                  simp only [List.take_drop] at hf
                  rw [hw] at hf
                  exact Option.noConfusion hf
                · have := h4 (j - 1) (by omega) (by omega)
                  rw [isWordLoopChar_eq] at this
                  simp only [Bool.and_eq_true] at this
                  exact not_wordAt_of_prev self ct wtext j e2 t2 (by omega) this.2 hwa
              exact ih p seg_list h2 (by omega) hne ht hw1 h
          · rw [if_neg hlen] at h
            apply hstep _ h
            intro e2 t2
            apply not_wordAt_of_char
            have hpc : p = cur := by omega
            rw [hpc, isWordLoopChar_eq] at h3
            simp only [Bool.and_eq_false_iff, bne_eq_false_iff_eq] at h3
            rcases h3 with g | g
            · exact absurd g hc2.1
            · exact g
        · rw [if_neg hprev] at h
          apply hstep _ h
          intro e2 t2
          have hpos : cur > 0 := by
            by_contra hn
            have h0 : cur = 0 := by omega
            apply hprev
            simp [h0, hct.1]
          apply not_wordAt_of_prev self ct wtext cur e2 t2 hpos
          simp only [hpos, if_true] at hprev
          simp only [isWordChar]
          by_contra hcon
          apply hprev
          simp only [Bool.or_eq_true, beq_iff_eq, not_or, Bool.not_eq_true] at hcon
          simp [hcon.1.1, hcon.1.2, hcon.2]
    · rw [if_neg hc] at h
      simp only [Option.some.injEq, Prod.mk.injEq] at h
      obtain ⟨h1, h2⟩ := h
      subst h1; subst h2
      exact hinv

theorem wordInv_skip_space (self : LLKeywords) (ct : CType) (hct : CTypeOK ct)
    (wtext : LLWString) (cur c : Nat) (segs : List LLTextSegment)
    (h : WordInv self ct wtext cur segs)
    (hsp : ∀ j, cur ≤ j → j < c → isSkippedSpace ct (charAt wtext j) = true) :
    WordInv self ct wtext c segs := by
  apply wordInv_advance self ct wtext cur c segs h
  intro j g1 g2 e t
  apply not_wordAt_of_char
  have := hsp j g1 g2
  simp only [isSkippedSpace, Bool.and_eq_true] at this
  exact hct.2.2 _ this.1.2

theorem lineStart_rest_words (self : LLKeywords)
    (hline : ∀ t ∈ self.mLineTokenList, isWordType t.mType = false)
    (ct : CType) (hct : CTypeOK ct) (wtext : LLWString)
    (text_len : Nat) (hL : text_len = wtext.length + 1) (fuel c0 : Nat)
    (r0 : List LLTextSegment) (hc0n : c0 ≤ wtext.length)
    (hfuel : wtext.length + 3 ≤ c0 + fuel)
    (hinv : WordInv self ct wtext c0 r0) (flag : Bool) (c : Nat) (r : List LLTextSegment)
    (h : (match scanWhile (isSkippedSpace ct) wtext fuel c0 with
        | none => none
        | some cur =>
          if (charAt wtext cur = 0 || charAt wtext cur = 10) then some (true, cur, r0)
          else
            match self.mLineTokenList.find? (fun cur_token => cur_token.isHead wtext cur) with
            | some cur_token =>
              match scanWhile isInLine wtext fuel cur with
              | none => none
              | some cur2 =>
                match insertSegments wtext r0 cur_token text_len cur cur2 with
                | none => none
                | some seg_list => some (true, cur2, seg_list)
            | none => some (false, cur, r0)) = some (flag, c, r)) :
    WordInv self ct wtext c r := by
  obtain ⟨c1, e1, h1, h2, h3, h4⟩ := scanWhile_spec (isSkippedSpace ct) (isSkippedSpace_zero ct)
    wtext fuel c0 hc0n (by omega)
  have hw1 := wordInv_skip_space self ct hct wtext c0 c1 r0 hinv h4
  rw [e1] at h
  simp only [] at h
  by_cases hz : (decide (charAt wtext c1 = 0) || decide (charAt wtext c1 = 10)) = true
  · rw [if_pos hz] at h
    simp only [Option.some.injEq, Prod.mk.injEq] at h
    obtain ⟨_, g2, g3⟩ := h
    subst g2; subst g3
    exact hw1
  · rw [if_neg hz] at h
    cases hfind : self.mLineTokenList.find? (fun cur_token => cur_token.isHead wtext c1) with
    | some tk =>
      rw [hfind] at h
      simp only [] at h
      obtain ⟨c2, e2, g1, g2, g3, g4⟩ := scanWhile_spec isInLine isInLine_zero wtext fuel c1 h2
        (by omega)
      rw [e2] at h
      simp only [] at h
      cases hins : insertSegments wtext r0 tk text_len c1 c2 with
      | none => rw [hins] at h; exact Option.noConfusion h
      | some r1 =>
        rw [hins] at h
        simp only [Option.some.injEq, Prod.mk.injEq] at h
        obtain ⟨_, k2, k3⟩ := h
        subst k2; subst k3
        exact wordInv_region self ct wtext c1 c2 text_len c2 r0 r1 tk hw1
          (hline tk (List.mem_of_find?_eq_some hfind)) (by omega) (le_refl _) hins
    | none =>
      rw [hfind] at h
      simp only [Option.some.injEq, Prod.mk.injEq] at h
      obtain ⟨_, g2, g3⟩ := h
      subst g2; subst g3
      exact hw1

/-- The block at the start of a line keeps the invariant of the word
tokens. -/
theorem lineStart_words (self : LLKeywords)
    (hline : ∀ t ∈ self.mLineTokenList, isWordType t.mType = false)
    (ct : CType) (hct : CTypeOK ct) (wtext : LLWString)
    (text_len : Nat) (hL : text_len = wtext.length + 1) (fuel cur : Nat)
    (seg_list : List LLTextSegment) (hcur : charAt wtext cur ≠ 0)
    (hfuel : wtext.length + 3 ≤ cur + fuel)
    (hinv : WordInv self ct wtext cur seg_list) (flag : Bool) (c : Nat)
    (r : List LLTextSegment)
    (h : lineStart self ct wtext text_len fuel cur seg_list = some (flag, c, r)) :
    WordInv self ct wtext c r := by
  have hlt : cur < wtext.length := lt_length_of_charAt_ne_zero wtext cur hcur
  unfold lineStart at h
  by_cases hnl : charAt wtext cur = 10
  · rw [if_pos hnl] at h
    cases hins : insertSegment seg_list ((LLLineBreakTextSegment cur).setToken none) text_len with
    | none => rw [hins] at h; exact Option.noConfusion h
    | some r1 =>
      rw [hins] at h
      simp only [] at h
      have hw0 := wordInv_insert_plain self ct wtext cur text_len seg_list r1 _ hinv rfl
        (by simp only [LLTextSegment.setToken, LLLineBreakTextSegment]; omega) hins
      have hw1 : WordInv self ct wtext (cur + 1) r1 := by
        apply wordInv_advance self ct wtext cur (cur + 1) r1 hw0
        intro j g1 g2 e t
        have : j = cur := by omega
        rw [this]
        apply not_wordAt_of_char
        rw [hnl]
        exact isWordChar_linefeed ct hct
      by_cases hz : (decide (charAt wtext (cur + 1) = 0) || decide (charAt wtext (cur + 1) = 10))
          = true
      · rw [if_pos hz] at h
        simp only [Option.some.injEq, Prod.mk.injEq] at h
        obtain ⟨_, g2, g3⟩ := h
        subst g2; subst g3
        exact hw1
      · rw [if_neg hz] at h
        simp only [] at h
        exact lineStart_rest_words self hline ct hct wtext text_len hL fuel (cur + 1) r1
          (by omega) (by omega) hw1 flag c r h
  · rw [if_neg hnl] at h
    simp only [] at h
    exact lineStart_rest_words self hline ct hct wtext text_len hL fuel cur seg_list
      (by omega) (by omega) hinv flag c r h

/-- The outer loop of `findSegments` establishes the invariant of the word
tokens up to the position of the `0` at which it stops. -/
theorem findSegmentsLoop_words (self : LLKeywords)
    (hdel : ∀ d ∈ self.mDelimiterTokenList, DelimOK d ∧ isWordType d.mType = false)
    (hline : ∀ t ∈ self.mLineTokenList, isWordType t.mType = false)
    (hmap : ∀ e ∈ self.mWordTokenMap, isWordType e.2.mType = true)
    (ct : CType) (hct : CTypeOK ct) (wtext : LLWString)
    (text_len : Nat) (hL : text_len = wtext.length + 1) (fuel cur : Nat)
    (seg_list : List LLTextSegment) (hcur : cur ≤ wtext.length)
    (hfuel : wtext.length + 4 ≤ cur + fuel) (hne : seg_list ≠ [])
    (ht : Tiles 0 seg_list text_len) (hinv : WordInv self ct wtext cur seg_list)
    (r : List LLTextSegment)
    (h : findSegmentsLoop self ct wtext text_len fuel cur seg_list = some r) :
    ∃ z, charAt wtext z = 0 ∧ WordInv self ct wtext z r := by
  induction fuel generalizing cur seg_list with
  | zero => omega
  | succ fuel ih =>
    simp only [findSegmentsLoop] at h
    by_cases hc : (charAt wtext cur != 0) = true
    · rw [if_pos hc] at h
      have hc2 : charAt wtext cur ≠ 0 := by simpa using hc
      have hlt : cur < wtext.length := lt_length_of_charAt_ne_zero wtext cur hc2
      have hfirst : ∃ flag c1 r1, (if (decide (charAt wtext cur = 10) || decide (cur = 0)) = true
          then lineStart self ct wtext text_len fuel cur seg_list
          else some (false, cur, seg_list)) = some (flag, c1, r1)
          ∧ cur ≤ c1 ∧ c1 ≤ wtext.length ∧ (flag = true → cur < c1)
          ∧ (flag = false → isInLine (charAt wtext c1) = true)
          ∧ r1 ≠ [] ∧ Tiles 0 r1 text_len ∧ WordInv self ct wtext c1 r1 := by
        by_cases hls : (decide (charAt wtext cur = 10) || decide (cur = 0)) = true
        · rw [if_pos hls]
          obtain ⟨flag, c1, r1, e, g1, g2, g3, g4, g5, g6⟩ := lineStart_spec self ct wtext
            text_len hL fuel cur seg_list hc2 (by omega) hne ht
          exact ⟨flag, c1, r1, e, g1, g2, g3, fun h => (g4 h).1, g5, g6,
            lineStart_words self hline ct hct wtext text_len hL fuel cur seg_list hc2 (by omega)
              hinv flag c1 r1 e⟩
        · rw [if_neg hls]
          refine ⟨false, cur, seg_list, rfl, le_refl _, hcur, fun h => Bool.noConfusion h, ?_,
            hne, ht, hinv⟩
          intro _
          rw [isInLine_iff]
          simp only [Bool.or_eq_true, decide_eq_true_eq, not_or] at hls
          exact ⟨hc2, hls.1⟩
      obtain ⟨flag, c1, r1, e, g1, g2, g3, g4, g5, g6, g7⟩ := hfirst
      rw [e] at h
      cases flag with
      | true =>
        simp only [] at h
        exact ih c1 r1 g2 (by have := g3 rfl; omega) g5 g6 g7 h
      | false =>
        simp only [] at h
        obtain ⟨c2, e1, h1, h2, h3, h4⟩ := scanWhile_spec (isSkippedSpace ct)
          (isSkippedSpace_zero ct) wtext fuel c1 g2 (by omega)
        rw [e1] at h
        simp only [] at h
        have hw2 := wordInv_skip_space self ct hct wtext c1 c2 r1 g7 h4
        obtain ⟨c3, r3, e2, k1, k2, k3, k4, k5⟩ := lineLoop_spec self (fun d hd => (hdel d hd).1)
          ct wtext text_len hL fuel c2 r1 h2 (by omega) g5 g6
        have hw3 := lineLoop_words self hdel hmap ct hct wtext text_len hL fuel c2 r1 h2
          (by omega) g5 g6 hw2 c3 r3 e2
        rw [e2] at h
        simp only [] at h
        have hprog : cur < c3 := by
          by_cases hcc : c2 = c1
          · have := g4 rfl
            rw [← hcc] at this
            have := k3 this
            omega
          · omega
        exact ih c3 r3 k2 (by omega) k4 k5 hw3 h
    · rw [if_neg hc] at h
      have hr : seg_list = r := by simpa using h
      subst hr
      have hz : charAt wtext cur = 0 := by simpa using hc
      exact ⟨cur, hz, hinv⟩

theorem standardDelimiters_not_word (d : LLKeywordToken) (h : d ∈ standardDelimiters) :
    isWordType d.mType = false := by
  simp only [standardDelimiters, LLKeywords.processTokensStandard, LLKeywords.addToken,
    LLKeywords.empty, List.mem_cons, List.mem_singleton, List.not_mem_nil, or_false] at h
  rcases h with h | h | h <;> subst h <;> rfl

theorem wstring_equiv_iff (a b : WStringMapIndex) :
    (!a.operator_lt b && !b.operator_lt a) = true ↔ a.mData = b.mData := by
  unfold WStringMapIndex.operator_lt
  have h := wlt_total a.mData b.mData
  constructor
  · intro hab
    simp only [Bool.and_eq_true, Bool.not_eq_true'] at hab
    by_contra hne
    rcases h.1 hne with g | g
    · rw [hab.1] at g
      exact Bool.noConfusion g.1
    · rw [hab.2] at g
      exact Bool.noConfusion g.2
  · intro he
    have := h.2 he
    simp [this.1, this.2]

/-- The lookup in the word token map succeeds exactly for the character
sequences that are keys of the map. -/
theorem wordTokenMapFind_isSome_iff (m : List (WStringMapIndex × LLKeywordToken))
    (word : WStringMapIndex) :
    (∃ t, wordTokenMapFind m word = some t) ↔ ∃ e ∈ m, e.1.mData = word.mData := by
  unfold wordTokenMapFind
  constructor
  · rintro ⟨t, ht⟩
    cases hf : List.find? (fun e => !e.1.operator_lt word && !word.operator_lt e.1) m with
    | none => rw [hf] at ht; exact Option.noConfusion ht
    | some en =>
      have h1 := List.find?_some hf
      exact ⟨en, List.mem_of_find?_eq_some hf, (wstring_equiv_iff en.1 word).mp h1⟩
  · rintro ⟨en, hm, he⟩
    cases hf : List.find? (fun e => !e.1.operator_lt word && !word.operator_lt e.1) m with
    | none =>
      have := List.find?_eq_none.mp hf en hm
      exact absurd ((wstring_equiv_iff en.1 word).mpr he) this
    | some e2 => exact ⟨e2.2, rfl⟩

theorem ascii_space_not_word (c : Nat) (hc : c = 32 ∨ 9 ≤ c ∧ c ≤ 13) :
    ((((48 ≤ c → 57 < c) ∧ (65 ≤ c → 90 < c)) ∧ (97 ≤ c → 122 < c)) ∧ ¬c = 95) ∧ ¬c = 35 := by
  omega

theorem asciiCType_ok : CTypeOK asciiCType := by
  refine ⟨by decide, by decide, ?_⟩
  intro c hc
  simp [asciiCType] at hc
  simp [isWordChar, asciiCType]
  exact ascii_space_not_word c hc

/-- The member `addToken` files word types in the word token map and no word
type in the list of line tokens: the two assumptions of the claim about the
tokens hold for every `LLKeywords` that is built with `addToken`. -/
theorem addToken_token_types (self : LLKeywords) (type : ETokenType) (key delimiter : LLWString)
    (hmap : ∀ e ∈ self.mWordTokenMap, isWordType e.2.mType = true)
    (hline : ∀ t ∈ self.mLineTokenList, isWordType t.mType = false) :
    (∀ e ∈ (self.addToken type key delimiter).mWordTokenMap, isWordType e.2.mType = true)
    ∧ (∀ t ∈ (self.addToken type key delimiter).mLineTokenList, isWordType t.mType = false) := by
  have hassign : ∀ tok : LLKeywordToken, isWordType tok.mType = true →
      ∀ e ∈ wordTokenMapAssign self.mWordTokenMap (WStringMapIndex.ofString key) tok,
        isWordType e.2.mType = true := by
    intro tok htok e he
    unfold wordTokenMapAssign at he
    split at he
    · obtain ⟨e0, h0, h1⟩ := List.mem_map.mp he
      split at h1
      · rw [← h1]; exact htok
      · rw [← h1]; exact hmap e0 h0
    · rcases List.mem_append.mp he with h | h
      · exact hmap e h
      · simp only [List.mem_singleton] at h
        rw [h]; exact htok
  cases type <;> simp only [LLKeywords.addToken] <;>
    first
    | exact ⟨hmap, hline⟩
    | exact ⟨hassign _ rfl, hline⟩
    | (refine ⟨hmap, ?_⟩
       intro t ht
       rcases List.mem_cons.mp ht with h | h
       · rw [h]; rfl
       · exact hline t h)

/-! ## The comments and string literals of the text -/

/-- The position that `firstPos` returns: `P` fails at every position before
it, and holds at it unless the `n` positions are used up. -/
theorem firstPos_spec (P : Nat → Bool) (n a : Nat) :
    a ≤ firstPos P n a ∧ firstPos P n a ≤ a + n
      ∧ (∀ j, a ≤ j → j < firstPos P n a → P j = false)
      ∧ (firstPos P n a < a + n → P (firstPos P n a) = true) := by
  induction n generalizing a with
  | zero =>
    simp only [firstPos]
    exact ⟨le_refl _, le_refl _, fun j h1 h2 => by omega, fun h => by omega⟩
  | succ n ih =>
    simp only [firstPos]
    by_cases hp : P a = true
    · rw [if_pos hp]
      exact ⟨le_refl _, by omega, fun j h1 h2 => by omega, fun _ => hp⟩
    · rw [if_neg hp]
      obtain ⟨h1, h2, h3, h4⟩ := ih (a + 1)
      refine ⟨by omega, by omega, ?_, fun h => h4 (by omega)⟩
      intro j g1 g2
      by_cases hj : j = a
      · rw [hj]
        simpa using hp
      · exact h3 j (by omega) g2

/-- The first position at which `P` holds is the one that `firstPos`
returns. -/
theorem firstPos_eq (P : Nat → Bool) (n a r : Nat) (h1 : a ≤ r) (h2 : r ≤ a + n)
    (hr : P r = true ∨ r = a + n) (hb : ∀ j, a ≤ j → j < r → P j = false) :
    firstPos P n a = r := by
  obtain ⟨g1, g2, g3, g4⟩ := firstPos_spec P n a
  rcases Nat.lt_trichotomy (firstPos P n a) r with h | h | h
  · have := g4 (by omega)
    rw [hb _ g1 h] at this
    exact Bool.noConfusion this
  · exact h
  · rcases hr with hr | hr
    · have := g3 r h1 h
      rw [hr] at this
      exact Bool.noConfusion this
    · omega

/-- The position at which a loop `while (cond(*cur)) cur++` stops is the one
that `firstFail` returns. -/
theorem firstFail_eq (cond : Nat → Bool) (wtext : LLWString) (a r : Nat) (h1 : a ≤ r)
    (h2 : r ≤ wtext.length) (hr : cond (charAt wtext r) = false)
    (hb : ∀ j, a ≤ j → j < r → cond (charAt wtext j) = true) :
    firstFail cond wtext a = r := by
  unfold firstFail
  apply firstPos_eq _ _ _ _ h1 (by omega)
  · left
    simp [hr]
  · intro j g1 g2
    simp [hb j g1 g2]

/-- Every character that `firstFail` passes meets `cond`. -/
theorem firstFail_spec (cond : Nat → Bool) (wtext : LLWString) (a : Nat) :
    a ≤ firstFail cond wtext a
      ∧ ∀ j, a ≤ j → j < firstFail cond wtext a → cond (charAt wtext j) = true := by
  obtain ⟨h1, _, h3, _⟩ := firstPos_spec (fun j => !cond (charAt wtext j)) (wtext.length - a) a
  unfold firstFail
  refine ⟨h1, ?_⟩
  intro j g1 g2
  have := h3 j g1 g2
  simpa using this

/-- Where a token without the character `0` matches, the text holds no `0`. -/
theorem matchesAt_ne_zero (t : List Nat) (h0 : ∀ c ∈ t, c ≠ 0) (wtext : LLWString) (s : Nat)
    (h : matchesAt t wtext s = true) :
    ∀ j, s ≤ j → j < s + t.length → charAt wtext j ≠ 0 := by
  induction t generalizing s with
  | nil =>
    intro j h1 h2
    simp only [List.length_nil] at h2
    omega
  | cons c cs ih =>
    simp only [matchesAt] at h
    by_cases hc : charAt wtext s = c
    · simp only [ne_eq, hc, not_true_eq_false, if_false] at h
      intro j h1 h2
      simp only [List.length_cons] at h2
      by_cases hj : j = s
      · rw [hj, hc]
        exact h0 c (List.mem_cons_self _ _)
      · exact ih (fun x hx => h0 x (List.mem_cons_of_mem _ hx)) (s + 1) h j (by omega)
          (by omega)
    · simp only [ne_eq, hc, not_false_eq_true, if_true] at h
      exact Bool.noConfusion h

theorem isInLine_ne_zero (c : Nat) (h : isInLine c = true) : c ≠ 0 :=
  ((isInLine_iff c).mp h).1

/-- The loop of a one-sided delimiter stops at the end of the line. -/
theorem oneSidedLoop_stop (wtext : LLWString) (fuel cur between : Nat)
    (hcur : cur ≤ wtext.length) (hfuel : wtext.length < cur + fuel) :
    oneSidedLoop wtext fuel cur between
      = some (firstFail isInLine wtext cur, between + (firstFail isInLine wtext cur - cur))
      ∧ cur ≤ firstFail isInLine wtext cur ∧ firstFail isInLine wtext cur ≤ wtext.length := by
  have key : ∀ fuel cur between, cur ≤ wtext.length → wtext.length < cur + fuel →
      ∃ r, oneSidedLoop wtext fuel cur between = some (r, between + (r - cur))
        ∧ cur ≤ r ∧ r ≤ wtext.length ∧ isInLine (charAt wtext r) = false
        ∧ ∀ j, cur ≤ j → j < r → isInLine (charAt wtext j) = true := by
    intro fuel
    induction fuel with
    | zero => intro cur between h1 h2; omega
    | succ fuel ih =>
      intro cur between h1 h2
      simp only [oneSidedLoop]
      by_cases hc : (charAt wtext cur != 0 && (10 != charAt wtext cur)) = true
      · rw [if_pos hc]
        have hc2 := hc
        simp only [Bool.and_eq_true, bne_iff_ne, ne_eq] at hc2
        have hlt : cur < wtext.length := lt_length_of_charAt_ne_zero wtext cur hc2.1
        obtain ⟨r, e, g1, g2, g3, g4⟩ := ih (cur + 1) (between + 1) (by omega) (by omega)
        refine ⟨r, ?_, by omega, g2, g3, ?_⟩
        · rw [e]
          congr 2
          omega
        · intro j k1 k2
          by_cases hj : j = cur
          · rw [hj, isInLine_iff]
            exact ⟨hc2.1, fun h => hc2.2 h.symm⟩
          · exact g4 j (by omega) k2
      · rw [if_neg hc]
        refine ⟨cur, by simp, le_refl _, h1, ?_, fun j k1 k2 => by omega⟩
        cases hi : isInLine (charAt wtext cur) with
        | false => rfl
        | true =>
          rw [isInLine_iff] at hi
          exfalso
          apply hc
          simp only [Bool.and_eq_true, bne_iff_ne, ne_eq]
          exact ⟨hi.1, fun h => hi.2 h.symm⟩
  obtain ⟨r, e, g1, g2, g3, g4⟩ := key fuel cur between hcur hfuel
  have hr := firstFail_eq isInLine wtext cur r g1 g2 g3 g4
  rw [hr]
  exact ⟨e, g1, g2⟩

/-- The loop of a two-sided delimiter that is not a string literal stops at
the first position that holds the terminating `0` or the closing string. -/
theorem delimitedLoop_plain_spec (tok : LLKeywordToken) (wtext : LLWString)
    (hty : tok.mType ≠ ETokenType.TT_DOUBLE_QUOTATION_MARKS)
    (fuel cur between : Nat) (hcur : cur ≤ wtext.length)
    (hfuel : wtext.length < cur + fuel) :
    ∃ r, delimitedLoop tok wtext fuel cur between = some (r, between + (r - cur))
      ∧ cur ≤ r ∧ r ≤ wtext.length
      ∧ (charAt wtext r = 0 ∨ tok.isTail wtext r = true)
      ∧ ∀ j, cur ≤ j → j < r → charAt wtext j ≠ 0 ∧ tok.isTail wtext j = false := by
  induction fuel generalizing cur between with
  | zero => omega
  | succ fuel ih =>
    simp only [delimitedLoop]
    by_cases hc : (charAt wtext cur != 0 && !tok.isTail wtext cur) = true
    · rw [if_pos hc]
      have hc2 := hc
      simp only [Bool.and_eq_true, bne_iff_ne, ne_eq, Bool.not_eq_true'] at hc2
      have hlt : cur < wtext.length := lt_length_of_charAt_ne_zero wtext cur hc2.1
      have hq : ¬ (decide (tok.getType = ETokenType.TT_DOUBLE_QUOTATION_MARKS)
          && decide (charAt wtext cur = 92)) = true := by
        simp only [Bool.and_eq_true, decide_eq_true_eq, LLKeywordToken.getType]
        exact fun h => hty h.1
      rw [if_neg hq]
      obtain ⟨r, e2, g1, g2, g3, g4⟩ := ih (cur + 1) (between + 1) (by omega) (by omega)
      refine ⟨r, ?_, by omega, g2, g3, ?_⟩
      · rw [e2]
        congr 2
        omega
      · intro j k1 k2
        by_cases hj : j = cur
        · rw [hj]
          exact hc2
        · exact g4 j (by omega) k2
    · rw [if_neg hc]
      refine ⟨cur, by simp, le_refl _, hcur, ?_, fun j k1 k2 => by omega⟩
      simp only [Bool.and_eq_true, bne_iff_ne, ne_eq, Bool.not_eq_true', not_and,
        Bool.not_eq_false] at hc
      by_cases hz : charAt wtext cur = 0
      · exact Or.inl hz
      · exact Or.inr (hc hz)

/-- The block "Check against delimiters" for a two-sided delimiter or string
literal whose opening and closing strings have the same length, once the loop
has stopped at `q`: the segment and the scan go on to the end of the closing
string, or stop at the end of the text. -/
theorem delimiterSegment_two_sided (wtext : LLWString) (text_len : Nat) (tok : LLKeywordToken)
    (fuel cur q : Nat) (seg_list : List LLTextSegment)
    (hty : tok.mType = ETokenType.TT_TWO_SIDED_DELIMITER
      ∨ tok.mType = ETokenType.TT_DOUBLE_QUOTATION_MARKS)
    (hlen : tok.mToken.length = tok.mDelimiter.length)
    (hq : cur + tok.mToken.length ≤ q)
    (hloop : delimitedLoop tok wtext fuel (cur + tok.mToken.length) 0
      = some (q, 0 + (q - (cur + tok.mToken.length)))) :
    delimiterSegment wtext text_len tok fuel cur seg_list
      = (insertSegments wtext seg_list tok text_len cur
          (if charAt wtext q = 0 then q else q + tok.mDelimiter.length)).map
        (fun r => (if charAt wtext q = 0 then q else q + tok.mDelimiter.length, r)) := by
  have hty2 : (decide (tok.mType = ETokenType.TT_TWO_SIDED_DELIMITER)
      || decide (tok.mType = ETokenType.TT_DOUBLE_QUOTATION_MARKS)) = true := by
    simpa using hty
  simp only [delimiterSegment, LLKeywordToken.getLengthHead, LLKeywordToken.getLengthTail,
    LLKeywordToken.getType, hty2, if_true, hloop]
  by_cases hz : charAt wtext q = 0
  · simp only [hz, bne_self_eq_false, Bool.false_eq_true, if_false, if_true]
    have e2 : cur + (0 + (q - (cur + tok.mToken.length))) + tok.mToken.length = q := by omega
    rw [e2]
    cases insertSegments wtext seg_list tok text_len cur q <;> rfl
  · have hb : (charAt wtext q != 0) = true := by simpa using hz
    simp only [hb, hz, if_true, if_false]
    have e2 : cur + (0 + (q - (cur + tok.mToken.length))) + tok.mToken.length
        + tok.mDelimiter.length = q + tok.mDelimiter.length := by omega
    have e3 : q + tok.mToken.length = q + tok.mDelimiter.length := by omega
    rw [e2, e3]
    cases insertSegments wtext seg_list tok text_len cur (q + tok.mDelimiter.length) <;> rfl

/-- The block "Check against delimiters" for a one-sided delimiter: the
segment and the scan go on to the end of the line. -/
theorem delimiterSegment_one_sided (wtext : LLWString) (text_len : Nat) (tok : LLKeywordToken)
    (fuel cur : Nat) (seg_list : List LLTextSegment)
    (hty1 : tok.mType ≠ ETokenType.TT_TWO_SIDED_DELIMITER)
    (hty2 : tok.mType ≠ ETokenType.TT_DOUBLE_QUOTATION_MARKS)
    (hcur : cur + tok.mToken.length ≤ wtext.length)
    (hfuel : wtext.length < cur + tok.mToken.length + fuel) :
    delimiterSegment wtext text_len tok fuel cur seg_list
      = (insertSegments wtext seg_list tok text_len cur
          (firstFail isInLine wtext (cur + tok.mToken.length))).map
        (fun r => (firstFail isInLine wtext (cur + tok.mToken.length), r)) := by
  have hty : (decide (tok.mType = ETokenType.TT_TWO_SIDED_DELIMITER)
      || decide (tok.mType = ETokenType.TT_DOUBLE_QUOTATION_MARKS)) = false := by
    simp [hty1, hty2]
  obtain ⟨e, g1, g2⟩ := oneSidedLoop_stop wtext fuel (cur + tok.mToken.length) 0 hcur hfuel
  simp only [delimiterSegment, LLKeywordToken.getLengthHead, LLKeywordToken.getLengthTail,
    LLKeywordToken.getType, hty, Bool.false_eq_true, if_false, e]
  have e2 : cur + (0 + (firstFail isInLine wtext (cur + tok.mToken.length)
      - (cur + tok.mToken.length))) + tok.mToken.length
      = firstFail isInLine wtext (cur + tok.mToken.length) := by omega
  rw [e2]
  cases insertSegments wtext seg_list tok text_len cur
    (firstFail isInLine wtext (cur + tok.mToken.length)) <;> rfl

/-- The block "Check against delimiters" for a delimiter that `processTokens`
registers and that opens at `cur`: the segment is the range from `cur` to
`regionEnd`, within the text, and the scan goes on at `regionEnd`. -/
theorem delimiterSegment_standard (wtext : LLWString) (text_len : Nat) (d : LLKeywordToken)
    (hd : d ∈ standardDelimiters) (fuel cur : Nat) (seg_list : List LLTextSegment)
    (hhead : d.isHead wtext cur = true) (hcur : cur ≤ wtext.length)
    (hfuel : wtext.length + 2 ≤ cur + fuel) :
    cur < regionEnd d wtext cur ∧ regionEnd d wtext cur ≤ wtext.length
      ∧ (∀ j, cur ≤ j → j < regionEnd d wtext cur → charAt wtext j ≠ 0)
      ∧ delimiterSegment wtext text_len d fuel cur seg_list
        = (insertSegments wtext seg_list d text_len cur (regionEnd d wtext cur)).map
          (fun r => (regionEnd d wtext cur, r)) := by
  have hhd := matchesAt_ne_zero d.mToken (standardDelimiters_ok d hd).2.1 wtext cur hhead
  have hok := standardDelimiters_ok d hd
  have hb := matchesAt_bound d.mToken hok.2.1 wtext cur hcur hhead
  have hpos : 0 < d.mToken.length := List.length_pos.mpr hok.1
  simp only [standardDelimiters, LLKeywords.processTokensStandard, LLKeywords.addToken,
    LLKeywords.empty, List.mem_cons, List.mem_singleton, List.not_mem_nil, or_false] at hd
  rcases hd with hd | hd | hd
  · -- the string literal
    have hdq : d = dqToken := hd
    subst hdq
    have hb1 : cur + 1 ≤ wtext.length := hb
    have hopen : charAt wtext cur = 34 := by
      simp only [LLKeywordToken.isHead, matchesAt] at hhead
      by_contra hne
      simp [hne] at hhead
    have hrun : backslashRun wtext (cur + 1) = 0 :=
      backslashRun_succ_of_ne wtext cur (by rw [hopen]; norm_num)
    obtain ⟨q, e, h1, h2, h3, h4⟩ := dq_delimitedLoop_spec wtext fuel (cur + 1) 0 hb1
      (by omega) (Or.inl hrun)
    have hq : firstPos (fun j => charAt wtext j == 0
        || (dqToken.isTail wtext j && backslashRun wtext j % 2 == 0))
        (wtext.length - (cur + 1)) (cur + 1) = q := by
      apply firstPos_eq _ _ _ _ h1 (by omega)
      · left
        rcases h4 with g | g
        · simp [g]
        · have ht := (dq_isTail_iff wtext q).mpr g.1
          simp [ht, g.2]
      · intro j g1 g2
        obtain ⟨k1, k2⟩ := h3 j g1 g2
        by_cases ht : dqToken.isTail wtext j = true
        · have := k2 ((dq_isTail_iff wtext j).mp ht)
          simp [k1, ht, this]
        · simp [k1, ht]
    have hre : regionEnd dqToken wtext cur = if charAt wtext q = 0 then q else q + 1 := by
      simp only [regionEnd]
      rw [if_neg (by simp [dqToken]), if_pos (by simp [dqToken])]
      have e1 : cur + dqToken.mToken.length = cur + 1 := rfl
      rw [e1, hq]
      rfl
    have hseg := delimiterSegment_two_sided wtext text_len dqToken fuel cur q seg_list
      (Or.inr rfl) rfl h1 e
    have hd1 : dqToken.mDelimiter.length = 1 := rfl
    rw [hd1] at hseg
    have hm1 : dqToken.mToken.length = 1 := rfl
    rw [hm1] at hhd
    rw [hre]
    refine ⟨?_, ?_, ?_, hseg⟩
    · split <;> omega
    · split
      · exact h2
      · rename_i hz
        rcases h4 with g | g
        · exact absurd g hz
        · have := lt_length_of_charAt_ne_zero wtext q (by rw [g.1]; norm_num)
          omega
    · intro j k1 k2
      by_cases hj : j < cur + 1
      · exact hhd j k1 hj
      · by_cases hjq : j < q
        · exact (h3 j (by omega) hjq).1
        · by_cases hz : charAt wtext q = 0
          · rw [if_pos hz] at k2
            omega
          · rw [if_neg hz] at k2
            have : j = q := by omega
            rw [this]
            exact hz
  · -- the two-sided comment
    have hty : d.mType = ETokenType.TT_TWO_SIDED_DELIMITER := by rw [hd]
    have hmt : d.mToken.length = 2 := by rw [hd]; rfl
    have hmd : d.mDelimiter.length = 2 := by rw [hd]; rfl
    obtain ⟨q, e, h1, h2, h3, h4⟩ := delimitedLoop_plain_spec d wtext (by rw [hty]; simp)
      fuel (cur + d.mToken.length) 0 hb (by omega)
    have hq : firstPos (fun j => charAt wtext j == 0 || d.isTail wtext j)
        (wtext.length - (cur + d.mToken.length)) (cur + d.mToken.length) = q := by
      apply firstPos_eq _ _ _ _ h1 (by omega)
      · left
        rcases h3 with g | g
        · simp [g]
        · simp [g]
      · intro j g1 g2
        obtain ⟨k1, k2⟩ := h4 j g1 g2
        simp [k1, k2]
    have hre : regionEnd d wtext cur
        = if charAt wtext q = 0 then q else q + d.mDelimiter.length := by
      simp only [regionEnd, hty, if_true]
      rw [hq]
    have hseg := delimiterSegment_two_sided wtext text_len d fuel cur q seg_list
      (Or.inl hty) (by omega) h1 e
    rw [hre]
    refine ⟨?_, ?_, ?_, hseg⟩
    · split <;> omega
    · split
      · exact h2
      · rename_i hz
        rcases h3 with g | g
        · exact absurd g hz
        · exact matchesAt_bound d.mDelimiter hok.2.2.1 wtext q h2 g
    · intro j k1 k2
      by_cases hj : j < cur + d.mToken.length
      · exact hhd j k1 hj
      · by_cases hjq : j < q
        · exact (h4 j (by omega) hjq).1
        · by_cases hz : charAt wtext q = 0
          · rw [if_pos hz] at k2
            omega
          · rw [if_neg hz] at k2
            rcases h3 with g | g
            · exact absurd g hz
            · exact matchesAt_ne_zero d.mDelimiter hok.2.2.1 wtext q g j (by omega) k2
  · -- the one-sided comment
    have hty : d.mType = ETokenType.TT_ONE_SIDED_DELIMITER := by rw [hd]
    obtain ⟨_, g1, g2⟩ := oneSidedLoop_stop wtext fuel (cur + d.mToken.length) 0 hb (by omega)
    have hseg := delimiterSegment_one_sided wtext text_len d fuel cur seg_list
      (by rw [hty]; simp) (by rw [hty]; simp) hb (by omega)
    have hre : regionEnd d wtext cur = firstFail isInLine wtext (cur + d.mToken.length) := by
      simp [regionEnd, hty]
    rw [hre]
    refine ⟨by omega, g2, ?_, hseg⟩
    intro j k1 k2
    by_cases hj : j < cur + d.mToken.length
    · exact hhd j k1 hj
    · exact isInLine_ne_zero _
        ((firstFail_spec isInLine wtext (cur + d.mToken.length)).2 j (by omega) k2)

theorem firstFail_bounds (cond : Nat → Bool) (wtext : LLWString) (a : Nat)
    (ha : a ≤ wtext.length) :
    a ≤ firstFail cond wtext a ∧ firstFail cond wtext a ≤ wtext.length := by
  obtain ⟨h1, h2, _, _⟩ := firstPos_spec (fun j => !cond (charAt wtext j)) (wtext.length - a) a
  unfold firstFail
  exact ⟨h1, by omega⟩

theorem isSkippedSpace_ne_zero (ct : CType) (c : Nat) (h : isSkippedSpace ct c = true) :
    c ≠ 0 := by
  simp only [isSkippedSpace, Bool.and_eq_true, bne_iff_ne, ne_eq] at h
  exact h.1.1

/-- The scan starts at the start of the text. -/
theorem scanReaches_start (self : LLKeywords) (ct : CType) (wtext : LLWString) :
    ScanReaches self ct wtext true 0 := by
  refine ⟨Nat.zero_le _, fun j hj => by omega, [], 2 * wtext.length + 2, rfl, ?_, ?_⟩
  · intro r hr
    exact absurd hr (List.not_mem_nil r)
  · simp

/-- A step of the scan from a state that it reaches, over characters other
than `0`: the range found at the step is one of the ranges of the text, and the
scan reaches the next state. -/
theorem scanReaches_step (self : LLKeywords) (ct : CType) (wtext : LLWString)
    (fresh : Bool) (p : Nat) (region : Option (Nat × Nat)) (fresh2 : Bool) (p2 : Nat)
    (h : ScanReaches self ct wtext fresh p)
    (hs : scanStep self ct wtext fresh p = (region, some (fresh2, p2)))
    (hp : p2 ≤ wtext.length) (hmono : p ≤ p2)
    (hnz : ∀ j, p ≤ j → j < p2 → charAt wtext j ≠ 0)
    (hreg : ∀ r, region = some r → r.2 ≤ p2)
    (hm : 2 * (wtext.length - p2) + (if fresh2 then 2 else 1) + 1
      ≤ 2 * (wtext.length - p) + (if fresh then 2 else 1)) :
    ScanReaches self ct wtext fresh2 p2
      ∧ ∀ r, region = some r → r ∈ delimitedRegions self ct wtext := by
  obtain ⟨_, hz, pre, n, heq, hpre, hn⟩ := h
  cases n with
  | zero =>
    exfalso
    cases fresh <;> simp at hn
  | succ m =>
    have hl : regionsLoop self ct wtext (m + 1) fresh p
        = region.toList ++ regionsLoop self ct wtext m fresh2 p2 := by
      simp only [regionsLoop, hs]
    rw [hl, ← List.append_assoc] at heq
    refine ⟨⟨hp, ?_, pre ++ region.toList, m, heq, ?_, by omega⟩, ?_⟩
    · intro j hj
      by_cases hjp : j < p
      · exact hz j hjp
      · exact hnz j (by omega) hj
    · intro r hr
      rcases List.mem_append.mp hr with g | g
      · have := hpre r g
        omega
      · exact hreg r (by simpa [Option.mem_toList] using g)
    · intro r hr
      rw [heq, hr]
      simp

/-- A last step of the scan from a state that it reaches: the range found at
the step is one of the ranges of the text. -/
theorem scanReaches_last (self : LLKeywords) (ct : CType) (wtext : LLWString)
    (fresh : Bool) (p : Nat) (r : Nat × Nat) (h : ScanReaches self ct wtext fresh p)
    (hs : scanStep self ct wtext fresh p = (some r, none)) :
    r ∈ delimitedRegions self ct wtext := by
  obtain ⟨_, _, pre, n, heq, _, hn⟩ := h
  cases n with
  | zero =>
    exfalso
    cases fresh <;> simp at hn
  | succ m =>
    have hl : regionsLoop self ct wtext (m + 1) fresh p = [r] := by
      simp only [regionsLoop, hs, Option.toList]
    rw [hl] at heq
    rw [heq]
    simp

/-- At the start of a line, after the white space, a line feed: the scan
reaches the start of the next line. -/
theorem scanReaches_fresh_newline (self : LLKeywords) (ct : CType) (wtext : LLWString)
    (p : Nat) (h : ScanReaches self ct wtext true p)
    (hc : charAt wtext (firstFail (isSkippedSpace ct) wtext p) = 10) :
    ScanReaches self ct wtext true (firstFail (isSkippedSpace ct) wtext p + 1) := by
  obtain ⟨b1, b2⟩ := firstFail_bounds (isSkippedSpace ct) wtext p h.1
  have hsp := (firstFail_spec (isSkippedSpace ct) wtext p).2
  have hlt := lt_length_of_charAt_ne_zero wtext _ (by rw [hc]; norm_num)
  have hs : scanStep self ct wtext true p
      = (none, some (true, firstFail (isSkippedSpace ct) wtext p + 1)) := by
    simp [scanStep, hc]
  refine (scanReaches_step self ct wtext true p none true _ h hs (by omega) (by omega) ?_
    (fun r hr => Option.noConfusion hr) (by simp only [if_true]; omega)).1
  intro j g1 g2
  by_cases hj : j < firstFail (isSkippedSpace ct) wtext p
  · exact isSkippedSpace_ne_zero ct _ (hsp j g1 hj)
  · have : j = firstFail (isSkippedSpace ct) wtext p := by omega
    rw [this, hc]
    norm_num

/-- At the start of a line, after the white space, a line token: its range,
to the end of the line, is one of the ranges of the text, and the scan reaches
the start of the next line if there is one. -/
theorem scanReaches_fresh_token (self : LLKeywords) (ct : CType) (wtext : LLWString)
    (p : Nat) (t : LLKeywordToken) (h : ScanReaches self ct wtext true p)
    (h0 : charAt wtext (firstFail (isSkippedSpace ct) wtext p) ≠ 0)
    (h10 : charAt wtext (firstFail (isSkippedSpace ct) wtext p) ≠ 10)
    (hf : self.mLineTokenList.find?
      (fun t => t.isHead wtext (firstFail (isSkippedSpace ct) wtext p)) = some t) :
    (firstFail (isSkippedSpace ct) wtext p,
        firstFail isInLine wtext (firstFail (isSkippedSpace ct) wtext p))
      ∈ delimitedRegions self ct wtext
    ∧ (charAt wtext (firstFail isInLine wtext (firstFail (isSkippedSpace ct) wtext p)) = 10 →
      ScanReaches self ct wtext true
        (firstFail isInLine wtext (firstFail (isSkippedSpace ct) wtext p) + 1)) := by
  obtain ⟨b1, b2⟩ := firstFail_bounds (isSkippedSpace ct) wtext p h.1
  obtain ⟨c1, c2⟩ := firstFail_bounds isInLine wtext _ b2
  have hsp := (firstFail_spec (isSkippedSpace ct) wtext p).2
  have hil := (firstFail_spec isInLine wtext (firstFail (isSkippedSpace ct) wtext p)).2
  have hs : scanStep self ct wtext true p
      = (some (firstFail (isSkippedSpace ct) wtext p,
            firstFail isInLine wtext (firstFail (isSkippedSpace ct) wtext p)),
          if charAt wtext (firstFail isInLine wtext (firstFail (isSkippedSpace ct) wtext p)) = 10
          then some (true, firstFail isInLine wtext (firstFail (isSkippedSpace ct) wtext p) + 1)
          else none) := by
    simp [scanStep, h0, h10, hf]
  by_cases he : charAt wtext (firstFail isInLine wtext (firstFail (isSkippedSpace ct) wtext p))
      = 10
  · rw [if_pos he] at hs
    have hlt := lt_length_of_charAt_ne_zero wtext _ (by rw [he]; norm_num)
    obtain ⟨g1, g2⟩ := scanReaches_step self ct wtext true p _ true _ h hs (by omega)
      (by omega)
      (by
        intro j k1 k2
        by_cases hj : j < firstFail (isSkippedSpace ct) wtext p
        · exact isSkippedSpace_ne_zero ct _ (hsp j k1 hj)
        · by_cases hj2 : j < firstFail isInLine wtext (firstFail (isSkippedSpace ct) wtext p)
          · exact isInLine_ne_zero _ (hil j (by omega) hj2)
          · have : j = firstFail isInLine wtext (firstFail (isSkippedSpace ct) wtext p) := by
              omega
            rw [this, he]
            norm_num)
      (by
        intro r hr
        simp only [Option.some.injEq] at hr
        rw [← hr]
        simp)
      (by simp only [if_true]; omega)
    exact ⟨g2 _ rfl, fun _ => g1⟩
  · rw [if_neg he] at hs
    exact ⟨scanReaches_last self ct wtext true p _ h hs, fun g => absurd g he⟩

/-- At the start of a line, after the white space, no line token: the scan
goes on within the line. -/
theorem scanReaches_fresh_enter (self : LLKeywords) (ct : CType) (wtext : LLWString)
    (p : Nat) (h : ScanReaches self ct wtext true p)
    (h0 : charAt wtext (firstFail (isSkippedSpace ct) wtext p) ≠ 0)
    (h10 : charAt wtext (firstFail (isSkippedSpace ct) wtext p) ≠ 10)
    (hf : self.mLineTokenList.find?
      (fun t => t.isHead wtext (firstFail (isSkippedSpace ct) wtext p)) = none) :
    ScanReaches self ct wtext false (firstFail (isSkippedSpace ct) wtext p) := by
  obtain ⟨b1, b2⟩ := firstFail_bounds (isSkippedSpace ct) wtext p h.1
  have hsp := (firstFail_spec (isSkippedSpace ct) wtext p).2
  have hs : scanStep self ct wtext true p
      = (none, some (false, firstFail (isSkippedSpace ct) wtext p)) := by
    simp [scanStep, h0, h10, hf]
  exact (scanReaches_step self ct wtext true p none false _ h hs b2 b1
    (fun j g1 g2 => isSkippedSpace_ne_zero ct _ (hsp j g1 g2))
    (fun r hr => Option.noConfusion hr)
    (by simp only [if_true, Bool.false_eq_true, if_false]; omega)).1

/-- Within a line, a line feed: the scan reaches the start of the next
line. -/
theorem scanReaches_inner_newline (self : LLKeywords) (ct : CType) (wtext : LLWString)
    (p : Nat) (h : ScanReaches self ct wtext false p) (hc : charAt wtext p = 10) :
    ScanReaches self ct wtext true (p + 1) := by
  have hlt := lt_length_of_charAt_ne_zero wtext _ (by rw [hc]; norm_num)
  have hs : scanStep self ct wtext false p = (none, some (true, p + 1)) := by
    simp [scanStep, hc]
  refine (scanReaches_step self ct wtext false p none true _ h hs (by omega) (by omega) ?_
    (fun r hr => Option.noConfusion hr)
    (by simp only [if_true, Bool.false_eq_true, if_false]; omega)).1
  intro j g1 g2
  have : j = p := by omega
  rw [this, hc]
  norm_num

/-- Within a line, a delimiter that opens at `p`: its range is one of the
ranges of the text, and the scan goes on at its end. -/
theorem scanReaches_inner_delimiter (self : LLKeywords) (ct : CType) (wtext : LLWString)
    (p : Nat) (d : LLKeywordToken) (h : ScanReaches self ct wtext false p)
    (h0 : charAt wtext p ≠ 0) (h10 : charAt wtext p ≠ 10)
    (hf : self.mDelimiterTokenList.find? (fun d => d.isHead wtext p) = some d)
    (hlt : p < regionEnd d wtext p) (hle : regionEnd d wtext p ≤ wtext.length)
    (hnz : ∀ j, p ≤ j → j < regionEnd d wtext p → charAt wtext j ≠ 0) :
    (p, regionEnd d wtext p) ∈ delimitedRegions self ct wtext
      ∧ ScanReaches self ct wtext false (regionEnd d wtext p) := by
  have hs : scanStep self ct wtext false p
      = (some (p, regionEnd d wtext p), some (false, regionEnd d wtext p)) := by
    simp [scanStep, h0, h10, hf]
  obtain ⟨g1, g2⟩ := scanReaches_step self ct wtext false p _ false _ h hs hle (by omega) hnz
    (by
      intro r hr
      simp only [Option.some.injEq] at hr
      rw [← hr])
    (by simp only [Bool.false_eq_true, if_false]; omega)
  exact ⟨g2 _ rfl, g1⟩

/-- Within a line, a run of word characters that starts at `p`: the scan goes
on at its end. -/
theorem scanReaches_inner_word (self : LLKeywords) (ct : CType) (hct : CTypeOK ct)
    (wtext : LLWString) (p : Nat) (h : ScanReaches self ct wtext false p)
    (h0 : charAt wtext p ≠ 0) (h10 : charAt wtext p ≠ 10)
    (hf : self.mDelimiterTokenList.find? (fun d => d.isHead wtext p) = none)
    (hprev : p = 0 ∨ isWordChar ct (charAt wtext (p - 1)) = false)
    (hlt : p < firstFail (isWordChar ct) wtext p) :
    ScanReaches self ct wtext false (firstFail (isWordChar ct) wtext p) := by
  obtain ⟨b1, b2⟩ := firstFail_bounds (isWordChar ct) wtext p h.1
  have hw := (firstFail_spec (isWordChar ct) wtext p).2
  have hs : scanStep self ct wtext false p
      = (none, some (false, firstFail (isWordChar ct) wtext p)) := by
    simp only [scanStep, Bool.false_eq_true, if_false, h0, h10, hf]
    rw [if_pos ⟨hprev, hlt⟩]
  refine (scanReaches_step self ct wtext false p none false _ h hs b2 b1 ?_
    (fun r hr => Option.noConfusion hr)
    (by simp only [Bool.false_eq_true, if_false]; omega)).1
  intro j g1 g2 hz
  have := hw j g1 g2
  rw [hz, isWordChar_zero ct hct] at this
  exact Bool.noConfusion this

/-- Within a line, a character at which neither a delimiter opens nor a word
starts: the scan goes on at the next character. -/
theorem scanReaches_inner_char (self : LLKeywords) (ct : CType) (wtext : LLWString)
    (p : Nat) (h : ScanReaches self ct wtext false p)
    (h0 : charAt wtext p ≠ 0) (h10 : charAt wtext p ≠ 10)
    (hf : self.mDelimiterTokenList.find? (fun d => d.isHead wtext p) = none)
    (hno : ¬ ((p = 0 ∨ isWordChar ct (charAt wtext (p - 1)) = false)
      ∧ p < firstFail (isWordChar ct) wtext p)) :
    ScanReaches self ct wtext false (p + 1) := by
  have hlt := lt_length_of_charAt_ne_zero wtext _ h0
  have hs : scanStep self ct wtext false p = (none, some (false, p + 1)) := by
    simp only [scanStep, Bool.false_eq_true, if_false, h0, h10, hf]
    rw [if_neg hno]
  refine (scanReaches_step self ct wtext false p none false _ h hs (by omega) (by omega) ?_
    (fun r hr => Option.noConfusion hr)
    (by simp only [Bool.false_eq_true, if_false]; omega)).1
  intro j g1 g2
  have : j = p := by omega
  rw [this]
  exact h0

theorem regionEnd_ge (d : LLKeywordToken) (wtext : LLWString) (a : Nat) :
    a ≤ regionEnd d wtext a := by
  unfold regionEnd
  simp only []
  split
  · have := (firstPos_spec (fun j => charAt wtext j == 0 || d.isTail wtext j)
      (wtext.length - (a + d.mToken.length)) (a + d.mToken.length)).1
    split <;> omega
  · split
    · have := (firstPos_spec (fun j => charAt wtext j == 0
        || (d.isTail wtext j && backslashRun wtext j % 2 == 0))
        (wtext.length - (a + d.mToken.length)) (a + d.mToken.length)).1
      split <;> omega
    · have := (firstFail_spec isInLine wtext (a + d.mToken.length)).1
      omega

/-- A step of the scan does not go back: the range it finds and the state
after it lie at or after the position of the step. -/
theorem scanStep_mono (self : LLKeywords) (ct : CType) (wtext : LLWString) (fresh : Bool)
    (p : Nat) :
    (∀ r, (scanStep self ct wtext fresh p).1 = some r → p ≤ r.1)
      ∧ (∀ f q, (scanStep self ct wtext fresh p).2 = some (f, q) → p ≤ q) := by
  have hsp := (firstFail_spec (isSkippedSpace ct) wtext p).1
  have hil := (firstFail_spec isInLine wtext (firstFail (isSkippedSpace ct) wtext p)).1
  have hw := (firstFail_spec (isWordChar ct) wtext p).1
  cases fresh with
  | true =>
    simp only [scanStep, if_true]
    split
    · exact ⟨fun r hr => Option.noConfusion hr, fun f q hq => Option.noConfusion hq⟩
    · split
      · refine ⟨fun r hr => Option.noConfusion hr, ?_⟩
        intro f q hq
        simp only [Option.some.injEq, Prod.mk.injEq] at hq
        omega
      · split
        · refine ⟨?_, ?_⟩
          · intro r hr
            simp only [Option.some.injEq] at hr
            rw [← hr]
            exact hsp
          · intro f q hq
            split at hq
            · simp only [Option.some.injEq, Prod.mk.injEq] at hq
              omega
            · exact Option.noConfusion hq
        · refine ⟨fun r hr => Option.noConfusion hr, ?_⟩
          intro f q hq
          simp only [Option.some.injEq, Prod.mk.injEq] at hq
          omega
  | false =>
    simp only [scanStep, Bool.false_eq_true, if_false]
    split
    · exact ⟨fun r hr => Option.noConfusion hr, fun f q hq => Option.noConfusion hq⟩
    · split
      · refine ⟨fun r hr => Option.noConfusion hr, ?_⟩
        intro f q hq
        simp only [Option.some.injEq, Prod.mk.injEq] at hq
        omega
      · split
        · rename_i d _
          have := regionEnd_ge d wtext p
          refine ⟨?_, ?_⟩
          · intro r hr
            simp only [Option.some.injEq] at hr
            rw [← hr]
          · intro f q hq
            simp only [Option.some.injEq, Prod.mk.injEq] at hq
            omega
        · split
          · refine ⟨fun r hr => Option.noConfusion hr, ?_⟩
            intro f q hq
            simp only [Option.some.injEq, Prod.mk.injEq] at hq
            omega
          · refine ⟨fun r hr => Option.noConfusion hr, ?_⟩
            intro f q hq
            simp only [Option.some.injEq, Prod.mk.injEq] at hq
            omega

/-- The ranges that the scan finds from a state on start at or after its
position. -/
theorem regionsLoop_ge (self : LLKeywords) (ct : CType) (wtext : LLWString) (n : Nat)
    (fresh : Bool) (p : Nat) :
    ∀ r ∈ regionsLoop self ct wtext n fresh p, p ≤ r.1 := by
  induction n generalizing fresh p with
  | zero =>
    intro r hr
    simp [regionsLoop] at hr
  | succ n ih =>
    intro r hr
    obtain ⟨m1, m2⟩ := scanStep_mono self ct wtext fresh p
    cases hs : scanStep self ct wtext fresh p with
    | mk region next =>
      rw [hs] at m1 m2
      cases next with
      | none =>
        simp only [regionsLoop, hs, Option.mem_toList, Option.mem_def] at hr
        exact m1 r hr
      | some st =>
        obtain ⟨f, q⟩ := st
        simp only [regionsLoop, hs, List.mem_append, Option.mem_toList, Option.mem_def] at hr
        rcases hr with g | g
        · exact m1 r g
        · have := ih f q r g
          have := m2 f q rfl
          omega

/-- A run of word characters that the scan passes lies outside the ranges of
the text. -/
theorem inRegion_word (self : LLKeywords) (ct : CType) (wtext : LLWString)
    (p : Nat) (h : ScanReaches self ct wtext false p)
    (h0 : charAt wtext p ≠ 0) (h10 : charAt wtext p ≠ 10)
    (hf : self.mDelimiterTokenList.find? (fun d => d.isHead wtext p) = none)
    (hprev : p = 0 ∨ isWordChar ct (charAt wtext (p - 1)) = false)
    (hlt : p < firstFail (isWordChar ct) wtext p) :
    ∀ j, p ≤ j → j < firstFail (isWordChar ct) wtext p → inRegion self ct wtext j = false := by
  have hs : scanStep self ct wtext false p
      = (none, some (false, firstFail (isWordChar ct) wtext p)) := by
    simp only [scanStep, Bool.false_eq_true, if_false, h0, h10, hf]
    rw [if_pos ⟨hprev, hlt⟩]
  obtain ⟨_, _, pre, n, heq, hpre, hn⟩ := h
  cases n with
  | zero => simp at hn
  | succ m =>
    have hl : regionsLoop self ct wtext (m + 1) false p
        = regionsLoop self ct wtext m false (firstFail (isWordChar ct) wtext p) := by
      simp only [regionsLoop, hs, Option.toList, List.nil_append]
    rw [hl] at heq
    intro j g1 g2
    unfold inRegion
    rw [heq, List.any_eq_false]
    intro r hr
    rcases List.mem_append.mp hr with g | g
    · have := hpre r g
      simp only [Bool.and_eq_true, decide_eq_true_eq, not_and, not_lt]
      intro _
      omega
    · have := regionsLoop_ge self ct wtext m false _ r g
      simp only [Bool.and_eq_true, decide_eq_true_eq, not_and, not_lt]
      intro _
      omega

/-- The loop of `insertSegments` adds segments within the range that is left
to insert only. -/
theorem insertSegmentsLoop_range (wtext : LLWString) (tok : LLKeywordToken)
    (text_len seg_end : Nat) (hle : seg_end < text_len) (fuel : Nat)
    (segs : List LLTextSegment) (seg_start : Nat) (pos : Option Nat)
    (hpos : ∀ p, pos = some p → seg_start ≤ p) (hse : seg_start ≤ seg_end)
    (hl : LastUntokened segs) (r : List LLTextSegment) (s : Nat)
    (h : insertSegmentsLoop wtext tok text_len seg_end fuel segs seg_start pos = some (r, s)) :
    LastUntokened r ∧ seg_start ≤ s ∧ s ≤ seg_end
      ∧ (∀ x : LLTextSegment, x.mToken ≠ none → x ∈ r →
          x ∈ segs ∨ (seg_start ≤ x.mStart ∧ x.mEnd ≤ seg_end)) := by
  induction fuel generalizing segs seg_start pos with
  | zero => simp [insertSegmentsLoop] at h
  | succ fuel ih =>
    cases pos with
    | none =>
      simp only [insertSegmentsLoop, Option.some.injEq, Prod.mk.injEq] at h
      obtain ⟨h1, h2⟩ := h
      subst h1; subst h2
      exact ⟨hl, le_refl _, hse, fun _ _ hx => Or.inl hx⟩
    | some p =>
      have hp := hpos p rfl
      simp only [insertSegmentsLoop] at h
      by_cases hlt : p < seg_end
      · rw [if_pos hlt] at h
        have h1 : ∃ r1, (if p ≠ seg_start then
            insertSegment segs ((LLNormalTextSegment seg_start p).setToken (some tok)) text_len
            else some segs) = some r1 ∧ LastUntokened r1
            ∧ (∀ x : LLTextSegment, x.mToken ≠ none → x ∈ r1 →
                x ∈ segs ∨ (seg_start ≤ x.mStart ∧ x.mEnd ≤ seg_end)) := by
          by_cases hps : p ≠ seg_start
          · rw [if_pos hps]
            obtain ⟨r1, e1, l1, f1⟩ := insertSegment_frame segs
              ((LLNormalTextSegment seg_start p).setToken (some tok)) text_len hl
              (by simp only [LLTextSegment.setToken, LLNormalTextSegment]; omega)
            refine ⟨r1, e1, l1, ?_⟩
            intro x hx hm
            rcases (f1 x hx).mp hm with g | g
            · exact Or.inl g
            · right
              rw [g]
              simp only [LLTextSegment.setToken, LLNormalTextSegment]
              omega
          · rw [if_neg hps]
            exact ⟨segs, rfl, hl, fun _ _ hx => Or.inl hx⟩
        obtain ⟨r1, e1, l1, k1⟩ := h1
        rw [e1] at h
        obtain ⟨r2, e2, l2, f2⟩ := insertSegment_frame r1
          ((LLLineBreakTextSegment p).setToken (some tok)) text_len l1
          (by simp only [LLTextSegment.setToken, LLLineBreakTextSegment]; omega)
        simp only [e2] at h
        obtain ⟨m1, m2, m3, m4⟩ := ih r2 (p + 1) _
          (fun q hq => wtext_find_ge _ _ _ _ hq) (by omega) l2 h
        refine ⟨m1, by omega, m3, ?_⟩
        intro x hx hm
        rcases m4 x hx hm with g | g
        · rcases (f2 x hx).mp g with g2 | g2
          · exact k1 x hx g2
          · right
            rw [g2]
            simp only [LLTextSegment.setToken, LLLineBreakTextSegment]
            omega
        · right
          omega
      · rw [if_neg hlt] at h
        simp only [Option.some.injEq, Prod.mk.injEq] at h
        obtain ⟨h1, h2⟩ := h
        subst h1; subst h2
        exact ⟨hl, le_refl _, hse, fun _ _ hx => Or.inl hx⟩

/-- The member `insertSegments` adds segments within its range only. -/
theorem insertSegments_range (wtext : LLWString) (segs : List LLTextSegment)
    (tok : LLKeywordToken) (text_len seg_start seg_end : Nat) (hle : seg_end < text_len)
    (hse : seg_start ≤ seg_end) (hl : LastUntokened segs) (r : List LLTextSegment)
    (h : insertSegments wtext segs tok text_len seg_start seg_end = some r) :
    ∀ x : LLTextSegment, x.mToken ≠ none → x ∈ r →
      x ∈ segs ∨ (seg_start ≤ x.mStart ∧ x.mEnd ≤ seg_end) := by
  simp only [insertSegments] at h
  cases hloop : insertSegmentsLoop wtext tok text_len seg_end (seg_end + 1) segs seg_start
      (wtext_find wtext 10 seg_start) with
  | none => rw [hloop] at h; exact Option.noConfusion h
  | some res =>
    obtain ⟨r1, s⟩ := res
    rw [hloop] at h
    simp only [] at h
    obtain ⟨m1, m2, m3, m4⟩ := insertSegmentsLoop_range wtext tok text_len seg_end hle
      (seg_end + 1) segs seg_start _ (fun q hq => wtext_find_ge _ _ _ _ hq) hse hl r1 s hloop
    obtain ⟨r2, e2, l2, f2⟩ := insertSegment_frame r1
      ((LLNormalTextSegment s seg_end).setToken (some tok)) text_len m1
      (by simp only [LLTextSegment.setToken, LLNormalTextSegment]; omega)
    rw [e2] at h
    have hr : r2 = r := by simpa using h
    subst hr
    intro x hx hm
    rcases (f2 x hx).mp hm with g | g
    · exact m4 x hx g
    · right
      rw [g]
      simp only [LLTextSegment.setToken, LLNormalTextSegment]
      omega

/-- A segment without token does not touch the invariant of the comments and
string literals. -/
theorem regionInv_insert_plain (self : LLKeywords) (ct : CType) (wtext : LLWString)
    (text_len : Nat) (segs r : List LLTextSegment) (new_segment : LLTextSegment)
    (h : RegionInv self ct wtext segs) (htok : new_segment.mToken = none)
    (hend : new_segment.mEnd < text_len)
    (hr : insertSegment segs new_segment text_len = some r) :
    RegionInv self ct wtext r := by
  obtain ⟨h1, h2, h3⟩ := h
  obtain ⟨r2, e2, l2, f2⟩ := insertSegment_frame segs new_segment text_len h1 hend
  rw [e2] at hr
  have : r2 = r := by simpa using hr
  subst this
  refine ⟨l2, ?_, ?_⟩
  · intro x hx d hd hty
    have hxt : x.mToken ≠ none := by rw [hd]; exact Option.some_ne_none _
    rcases (f2 x hxt).mp hx with g | g
    · exact h2 x g d hd hty
    · rw [g, htok] at hd
      exact Option.noConfusion hd
  · intro x hx d hd hty
    have hxt : x.mToken ≠ none := by rw [hd]; exact Option.some_ne_none _
    rcases (f2 x hxt).mp hx with g | g
    · exact h3 x g d hd hty
    · rw [g, htok] at hd
      exact Option.noConfusion hd

/-- The segments of a comment, a string literal or a line token lie within
its range, which is one of the ranges of the text. -/
theorem regionInv_region (self : LLKeywords) (ct : CType) (wtext : LLWString)
    (text_len a b : Nat) (segs r : List LLTextSegment) (tok : LLKeywordToken)
    (h : RegionInv self ct wtext segs) (htok : isWordType tok.mType = false)
    (hend : b < text_len) (hab : a ≤ b)
    (hreg : (a, b) ∈ delimitedRegions self ct wtext)
    (hr : insertSegments wtext segs tok text_len a b = some r) :
    RegionInv self ct wtext r := by
  obtain ⟨h1, h2, h3⟩ := h
  obtain ⟨l2, _, k2, _⟩ := insertSegments_frame wtext segs tok text_len a b hend h1 r hr
  have hrange := insertSegments_range wtext segs tok text_len a b hend hab h1 r hr
  refine ⟨l2, ?_, ?_⟩
  · intro x hx d hd hty
    have hxt : x.mToken ≠ none := by rw [hd]; exact Option.some_ne_none _
    rcases hrange x hxt hx with g | g
    · exact h2 x g d hd hty
    · exact ⟨(a, b), hreg, g.1, g.2⟩
  · intro x hx t ht hty
    have hxt : x.mToken ≠ none := by rw [ht]; exact Option.some_ne_none _
    rcases k2 x hxt hx with g | g
    · exact h3 x g t ht hty
    · rw [g] at ht
      have : tok = t := by simpa using ht
      rw [this, hty] at htok
      exact Bool.noConfusion htok

/-- The segment of a word that starts outside the ranges of the text, with no
character `0` up to its start, keeps the invariant of the comments and string
literals. -/
theorem regionInv_word (self : LLKeywords) (ct : CType) (wtext : LLWString)
    (text_len a b : Nat) (segs r : List LLTextSegment) (tok : LLKeywordToken)
    (h : RegionInv self ct wtext segs) (hty : isWordType tok.mType = true)
    (hend : b < text_len)
    (hnl : ∀ j, a ≤ j → j < b → charAt wtext j ≠ 10)
    (hout : inRegion self ct wtext a = false) (hnz : ∀ j, j ≤ a → charAt wtext j ≠ 0)
    (hr : insertSegments wtext segs tok text_len a b = some r) :
    RegionInv self ct wtext r := by
  obtain ⟨h1, h2, h3⟩ := h
  rw [insertSegments_single wtext segs tok text_len a b hnl] at hr
  obtain ⟨r2, e2, l2, f2⟩ := insertSegment_frame segs
    ((LLNormalTextSegment a b).setToken (some tok)) text_len h1
    (by simp only [LLTextSegment.setToken, LLNormalTextSegment]; exact hend)
  rw [e2] at hr
  have : r2 = r := by simpa using hr
  subst this
  refine ⟨l2, ?_, ?_⟩
  · intro x hx d hd hty2
    have hxt : x.mToken ≠ none := by rw [hd]; exact Option.some_ne_none _
    rcases (f2 x hxt).mp hx with g | g
    · exact h2 x g d hd hty2
    · rw [g] at hd
      simp only [LLTextSegment.setToken, LLNormalTextSegment, Option.some.injEq] at hd
      rw [hd, hty2] at hty
      exact Bool.noConfusion hty
  · intro x hx t ht hty2
    have hxt : x.mToken ≠ none := by rw [ht]; exact Option.some_ne_none _
    rcases (f2 x hxt).mp hx with g | g
    · exact h3 x g t ht hty2
    · rw [g]
      exact ⟨hout, hnz⟩

/-- The test of the character before `cur` in the inner loop of `findSegments`:
it holds exactly when `cur` is the start of the text or the character before
it is not a word character. -/
theorem prev_test_iff (ct : CType) (hct : CTypeOK ct) (wtext : LLWString) (cur : Nat) :
    (!ct.iswalnum (if cur > 0 then charAt wtext (cur - 1) else 0)
        && (if cur > 0 then charAt wtext (cur - 1) else 0) != 95
        && (if cur > 0 then charAt wtext (cur - 1) else 0) != 35) = true
      ↔ (cur = 0 ∨ isWordChar ct (charAt wtext (cur - 1)) = false) := by
  by_cases h0 : cur = 0
  · subst h0
    simp [hct.1]
  · have hpos : cur > 0 := by omega
    simp only [hpos, if_true, h0, false_or, isWordChar, Bool.and_eq_true, Bool.not_eq_true',
      bne_iff_ne, ne_eq, Bool.or_eq_false_iff, beq_eq_false_iff_ne]

/-- The position at which the word loop stops is the end of the run of word
characters. -/
theorem word_scan_eq (ct : CType) (hct : CTypeOK ct) (wtext : LLWString) (cur p : Nat)
    (h1 : cur ≤ p) (h2 : p ≤ wtext.length)
    (h3 : isWordLoopChar ct (charAt wtext p) = false)
    (h4 : ∀ j, cur ≤ j → j < p → isWordLoopChar ct (charAt wtext j) = true) :
    firstFail (isWordChar ct) wtext cur = p := by
  apply firstFail_eq _ _ _ _ h1 h2
  · rw [isWordLoopChar_eq] at h3
    simp only [Bool.and_eq_false_iff, bne_eq_false_iff_eq] at h3
    rcases h3 with g | g
    · rw [g]
      exact isWordChar_zero ct hct
    · exact g
  · intro j g1 g2
    have := h4 j g1 g2
    rw [isWordLoopChar_eq] at this
    simp only [Bool.and_eq_true] at this
    exact this.2

/-- The token that the lookup in the word token map finds has a word type. -/
theorem wordTokenMapFind_type (self : LLKeywords)
    (hmap : ∀ e ∈ self.mWordTokenMap, isWordType e.2.mType = true) (word : WStringMapIndex)
    (tk : LLKeywordToken) (hw : wordTokenMapFind self.mWordTokenMap word = some tk) :
    isWordType tk.mType = true := by
  unfold wordTokenMapFind at hw
  cases hfe : List.find? (fun e => !e.1.operator_lt word && !word.operator_lt e.1)
      self.mWordTokenMap with
  | none => rw [hfe] at hw; exact Option.noConfusion hw
  | some en =>
    rw [hfe] at hw
    simp only [Option.map_some', Option.some.injEq] at hw
    rw [← hw]
    exact hmap en (List.mem_of_find?_eq_some hfe)

/-- The inner loop of `findSegments` follows the scan of the text for comments
and string literals: the segments it adds for delimiters lie within the ranges
of the text, and it stops where the scan starts a new line or ends. -/
theorem lineLoop_regions (self : LLKeywords)
    (hdel : ∀ d ∈ self.mDelimiterTokenList, d ∈ standardDelimiters)
    (hmap : ∀ e ∈ self.mWordTokenMap, isWordType e.2.mType = true)
    (ct : CType) (hct : CTypeOK ct) (wtext : LLWString)
    (text_len : Nat) (hL : text_len = wtext.length + 1)
    (fuel cur : Nat) (seg_list : List LLTextSegment) (hcur : cur ≤ wtext.length)
    (hfuel : wtext.length + 3 ≤ cur + fuel)
    (hscan : ScanReaches self ct wtext false cur)
    (hinv : RegionInv self ct wtext seg_list) (c : Nat) (r : List LLTextSegment)
    (h : lineLoop self ct wtext text_len fuel cur seg_list = some (c, r)) :
    RegionInv self ct wtext r ∧ OuterInv self ct wtext c := by
  induction fuel generalizing cur seg_list with
  | zero => omega
  | succ fuel ih =>
    simp only [lineLoop] at h
    by_cases hc : (charAt wtext cur != 0 && charAt wtext cur != 10) = true
    · rw [if_pos hc] at h
      have hc2 := hc
      simp only [Bool.and_eq_true, bne_iff_ne, ne_eq] at hc2
      have hlt : cur < wtext.length := lt_length_of_charAt_ne_zero wtext cur hc2.1
      cases hfind : self.mDelimiterTokenList.find? (fun delimiter => delimiter.isHead wtext cur) with
      | some d =>
        rw [hfind] at h
        simp only [] at h
        have hmem := List.mem_of_find?_eq_some hfind
        have hhead := List.find?_some hfind
        obtain ⟨b1, b2, bnz, e⟩ := delimiterSegment_standard wtext text_len d (hdel d hmem) fuel
          cur seg_list hhead hcur (by omega)
        rw [e] at h
        cases hins : insertSegments wtext seg_list d text_len cur (regionEnd d wtext cur) with
        | none => rw [hins] at h; exact Option.noConfusion h
        | some r1 =>
          rw [hins] at h
          simp only [Option.map_some'] at h
          obtain ⟨g1, g2⟩ := scanReaches_inner_delimiter self ct wtext cur d hscan hc2.1 hc2.2
            hfind b1 b2 bnz
          have hinv1 := regionInv_region self ct wtext text_len cur (regionEnd d wtext cur)
            seg_list r1 d hinv (standardDelimiters_not_word d (hdel d hmem)) (by omega)
            (by omega) g1 hins
          exact ih (regionEnd d wtext cur) r1 b2 (by omega) g2 hinv1 h
      | none =>
        rw [hfind] at h
        simp only [] at h
        have hstep : ∀ (hno : ¬ ((cur = 0 ∨ isWordChar ct (charAt wtext (cur - 1)) = false)
              ∧ cur < firstFail (isWordChar ct) wtext cur)),
            (if (charAt wtext cur != 0 && charAt wtext cur != 10) = true then
              lineLoop self ct wtext text_len fuel (cur + 1) seg_list
              else lineLoop self ct wtext text_len fuel cur seg_list) = some (c, r) →
            RegionInv self ct wtext r ∧ OuterInv self ct wtext c := by
          intro hno h2
          rw [if_pos hc] at h2
          have hs1 := scanReaches_inner_char self ct wtext cur hscan hc2.1 hc2.2 hfind hno
          exact ih (cur + 1) seg_list (by omega) (by omega) hs1 hinv h2
        by_cases hprev : (!ct.iswalnum (if cur > 0 then charAt wtext (cur - 1) else 0)
            && (if cur > 0 then charAt wtext (cur - 1) else 0) != 95
            && (if cur > 0 then charAt wtext (cur - 1) else 0) != 35) = true
        · rw [if_pos hprev] at h
          obtain ⟨p, e, h1, h2, h3, h4⟩ := scanWhile_spec (isWordLoopChar ct)
            (isWordLoopChar_zero ct) wtext fuel cur hcur (by omega)
          have hp := word_scan_eq ct hct wtext cur p h1 h2 h3 h4
          rw [e] at h
          simp only [] at h
          by_cases hlen : p - cur > 0
          · rw [if_pos hlen] at h
            have hcp : cur < p := by omega
            have hsum : cur + (p - cur) = p := by omega
            rw [hsum] at h
            have hs1 : ScanReaches self ct wtext false p := by
              have := scanReaches_inner_word self ct hct wtext cur hscan hc2.1 hc2.2 hfind
                ((prev_test_iff ct hct wtext cur).mp hprev) (by rw [hp]; exact hcp)
              rw [hp] at this
              exact this
            have hout : inRegion self ct wtext cur = false :=
              inRegion_word self ct wtext cur hscan hc2.1 hc2.2 hfind
                ((prev_test_iff ct hct wtext cur).mp hprev) (by rw [hp]; exact hcp) cur
                (le_refl _) (by rw [hp]; exact hcp)
            have hnz : ∀ j, j ≤ cur → charAt wtext j ≠ 0 := by
              intro j hj
              by_cases hjc : j = cur
              · rw [hjc]
                exact hc2.1
              · exact hscan.2.1 j (by omega)
            have hnl : ∀ j, cur ≤ j → j < p → charAt wtext j ≠ 10 := by
              intro j k1 k2 hcon
              have := h4 j k1 k2
              rw [isWordLoopChar_eq, hcon, isWordChar_linefeed ct hct] at this
              simp at this
            cases hw : wordTokenMapFind self.mWordTokenMap
                (WStringMapIndex.ofRange (List.take (p - cur) (List.drop cur wtext))) with
            | some tk =>
              rw [hw] at h
              simp only [] at h
              have hty := wordTokenMapFind_type self hmap _ tk hw
              cases hins : insertSegments wtext seg_list tk text_len cur p with
              | none => rw [hins] at h; exact Option.noConfusion h
              | some r1 =>
                rw [hins] at h
                simp only [] at h
                have hinv1 := regionInv_word self ct wtext text_len cur p seg_list r1 tk hinv
                  hty (by omega) hnl hout hnz hins
                exact ih p r1 h2 (by omega) hs1 hinv1 h
            | none =>
              rw [hw] at h
              simp only [] at h
              exact ih p seg_list h2 (by omega) hs1 hinv h
          · rw [if_neg hlen] at h
            apply hstep _ h
            rw [hp]
            intro hcon
            omega
        · rw [if_neg hprev] at h
          apply hstep _ h
          intro hcon
          exact hprev ((prev_test_iff ct hct wtext cur).mpr hcon.1)
    · rw [if_neg hc] at h
      simp only [Option.some.injEq, Prod.mk.injEq] at h
      obtain ⟨h1, h2⟩ := h
      subst h1; subst h2
      refine ⟨hinv, ?_⟩
      by_cases hz : charAt wtext cur = 0
      · exact Or.inl hz
      · have h10 : charAt wtext cur = 10 := by
          by_contra hn
          apply hc
          simp [hz, hn]
        right
        refine ⟨Or.inl h10, ?_⟩
        rw [if_pos h10]
        exact scanReaches_inner_newline self ct wtext cur hscan h10

theorem outerInv_of_line_end (self : LLKeywords) (ct : CType) (wtext : LLWString) (c : Nat)
    (hc : charAt wtext c = 0 ∨ charAt wtext c = 10)
    (hs : charAt wtext c = 10 → ScanReaches self ct wtext true (c + 1)) :
    OuterInv self ct wtext c := by
  by_cases hz : charAt wtext c = 0
  · exact Or.inl hz
  · have h10 : charAt wtext c = 10 := by
      rcases hc with g | g
      · exact absurd g hz
      · exact g
    right
    refine ⟨Or.inl h10, ?_⟩
    rw [if_pos h10]
    exact hs h10

/-- The second part of the block at the start of a line follows the scan of the
text: the segments of a line token lie within a range of the text, and the
block leaves where the scan starts a new line, ends, or goes on within the
line. -/
theorem lineStart_rest_regions (self : LLKeywords)
    (hline : ∀ t ∈ self.mLineTokenList, isWordType t.mType = false)
    (ct : CType) (wtext : LLWString) (text_len : Nat) (hL : text_len = wtext.length + 1) (fuel c0 : Nat)
    (r0 : List LLTextSegment) (hc0n : c0 ≤ wtext.length)
    (hfuel : wtext.length + 3 ≤ c0 + fuel)
    (hscan : ScanReaches self ct wtext true c0)
    (hinv : RegionInv self ct wtext r0) (flag : Bool) (c : Nat) (r : List LLTextSegment)
    (h : (match scanWhile (isSkippedSpace ct) wtext fuel c0 with
        | none => none
        | some cur =>
          if (charAt wtext cur = 0 || charAt wtext cur = 10) then some (true, cur, r0)
          else
            match self.mLineTokenList.find? (fun cur_token => cur_token.isHead wtext cur) with
            | some cur_token =>
              match scanWhile isInLine wtext fuel cur with
              | none => none
              | some cur2 =>
                match insertSegments wtext r0 cur_token text_len cur cur2 with
                | none => none
                | some seg_list => some (true, cur2, seg_list)
            | none => some (false, cur, r0)) = some (flag, c, r)) :
    RegionInv self ct wtext r
      ∧ (flag = true → OuterInv self ct wtext c)
      ∧ (flag = false → ScanReaches self ct wtext false c
          ∧ isSkippedSpace ct (charAt wtext c) = false) := by
  obtain ⟨c1, e1, h1, h2, h3, h4⟩ := scanWhile_spec (isSkippedSpace ct) (isSkippedSpace_zero ct)
    wtext fuel c0 hc0n (by omega)
  have hc1 := firstFail_eq (isSkippedSpace ct) wtext c0 c1 h1 h2 h3 h4
  rw [e1] at h
  simp only [] at h
  by_cases hz : (decide (charAt wtext c1 = 0) || decide (charAt wtext c1 = 10)) = true
  · rw [if_pos hz] at h
    simp only [Option.some.injEq, Prod.mk.injEq] at h
    obtain ⟨g1, g2, g3⟩ := h
    subst g1; subst g2; subst g3
    refine ⟨hinv, fun _ => ?_, fun hf => Bool.noConfusion hf⟩
    apply outerInv_of_line_end
    · simpa using hz
    · intro h10
      have := scanReaches_fresh_newline self ct wtext c0 hscan (by rw [hc1]; exact h10)
      rw [hc1] at this
      exact this
  · rw [if_neg hz] at h
    have hz2 : charAt wtext c1 ≠ 0 ∧ charAt wtext c1 ≠ 10 := by
      simpa [not_or] using hz
    cases hfind : self.mLineTokenList.find? (fun cur_token => cur_token.isHead wtext c1) with
    | some tk =>
      rw [hfind] at h
      simp only [] at h
      obtain ⟨c2, e2, g1, g2, g3, g4⟩ := scanWhile_spec isInLine isInLine_zero wtext fuel c1 h2
        (by omega)
      have hc2 := firstFail_eq isInLine wtext c1 c2 g1 g2 g3 g4
      rw [e2] at h
      simp only [] at h
      cases hins : insertSegments wtext r0 tk text_len c1 c2 with
      | none => rw [hins] at h; exact Option.noConfusion h
      | some r1 =>
        rw [hins] at h
        simp only [Option.some.injEq, Prod.mk.injEq] at h
        obtain ⟨k1, k2, k3⟩ := h
        subst k1; subst k2; subst k3
        have hreg := scanReaches_fresh_token self ct wtext c0 tk hscan
          (by rw [hc1]; exact hz2.1) (by rw [hc1]; exact hz2.2) (by rw [hc1]; exact hfind)
        rw [hc1, hc2] at hreg
        refine ⟨regionInv_region self ct wtext text_len c1 c2 r0 r1 tk hinv
          (hline tk (List.mem_of_find?_eq_some hfind)) (by omega) g1 hreg.1 hins,
          fun _ => ?_, fun hf => Bool.noConfusion hf⟩
        apply outerInv_of_line_end
        · cases hi : isInLine (charAt wtext c2) with
          | true => rw [hi] at g3; exact Bool.noConfusion g3
          | false =>
            by_contra hcon
            rw [not_or] at hcon
            have := (isInLine_iff (charAt wtext c2)).mpr hcon
            rw [hi] at this
            exact Bool.noConfusion this
        · exact hreg.2
    | none =>
      rw [hfind] at h
      simp only [Option.some.injEq, Prod.mk.injEq] at h
      obtain ⟨g1, g2, g3⟩ := h
      subst g1; subst g2; subst g3
      refine ⟨hinv, fun hf => Bool.noConfusion hf, fun _ => ⟨?_, h3⟩⟩
      have := scanReaches_fresh_enter self ct wtext c0 hscan
        (by rw [hc1]; exact hz2.1) (by rw [hc1]; exact hz2.2) (by rw [hc1]; exact hfind)
      rw [hc1] at this
      exact this

/-- The block at the start of a line follows the scan of the text. -/
theorem lineStart_regions (self : LLKeywords)
    (hline : ∀ t ∈ self.mLineTokenList, isWordType t.mType = false)
    (ct : CType) (wtext : LLWString) (text_len : Nat) (hL : text_len = wtext.length + 1) (fuel cur : Nat)
    (seg_list : List LLTextSegment) (hcur : charAt wtext cur ≠ 0)
    (hfuel : wtext.length + 3 ≤ cur + fuel)
    (hout : OuterInv self ct wtext cur)
    (hinv : RegionInv self ct wtext seg_list) (flag : Bool) (c : Nat)
    (r : List LLTextSegment)
    (h : lineStart self ct wtext text_len fuel cur seg_list = some (flag, c, r)) :
    RegionInv self ct wtext r
      ∧ (flag = true → OuterInv self ct wtext c)
      ∧ (flag = false → ScanReaches self ct wtext false c
          ∧ isSkippedSpace ct (charAt wtext c) = false) := by
  have hlt : cur < wtext.length := lt_length_of_charAt_ne_zero wtext cur hcur
  have hfresh : ScanReaches self ct wtext true (if charAt wtext cur = 10 then cur + 1 else cur) := by
    rcases hout with g | g
    · exact absurd g hcur
    · exact g.2
  unfold lineStart at h
  by_cases hnl : charAt wtext cur = 10
  · rw [if_pos hnl] at h
    rw [if_pos hnl] at hfresh
    cases hins : insertSegment seg_list ((LLLineBreakTextSegment cur).setToken none) text_len with
    | none => rw [hins] at h; exact Option.noConfusion h
    | some r1 =>
      rw [hins] at h
      simp only [] at h
      have hinv1 := regionInv_insert_plain self ct wtext text_len seg_list r1 _ hinv rfl
        (by simp only [LLTextSegment.setToken, LLLineBreakTextSegment]; omega) hins
      by_cases hz : (decide (charAt wtext (cur + 1) = 0) || decide (charAt wtext (cur + 1) = 10))
          = true
      · rw [if_pos hz] at h
        simp only [Option.some.injEq, Prod.mk.injEq] at h
        obtain ⟨g1, g2, g3⟩ := h
        subst g1; subst g2; subst g3
        refine ⟨hinv1, fun _ => ?_, fun hf => Bool.noConfusion hf⟩
        apply outerInv_of_line_end
        · simpa using hz
        · intro h10
          have hff : firstFail (isSkippedSpace ct) wtext (cur + 1) = cur + 1 := by
            apply firstFail_eq _ _ _ _ (le_refl _) (by omega)
            · rw [h10]
              simp [isSkippedSpace]
            · intro j k1 k2
              omega
          have := scanReaches_fresh_newline self ct wtext (cur + 1) hfresh
            (by rw [hff]; exact h10)
          rw [hff] at this
          exact this
      · rw [if_neg hz] at h
        simp only [] at h
        exact lineStart_rest_regions self hline ct wtext text_len hL fuel (cur + 1) r1
          (by omega) (by omega) hfresh hinv1 flag c r h
  · rw [if_neg hnl] at h
    rw [if_neg hnl] at hfresh
    simp only [] at h
    exact lineStart_rest_regions self hline ct wtext text_len hL fuel cur seg_list
      (by omega) (by omega) hfresh hinv flag c r h

/-- The outer loop of `findSegments` follows the scan of the text for comments,
string literals and line tokens: every segment of the result whose token is not
a word token lies within one of the ranges of the text. -/
theorem findSegmentsLoop_regions (self : LLKeywords)
    (hdel : ∀ d ∈ self.mDelimiterTokenList, d ∈ standardDelimiters)
    (hline : ∀ t ∈ self.mLineTokenList, isWordType t.mType = false)
    (hmap : ∀ e ∈ self.mWordTokenMap, isWordType e.2.mType = true)
    (ct : CType) (hct : CTypeOK ct) (wtext : LLWString)
    (text_len : Nat) (hL : text_len = wtext.length + 1) (fuel cur : Nat)
    (seg_list : List LLTextSegment) (hcur : cur ≤ wtext.length)
    (hfuel : wtext.length + 4 ≤ cur + fuel) (hne : seg_list ≠ [])
    (ht : Tiles 0 seg_list text_len) (hout : OuterInv self ct wtext cur)
    (hinv : RegionInv self ct wtext seg_list) (r : List LLTextSegment)
    (h : findSegmentsLoop self ct wtext text_len fuel cur seg_list = some r) :
    RegionInv self ct wtext r := by
  induction fuel generalizing cur seg_list with
  | zero => omega
  | succ fuel ih =>
    simp only [findSegmentsLoop] at h
    by_cases hc : (charAt wtext cur != 0) = true
    · rw [if_pos hc] at h
      have hc2 : charAt wtext cur ≠ 0 := by simpa using hc
      have hlt : cur < wtext.length := lt_length_of_charAt_ne_zero wtext cur hc2
      have hls : (decide (charAt wtext cur = 10) || decide (cur = 0)) = true := by
        rcases hout with g | g
        · exact absurd g hc2
        · simpa using g.1
      rw [if_pos hls] at h
      obtain ⟨flag, c1, r1, e, g1, g2, g3, g4, g5, g6⟩ := lineStart_spec self ct wtext
        text_len hL fuel cur seg_list hc2 (by omega) hne ht
      obtain ⟨k1, k2, k3⟩ := lineStart_regions self hline ct wtext text_len hL fuel cur seg_list hc2
        (by omega) hout hinv flag c1 r1 e
      rw [e] at h
      cases flag with
      | true =>
        simp only [] at h
        exact ih c1 r1 g2 (by have := g3 rfl; omega) g5 g6 (k2 rfl) k1 h
      | false =>
        simp only [] at h
        obtain ⟨c2, e1, h1, h2, h3, h4⟩ := scanWhile_spec (isSkippedSpace ct)
          (isSkippedSpace_zero ct) wtext fuel c1 g2 (by omega)
        rw [e1] at h
        simp only [] at h
        have hcc : c2 = c1 := by
          by_contra hn
          have := h4 c1 (le_refl _) (by omega)
          rw [(k3 rfl).2] at this
          exact Bool.noConfusion this
        subst hcc
        obtain ⟨c3, r3, e2, m1, m2, m3, m4, m5⟩ := lineLoop_spec self
          (fun d hd => standardDelimiters_ok d (hdel d hd)) ct wtext text_len hL fuel c2 r1 h2
          (by omega) g5 g6
        obtain ⟨n1, n2⟩ := lineLoop_regions self hdel hmap ct hct wtext text_len hL fuel c2 r1 h2
          (by omega) (k3 rfl).1 k1 c3 r3 e2
        rw [e2] at h
        simp only [] at h
        have hprog : cur < c3 := by
          have := m3 (g4 rfl).1
          omega
        exact ih c3 r3 m2 (by omega) m4 m5 n2 n1 h
    · rw [if_neg hc] at h
      have hr : seg_list = r := by simpa using h
      subst hr
      exact hinv

/-- A position in a segment of a comment, a string literal or a line token lies
in one of the ranges of the text. -/
theorem inRegion_of_covered (self : LLKeywords) (ct : CType) (wtext : LLWString)
    (segs : List LLTextSegment) (h : RegionInv self ct wtext segs) (s : Nat)
    (hc : Covered segs s) : inRegion self ct wtext s = true := by
  obtain ⟨x, hx, d, hd, hty, h1, h2⟩ := hc
  obtain ⟨r, hr, g1, g2⟩ := h.2.1 x hx d hd hty
  unfold inRegion
  rw [List.any_eq_true]
  refine ⟨r, hr, ?_⟩
  simp only [Bool.and_eq_true, decide_eq_true_eq]
  omega

/-- Claim C9, as amended: with the delimiters registered by `processTokens`,
word tokens in the word token map and a character classification in which
white space, the line feed and `0` are not word characters, the segments with
a word token that `findSegments` produces are exactly the words of the text
that start before the first character `0`, where the scan stops, and outside
the comments, string literals and lines with a line token of the text, which
`delimitedRegions` reads off the text alone. Every segment with a word token
covers the maximal run of word characters that starts at its start `s`, the
character before `s` (if any) is not a word character, the run is a key of the
word token map, no character up to `s` is `0`, and `s` lies outside the ranges
of the text. Every word whose start has no `0` up to it and lies outside the
ranges of the text has its segment. The segments of comments, string literals
and line tokens that `findSegments` produces lie within the ranges of the
text. A key that occurs only as a proper part of a longer run of word
characters has no segment. The lookup finds a token exactly for the keys of
the map. -/
theorem C9_word_token_segments (self : LLKeywords) (ct : CType) (wtext : LLWString)
    (hdel : ∀ d ∈ self.mDelimiterTokenList, d ∈ standardDelimiters)
    (hline : ∀ t ∈ self.mLineTokenList, isWordType t.mType = false)
    (hmap : ∀ e ∈ self.mWordTokenMap, isWordType e.2.mType = true)
    (hct : CTypeOK ct) :
    ∃ segs, self.findSegments ct wtext = some segs
      ∧ (∀ x ∈ segs, ∀ t, x.mToken = some t → isWordType t.mType = true →
          x.cls = SegmentClass.LLNormalTextSegment
            ∧ WordAt self ct wtext x.mStart x.mEnd t
            ∧ (∀ j, j ≤ x.mStart → charAt wtext j ≠ 0)
            ∧ inRegion self ct wtext x.mStart = false)
      ∧ (∀ s e t, WordAt self ct wtext s e t → (∀ j, j ≤ s → charAt wtext j ≠ 0) →
          inRegion self ct wtext s = false →
          (⟨SegmentClass.LLNormalTextSegment, s, e, some t⟩ : LLTextSegment) ∈ segs)
      ∧ (∀ s, Covered segs s → inRegion self ct wtext s = true)
      ∧ (∀ s e t, WordAt self ct wtext s e t → (∀ j, j ≤ s → charAt wtext j ≠ 0) →
          ¬ Covered segs s →
          (⟨SegmentClass.LLNormalTextSegment, s, e, some t⟩ : LLTextSegment) ∈ segs)
      ∧ (∀ s e, ((0 < s ∧ isWordChar ct (charAt wtext (s - 1)) = true)
            ∨ (e < wtext.length ∧ isWordChar ct (charAt wtext e) = true)) →
          ¬ ∃ x ∈ segs, x.mStart = s ∧ x.mEnd = e
              ∧ ∃ t, x.mToken = some t ∧ isWordType t.mType = true)
      ∧ (∀ run : LLWString,
          (∃ t, wordTokenMapFind self.mWordTokenMap (WStringMapIndex.ofRange run) = some t)
            ↔ ∃ e ∈ self.mWordTokenMap, e.1.mData = run) := by
  have hkey : ∀ run : LLWString,
      (∃ t, wordTokenMapFind self.mWordTokenMap (WStringMapIndex.ofRange run) = some t)
        ↔ ∃ e ∈ self.mWordTokenMap, e.1.mData = run :=
    fun run => wordTokenMapFind_isSome_iff self.mWordTokenMap (WStringMapIndex.ofRange run)
  have hmain : ∃ segs, self.findSegments ct wtext = some segs
      ∧ (∀ x ∈ segs, ∀ t, x.mToken = some t → isWordType t.mType = true →
          x.cls = SegmentClass.LLNormalTextSegment
            ∧ WordAt self ct wtext x.mStart x.mEnd t)
      ∧ (∀ s e t, WordAt self ct wtext s e t → (∀ j, j ≤ s → charAt wtext j ≠ 0) →
          ¬ Covered segs s →
          (⟨SegmentClass.LLNormalTextSegment, s, e, some t⟩ : LLTextSegment) ∈ segs)
      ∧ (∀ x ∈ segs, ∀ t, x.mToken = some t → isWordType t.mType = true →
          inRegion self ct wtext x.mStart = false ∧ ∀ j, j ≤ x.mStart → charAt wtext j ≠ 0)
      ∧ (∀ s, Covered segs s → inRegion self ct wtext s = true) := by
    by_cases hw : wtext = []
    · subst hw
      refine ⟨[], rfl, ?_, ?_, ?_, ?_⟩
      · intro x hx
        exact absurd hx (List.not_mem_nil x)
      · intro s e t hwa
        have h1 := hwa.1
        have h2 := hwa.2.1
        simp only [List.length_nil] at h2
        omega
      · intro x hx
        exact absurd hx (List.not_mem_nil x)
      · rintro s ⟨x, hx, _⟩
        exact absurd hx (List.not_mem_nil x)
    · have he : wtext.isEmpty = false := by
        cases wtext with
        | nil => exact absurd rfl hw
        | cons x xs => rfl
      have hne0 : [LLNormalTextSegment 0 (wtext.length + 1)] ≠ [] := by simp
      have ht0 : Tiles 0 [LLNormalTextSegment 0 (wtext.length + 1)] (wtext.length + 1) := by
        simp [Tiles, LLNormalTextSegment]
      obtain ⟨r, e, n1, t1⟩ := findSegmentsLoop_spec self
        (fun d hd => standardDelimiters_ok d (hdel d hd)) ct wtext (wtext.length + 1) rfl
        (wtext.length + 4) 0 [LLNormalTextSegment 0 (wtext.length + 1)] (Nat.zero_le _)
        (by omega) hne0 ht0
      have hlast0 : LastUntokened [LLNormalTextSegment 0 (wtext.length + 1)] :=
        ⟨[], _, rfl, rfl⟩
      have hinv0 : WordInv self ct wtext 0 [LLNormalTextSegment 0 (wtext.length + 1)] := by
        refine ⟨hlast0, ?_, ?_⟩
        · intro x hx t ht
          simp only [List.mem_singleton] at hx
          rw [hx] at ht
          exact Option.noConfusion ht
        · intro s e2 t hs
          omega
      have hreg0 : RegionInv self ct wtext [LLNormalTextSegment 0 (wtext.length + 1)] := by
        refine ⟨hlast0, ?_, ?_⟩
        · intro x hx t ht
          simp only [List.mem_singleton] at hx
          rw [hx] at ht
          exact Option.noConfusion ht
        · intro x hx t ht
          simp only [List.mem_singleton] at hx
          rw [hx] at ht
          exact Option.noConfusion ht
      have hout0 : OuterInv self ct wtext 0 := by
        by_cases hz : charAt wtext 0 = 0
        · exact Or.inl hz
        · right
          refine ⟨Or.inr rfl, ?_⟩
          by_cases h10 : charAt wtext 0 = 10
          · rw [if_pos h10]
            have hff : firstFail (isSkippedSpace ct) wtext 0 = 0 := by
              apply firstFail_eq _ _ _ _ (le_refl _) (Nat.zero_le _)
              · rw [h10]
                simp [isSkippedSpace]
              · intro j k1 k2
                omega
            have := scanReaches_fresh_newline self ct wtext 0 (scanReaches_start self ct wtext)
              (by rw [hff]; exact h10)
            rw [hff] at this
            exact this
          · rw [if_neg h10]
            exact scanReaches_start self ct wtext
      obtain ⟨z, hz, _, w2, w3⟩ := findSegmentsLoop_words self
        (fun d hd => ⟨standardDelimiters_ok d (hdel d hd),
          standardDelimiters_not_word d (hdel d hd)⟩) hline hmap ct hct wtext
        (wtext.length + 1) rfl (wtext.length + 4) 0 [LLNormalTextSegment 0 (wtext.length + 1)]
        (Nat.zero_le _) (by omega) hne0 ht0 hinv0 r e
      have hreg := findSegmentsLoop_regions self hdel hline hmap ct hct wtext
        (wtext.length + 1) rfl (wtext.length + 4) 0 [LLNormalTextSegment 0 (wtext.length + 1)]
        (Nat.zero_le _) (by omega) hne0 ht0 hout0 hreg0 r e
      refine ⟨r, ?_, w2, ?_, hreg.2.2, inRegion_of_covered self ct wtext r hreg⟩
      · simp only [LLKeywords.findSegments, he, Bool.false_eq_true, if_false]
        exact e
      · intro s e2 t hwa hnz hcov
        have hs : s < z := by
          by_contra hn
          exact hnz z (by omega) hz
        rcases w3 s e2 t hs hwa with g | g
        · exact g
        · exact absurd g hcov
  obtain ⟨segs, e, a, b, c, d⟩ := hmain
  refine ⟨segs, e, ?_, ?_, d, b, ?_, hkey⟩
  · intro x hx t ht hty
    exact ⟨(a x hx t ht hty).1, (a x hx t ht hty).2, (c x hx t ht hty).2, (c x hx t ht hty).1⟩
  · intro s e2 t hwa hnz hout
    apply b s e2 t hwa hnz
    intro hcov
    rw [d s hcov] at hout
    exact Bool.noConfusion hout
  · rintro s e2 hpart ⟨x, hx, hs, he2, t, ht, hty⟩
    have hwa := (a x hx t ht hty).2
    rw [hs, he2] at hwa
    rcases hpart with ⟨g1, g2⟩ | ⟨g1, g2⟩
    · exact not_wordAt_of_prev self ct wtext s e2 t g1 g2 hwa
    · rcases hwa.2.2.2.1 with k | k
      · omega
      · rw [g2] at k
        exact Bool.noConfusion k

/-- Witness for claim C9: the text `if "if"` with the control word `if`. -/
theorem C9_word_token_segments_witness :
    ∃ segs, exampleKeywords.findSegments asciiCType [105, 102, 32, 34, 105, 102, 34] = some segs
      ∧ (∀ x ∈ segs, ∀ t, x.mToken = some t → isWordType t.mType = true →
          x.cls = SegmentClass.LLNormalTextSegment
            ∧ WordAt exampleKeywords asciiCType [105, 102, 32, 34, 105, 102, 34]
                x.mStart x.mEnd t
            ∧ (∀ j, j ≤ x.mStart → charAt [105, 102, 32, 34, 105, 102, 34] j ≠ 0)
            ∧ inRegion exampleKeywords asciiCType [105, 102, 32, 34, 105, 102, 34] x.mStart
                = false)
      ∧ (∀ s e t, WordAt exampleKeywords asciiCType [105, 102, 32, 34, 105, 102, 34] s e t →
          (∀ j, j ≤ s → charAt [105, 102, 32, 34, 105, 102, 34] j ≠ 0) →
          inRegion exampleKeywords asciiCType [105, 102, 32, 34, 105, 102, 34] s = false →
          (⟨SegmentClass.LLNormalTextSegment, s, e, some t⟩ : LLTextSegment) ∈ segs)
      ∧ (∀ s, Covered segs s →
          inRegion exampleKeywords asciiCType [105, 102, 32, 34, 105, 102, 34] s = true)
      ∧ (∀ s e t, WordAt exampleKeywords asciiCType [105, 102, 32, 34, 105, 102, 34] s e t →
          (∀ j, j ≤ s → charAt [105, 102, 32, 34, 105, 102, 34] j ≠ 0) →
          ¬ Covered segs s →
          (⟨SegmentClass.LLNormalTextSegment, s, e, some t⟩ : LLTextSegment) ∈ segs)
      ∧ (∀ s e, ((0 < s ∧ isWordChar asciiCType
              (charAt [105, 102, 32, 34, 105, 102, 34] (s - 1)) = true)
            ∨ (e < ([105, 102, 32, 34, 105, 102, 34] : LLWString).length
              ∧ isWordChar asciiCType (charAt [105, 102, 32, 34, 105, 102, 34] e) = true)) →
          ¬ ∃ x ∈ segs, x.mStart = s ∧ x.mEnd = e
              ∧ ∃ t, x.mToken = some t ∧ isWordType t.mType = true)
      ∧ (∀ run : LLWString,
          (∃ t, wordTokenMapFind exampleKeywords.mWordTokenMap
              (WStringMapIndex.ofRange run) = some t)
            ↔ ∃ e ∈ exampleKeywords.mWordTokenMap, e.1.mData = run) :=
  C9_word_token_segments exampleKeywords asciiCType [105, 102, 32, 34, 105, 102, 34]
    (fun _ hd => hd) (by decide) (by decide) asciiCType_ok

/-- The segments that `findSegments` produces for the text `if xif`: the word
`if` at the start has its segment, the `if` inside `xif` has none. -/
theorem findSegments_example :
    exampleKeywords.findSegments asciiCType [105, 102, 32, 120, 105, 102]
      = some [⟨SegmentClass.LLNormalTextSegment, 0, 2,
                some ⟨ETokenType.TT_CONTROL, [105, 102], []⟩⟩,
              ⟨SegmentClass.LLNormalTextSegment, 2, 7, none⟩] := by
  decide

/-- The ranges of the text `"if" if // if`, read off the text: the string
literal `[0, 4)` and the comment `[8, 13)`. The `if` at 1 and the `if` at 11
lie in them, the `if` at 5 lies outside, and it is the one for which
`findSegments` produces a segment with the token of the control word. -/
theorem delimitedRegions_example :
    delimitedRegions exampleKeywords asciiCType
        [34, 105, 102, 34, 32, 105, 102, 32, 47, 47, 32, 105, 102] = [(0, 4), (8, 13)]
    ∧ inRegion exampleKeywords asciiCType
        [34, 105, 102, 34, 32, 105, 102, 32, 47, 47, 32, 105, 102] 1 = true
    ∧ inRegion exampleKeywords asciiCType
        [34, 105, 102, 34, 32, 105, 102, 32, 47, 47, 32, 105, 102] 5 = false
    ∧ inRegion exampleKeywords asciiCType
        [34, 105, 102, 34, 32, 105, 102, 32, 47, 47, 32, 105, 102] 11 = true
    ∧ exampleKeywords.findSegments asciiCType
        [34, 105, 102, 34, 32, 105, 102, 32, 47, 47, 32, 105, 102]
      = some [⟨SegmentClass.LLNormalTextSegment, 0, 4, some dqToken⟩,
              ⟨SegmentClass.LLNormalTextSegment, 4, 5, none⟩,
              ⟨SegmentClass.LLNormalTextSegment, 5, 7,
                some ⟨ETokenType.TT_CONTROL, [105, 102], []⟩⟩,
              ⟨SegmentClass.LLNormalTextSegment, 7, 8, none⟩,
              ⟨SegmentClass.LLNormalTextSegment, 8, 13,
                some ⟨ETokenType.TT_ONE_SIDED_DELIMITER, [47, 47], []⟩⟩,
              ⟨SegmentClass.LLNormalTextSegment, 13, 14, none⟩] := by
  decide

/-- Counterexample to claim C9 as stated: in the text with the characters
`0`, `i`, `f` the range `[1, 3)` is the word `if`, a key of the word token
map, outside every comment and string literal, and yet `findSegments` stops at
the `0` and produces the single segment `[0, 4)` without token. -/
theorem C9_word_after_zero_has_no_segment :
    exampleKeywords.findSegments asciiCType [0, 105, 102]
        = some [⟨SegmentClass.LLNormalTextSegment, 0, 4, none⟩]
    ∧ WordAt exampleKeywords asciiCType [0, 105, 102] 1 3 ⟨ETokenType.TT_CONTROL, [105, 102], []⟩
    ∧ inRegion exampleKeywords asciiCType [0, 105, 102] 1 = false
    ∧ delimitedRegions exampleKeywords asciiCType [0, 105, 102] = []
    ∧ ¬ Covered [⟨SegmentClass.LLNormalTextSegment, 0, 4, none⟩] 1
    ∧ (⟨SegmentClass.LLNormalTextSegment, 1, 3,
          some ⟨ETokenType.TT_CONTROL, [105, 102], []⟩⟩ : LLTextSegment)
        ∉ [(⟨SegmentClass.LLNormalTextSegment, 0, 4, none⟩ : LLTextSegment)] := by
  refine ⟨by decide, ⟨by decide, by decide, ?_, Or.inl rfl, Or.inr (by decide), by decide⟩,
    by decide, by decide, ?_, by decide⟩
  · intro i h1 h2
    have hi : i = 1 ∨ i = 2 := by omega
    rcases hi with hi | hi <;> subst hi <;> decide
  · rintro ⟨x, hx, d, hd, _⟩
    simp only [List.mem_singleton] at hx
    rw [hx] at hd
    exact Option.noConfusion hd

/-! ## The purge of the disk cache -/

/-- The deletion loop removes a prefix, leaves a total that fits, and stops as
soon as the total fits. -/
theorem purgeLoop_spec (m : Nat) (l : List CacheFile) :
    ∃ deleted, l = deleted ++ purgeLoop m l
      ∧ totalSize (purgeLoop m l) ≤ m
      ∧ ∀ pre suf, deleted = pre ++ suf → suf ≠ [] → m < totalSize (suf ++ purgeLoop m l) := by
  induction l with
  | nil =>
    refine ⟨[], rfl, by simp [purgeLoop, totalSize], ?_⟩
    intro pre suf h hne
    have := List.append_eq_nil.mp h.symm
    exact absurd this.2 hne
  | cons f rest ih =>
    by_cases hgt : totalSize (f :: rest) > m
    · obtain ⟨del, h1, h2, h3⟩ := ih
      have e : purgeLoop m (f :: rest) = purgeLoop m rest := by
        simp only [purgeLoop, hgt, if_true]
      rw [e]
      refine ⟨f :: del, by rw [List.cons_append, ← h1], h2, ?_⟩
      intro pre suf h hne
      cases pre with
      | nil =>
        simp only [List.nil_append] at h
        rw [← h, List.cons_append, ← h1]
        exact hgt
      | cons p ps =>
        simp only [List.cons_append, List.cons.injEq] at h
        exact h3 ps suf h.2 hne
    · have e : purgeLoop m (f :: rest) = f :: rest := by
        simp only [purgeLoop, hgt, if_false]
      rw [e]
      refine ⟨[], rfl, not_lt.mp hgt, ?_⟩
      intro pre suf h hne
      have := List.append_eq_nil.mp h.symm
      exact absurd this.2 hne

/-- Claim C10: `purge` deletes the oldest files first (the deleted files are an
initial part of the files sorted by last access time), and only until the
remaining files fit: afterwards the total size of the cache files does not
exceed `mMaxSizeBytes`, no deleted file is newer than a kept file, and putting
back any of the deleted files together with all newer ones would exceed the
limit. -/
theorem C10_purge_oldest_first_until_fits (mMaxSizeBytes : Nat) (files : List CacheFile) :
    ∃ deleted : List CacheFile,
      sortByLastAccess files = deleted ++ purge mMaxSizeBytes files
      ∧ List.Perm (deleted ++ purge mMaxSizeBytes files) files
      ∧ totalSize (purge mMaxSizeBytes files) ≤ mMaxSizeBytes
      ∧ (∀ d ∈ deleted, ∀ k ∈ purge mMaxSizeBytes files, d.mtime ≤ k.mtime)
      ∧ (∀ pre suf, deleted = pre ++ suf → suf ≠ [] →
          mMaxSizeBytes < totalSize (suf ++ purge mMaxSizeBytes files)) := by
  obtain ⟨del, h1, h2, h3⟩ := purgeLoop_spec mMaxSizeBytes (sortByLastAccess files)
  refine ⟨del, h1, ?_, h2, ?_, h3⟩
  · have hp : List.Perm (sortByLastAccess files) files := List.perm_insertionSort _ files
    unfold purge
    rw [← h1]
    exact hp
  · haveI : IsTotal CacheFile (fun a b => a.mtime ≤ b.mtime) := ⟨fun a b => Nat.le_total _ _⟩
    haveI : IsTrans CacheFile (fun a b => a.mtime ≤ b.mtime) :=
      ⟨fun _ _ _ hab hbc => Nat.le_trans hab hbc⟩
    have hs : List.Sorted (fun a b : CacheFile => a.mtime ≤ b.mtime) (sortByLastAccess files) :=
      List.sorted_insertionSort _ files
    unfold purge
    rw [h1] at hs
    intro d hd k hk
    exact (List.pairwise_append.mp hs).2.2 d hd k hk

/-- The purge of three files of 6, 1 and 6 bytes under a limit of 10 bytes:
the oldest file goes, the two newer ones stay. -/
theorem purge_example :
    purge 10 [⟨30, 6, "c"⟩, ⟨10, 6, "a"⟩, ⟨20, 1, "b"⟩] = [⟨20, 1, "b"⟩, ⟨30, 6, "c"⟩] := by
  decide

/-! ## The untrusted commands of the group handler -/

/-- C14: `canHandleUntrusted` returns false exactly when `params` is not empty,
`nav_type` is neither `NAV_TYPE_CLICKED` nor `NAV_TYPE_EXTERNAL`, and
`params[0]` converts to the string "create"; on every other input, among them
every `params` without an element, it returns true. -/
theorem C14_canHandleUntrusted_false_iff (NAV_TYPE_CLICKED NAV_TYPE_EXTERNAL : String)
    (params : LLSD) (nav_type : String) :
    (LLGroupCommandHandler.canHandleUntrusted NAV_TYPE_CLICKED NAV_TYPE_EXTERNAL params
        nav_type = false ↔
      (1 ≤ params.size ∧ nav_type ≠ NAV_TYPE_CLICKED ∧ nav_type ≠ NAV_TYPE_EXTERNAL
        ∧ (params.index 0).asString = "create"))
    ∧ (LLGroupCommandHandler.canHandleUntrusted NAV_TYPE_CLICKED NAV_TYPE_EXTERNAL params
        nav_type = true ↔
      (params.size = 0 ∨ nav_type = NAV_TYPE_CLICKED ∨ nav_type = NAV_TYPE_EXTERNAL
        ∨ (params.index 0).asString ≠ "create")) := by
  unfold LLGroupCommandHandler.canHandleUntrusted
  by_cases h1 : params.size < 1
  · have h0 : params.size = 0 := by omega
    simp [h0]
  · have h0 : params.size ≠ 0 := by omega
    have h2 : 1 ≤ params.size := by omega
    by_cases hc : nav_type = NAV_TYPE_CLICKED
    · simp [h1, hc]
    · by_cases he : nav_type = NAV_TYPE_EXTERNAL
      · simp [h1, he]
      · by_cases hv : (params.index 0).asString = "create"
        · simp [h0, h2, hc, he, hv]
        · simp [h0, h2, hc, he, hv]

/-- The handler on three concrete inputs, with the values "clicked" and
"external" for the two constants: the verb "create" from another navigation
type is refused, the same verb after a click is let through, and so is a map,
whose element `0` is undefined. -/
theorem canHandleUntrusted_example :
    LLGroupCommandHandler.canHandleUntrusted "clicked" "external"
        (LLSD.array [LLSD.scalar "create"]) "navigated" = false
    ∧ LLGroupCommandHandler.canHandleUntrusted "clicked" "external"
        (LLSD.array [LLSD.scalar "create"]) "clicked" = true
    ∧ LLGroupCommandHandler.canHandleUntrusted "clicked" "external"
        (LLSD.map [("create", LLSD.scalar "create")]) "navigated" = true
    ∧ LLGroupCommandHandler.canHandleUntrusted "clicked" "external"
        (LLSD.array []) "navigated" = true := by
  decide

/-! ## The update of the reset skeleton effect -/

theorem operator_eq_iff (a b : LLUUID) : a.operator_eq b = true ↔ a = b := by
  unfold LLUUID.operator_eq
  rw [decide_eq_true_iff]
  constructor
  · intro h
    cases a
    cases b
    congr
    funext i
    exact h i
  · intro h i
    rw [h]

/-- The calls of `update` when target and source are present and not dead: one
`resetSkeleton` on the target if it is owned and an avatar or animated object,
and `markDead`. -/
theorem update_alive {β : Type} (self : LLHUDEffectResetSkeleton β) (t s : LLViewerObject)
    (ht : self.mTargetObject = some t) (hs : self.mSourceObject = some s)
    (htd : t.isDead = false) (hsd : s.isDead = false) :
    self.update.2 =
      (if ((t.isAvatar || t.isAnimatedObject)
          && (self.mOriginatedHere
            || (t.isAnimatedObject && t.mOwnerID.operator_eq s.mID)
            || (!t.isAnimatedObject && t.mID.operator_eq s.mID))) = true
        then [EffectEvent.resetSkeleton t self.mResetAnimations, EffectEvent.markDead]
        else [EffectEvent.markDead]) := by
  unfold LLHUDEffectResetSkeleton.update
  simp only [ht, hs, htd, hsd, LLViewerObject.getID]
  cases ho : self.mOriginatedHere <;> cases ha : t.isAnimatedObject <;>
    cases hv : t.isAvatar <;>
    cases h1 : t.mOwnerID.operator_eq s.mID <;>
    cases h2 : t.mID.operator_eq s.mID <;>
    rfl

/-- The calls of `update` when the target or the source is absent or dead:
`markDead` alone. -/
theorem update_not_alive {β : Type} (self : LLHUDEffectResetSkeleton β)
    (h : ¬ ∃ t s, self.mTargetObject = some t ∧ self.mSourceObject = some s
      ∧ t.isDead = false ∧ s.isDead = false) :
    self.update.2 = [EffectEvent.markDead] := by
  unfold LLHUDEffectResetSkeleton.update
  cases ht : self.mTargetObject with
  | none => rfl
  | some t =>
    cases htd : t.isDead with
    | true => simp [htd]
    | false =>
      cases hs : self.mSourceObject with
      | none => simp [htd]
      | some s =>
        cases hsd : s.isDead with
        | true => simp [htd, hsd]
        | false => exact absurd ⟨t, s, ht, hs, htd, hsd⟩ h

theorem update_mDead {β : Type} (self : LLHUDEffectResetSkeleton β) :
    self.update.1.mDead = true := by
  unfold LLHUDEffectResetSkeleton.update
  cases self.mTargetObject with
  | none => rfl
  | some t =>
    cases htd : t.isDead with
    | true => simp [htd, LLHUDEffectResetSkeleton.markDead]
    | false =>
      cases self.mSourceObject with
      | none => simp [htd, LLHUDEffectResetSkeleton.markDead]
      | some s =>
        cases hsd : s.isDead with
        | true => simp [htd, hsd, LLHUDEffectResetSkeleton.markDead]
        | false => simp [htd, hsd, LLHUDEffectResetSkeleton.markDead]

/-- C13: `update` calls `resetSkeleton` only on an owned target. The call is
made on an object `t` with a flag `f` exactly when `t` is the target, `f` is
`mResetAnimations`, target and source are both present and not dead, the target
is an avatar or an animated object, and the effect originated here, or the
target is an animated object whose owner id is the id of the source, or the
target is not an animated object and its id is the id of the source. The calls
made are either `markDead` alone or one `resetSkeleton` followed by `markDead`,
and the effect is dead afterwards. -/
theorem C13_update_resets_owned_target {β : Type} (self : LLHUDEffectResetSkeleton β) :
    (∀ (t : LLViewerObject) (f : Bool),
      EffectEvent.resetSkeleton t f ∈ self.update.2 ↔
        (self.mTargetObject = some t ∧ f = self.mResetAnimations ∧ t.isDead = false
          ∧ ∃ s, self.mSourceObject = some s ∧ s.isDead = false
            ∧ (t.isAvatar = true ∨ t.isAnimatedObject = true)
            ∧ (self.mOriginatedHere = true
              ∨ (t.isAnimatedObject = true ∧ t.mOwnerID = s.mID)
              ∨ (t.isAnimatedObject = false ∧ t.mID = s.mID))))
    ∧ (self.update.2 = [EffectEvent.markDead]
      ∨ ∃ t, self.mTargetObject = some t
        ∧ self.update.2
          = [EffectEvent.resetSkeleton t self.mResetAnimations, EffectEvent.markDead])
    ∧ self.update.1.mDead = true := by
  refine ⟨?_, ?_, update_mDead self⟩
  · intro t f
    by_cases h : ∃ t s, self.mTargetObject = some t ∧ self.mSourceObject = some s
        ∧ t.isDead = false ∧ s.isDead = false
    · obtain ⟨t0, s0, ht, hs, htd, hsd⟩ := h
      rw [update_alive self t0 s0 ht hs htd hsd, ht, hs]
      have e1 := operator_eq_iff t0.mOwnerID s0.mID
      have e2 := operator_eq_iff t0.mID s0.mID
      constructor
      · intro hm
        split at hm
        · rename_i hc
          simp only [List.mem_cons, EffectEvent.resetSkeleton.injEq, reduceCtorEq,
            List.mem_singleton, or_false, List.not_mem_nil] at hm
          obtain ⟨rfl, rfl⟩ := hm
          simp only [Bool.and_eq_true, Bool.or_eq_true, Bool.not_eq_true', e1, e2] at hc
          exact ⟨rfl, rfl, htd, s0, rfl, hsd, hc.1, by tauto⟩
        · simp at hm
      · rintro ⟨h1, rfl, _, s, h2, _, h3, h4⟩
        have ht0 : t0 = t := Option.some.inj h1
        have hs0 : s0 = s := Option.some.inj h2
        rw [← ht0] at h3 h4 ⊢
        rw [← hs0] at h4
        have hc : ((t0.isAvatar || t0.isAnimatedObject)
          && (self.mOriginatedHere
            || (t0.isAnimatedObject && t0.mOwnerID.operator_eq s0.mID)
            || (!t0.isAnimatedObject && t0.mID.operator_eq s0.mID))) = true := by
          simp only [Bool.and_eq_true, Bool.or_eq_true, Bool.not_eq_true', e1, e2]
          exact ⟨h3, by tauto⟩
        rw [if_pos hc]
        simp
    · rw [update_not_alive self h]
      constructor
      · intro hm
        simp at hm
      · rintro ⟨h1, _, h2, s, h3, h4, _⟩
        exact absurd ⟨t, s, h1, h3, h2, h4⟩ h
  · by_cases h : ∃ t s, self.mTargetObject = some t ∧ self.mSourceObject = some s
        ∧ t.isDead = false ∧ s.isDead = false
    · obtain ⟨t0, s0, ht, hs, htd, hsd⟩ := h
      rw [update_alive self t0 s0 ht hs htd hsd]
      split
      · exact Or.inr ⟨t0, ht, rfl⟩
      · exact Or.inl rfl
    · exact Or.inl (update_not_alive self h)

/-! ## The type data of the reset skeleton effect -/

/-- The packet of the example effect: the bytes `1, ..., 16` of the target id
and the byte `1` of the flag; its decoding gives the same id and flag. -/
theorem packData_example :
    exampleEffect.packData = [1, 2, 3, 4, 5, 6, 7, 8, 9, 10, 11, 12, 13, 14, 15, 16, 1]
    ∧ (unpackTypeData false exampleEffect.packData LLUUID.null).1.bytes
      = exampleAvatar.mID.bytes
    ∧ (unpackTypeData false exampleEffect.packData LLUUID.null).2 = true := by
  decide

/-! ## The packets that `unpackData` rejects -/

/-- C12: `unpackData` rejects a packet whose type data is not exactly
`PKT_SIZE = 17` bytes long, or whose source agent id does not resolve to an
avatar object: it makes none of the calls that are recorded, neither the read
of the type data nor `update()` nor `resetSkeleton` nor `markDead`, and leaves
the target object, `mResetAnimations` and the dead flag as they were. -/
theorem C12_unpackData_rejects {β : Type} (sse41 : Bool) (LLHUDEffect_unpackData : β → β)
    (findObject : LLUUID → Option LLViewerObject) (self : LLHUDEffectResetSkeleton β)
    (mesgsys : EffectBlock)
    (h : mesgsys.TypeData.length ≠ PKT_SIZE
      ∨ ¬ ∃ o, findObject mesgsys.AgentID = some o ∧ o.isAvatar = true) :
    (self.unpackData sse41 LLHUDEffect_unpackData findObject mesgsys).2 = []
    ∧ (self.unpackData sse41 LLHUDEffect_unpackData findObject mesgsys).1.mTargetObject
        = self.mTargetObject
    ∧ (self.unpackData sse41 LLHUDEffect_unpackData findObject mesgsys).1.mResetAnimations
        = self.mResetAnimations
    ∧ (self.unpackData sse41 LLHUDEffect_unpackData findObject mesgsys).1.mDead
        = self.mDead := by
  unfold LLHUDEffectResetSkeleton.unpackData
  cases ho : findObject mesgsys.AgentID with
  | none => simp [ho]
  | some o =>
    cases ha : o.isAvatar with
    | false => simp [ho, ha]
    | true =>
      have hs : mesgsys.TypeData.length ≠ PKT_SIZE := by
        rcases h with h | h
        · exact h
        · exact absurd ⟨o, ho, ha⟩ h
      simp [ho, ha, hs, LLHUDEffectResetSkeleton.setSourceObject]

theorem C12_unpackData_rejects_witness :
    (EffectBlock.mk exampleAvatar.mID [1, 2, 3]).TypeData.length ≠ PKT_SIZE
    ∧ (exampleEffect.unpackData false id exampleFindObject
        (EffectBlock.mk exampleAvatar.mID [1, 2, 3])).2 = []
    ∧ (exampleEffect.unpackData false id exampleFindObject
        (EffectBlock.mk exampleAvatar.mID [1, 2, 3])).1.mTargetObject
        = exampleEffect.mTargetObject
    ∧ (exampleEffect.unpackData false id exampleFindObject
        (EffectBlock.mk exampleAvatar.mID [1, 2, 3])).1.mResetAnimations
        = exampleEffect.mResetAnimations
    ∧ (exampleEffect.unpackData false id exampleFindObject
        (EffectBlock.mk exampleAvatar.mID [1, 2, 3])).1.mDead
        = exampleEffect.mDead :=
  ⟨by decide,
    C12_unpackData_rejects false id exampleFindObject exampleEffect
      (EffectBlock.mk exampleAvatar.mID [1, 2, 3]) (Or.inl (by decide))⟩

/-- A packet of `PKT_SIZE` bytes from an agent that resolves to an avatar is
not rejected: the type data is read and `update()` is called. -/
theorem unpackData_accepts {β : Type} (sse41 : Bool) (LLHUDEffect_unpackData : β → β)
    (findObject : LLUUID → Option LLViewerObject) (self : LLHUDEffectResetSkeleton β)
    (mesgsys : EffectBlock) (o : LLViewerObject)
    (ho : findObject mesgsys.AgentID = some o) (ha : o.isAvatar = true)
    (hs : mesgsys.TypeData.length = PKT_SIZE) :
    ∃ calls, (self.unpackData sse41 LLHUDEffect_unpackData findObject mesgsys).2
      = EffectEvent.getBinaryData :: EffectEvent.update :: calls := by
  unfold LLHUDEffectResetSkeleton.unpackData
  simp only [ho, ha, hs, if_true, ne_eq, not_true_eq_false, if_false]
  exact ⟨_, rfl⟩

/-- The example effect unpacks the packet that it packs, sent by the example
avatar: the type data is read, `update()` resets the skeleton of the avatar
with animations and marks the effect dead. -/
theorem unpackData_example :
    (exampleEffect.unpackData false id exampleFindObject
        (EffectBlock.mk exampleAvatar.mID exampleEffect.packData)).2
      = [EffectEvent.getBinaryData, EffectEvent.update,
          EffectEvent.resetSkeleton exampleAvatar true, EffectEvent.markDead] := by
  rfl

end MyAlchemy
